import Mathlib

set_option maxHeartbeats 1000000

namespace Flax

/-- Modelled from the spec: the leaf payload of a tagged leaf attribute.  The
underlying value "may be an explicit empty placeholder" (spec section 3); concrete
payloads are abstracted as natural numbers. -/
inductive LeafVal where
  | empty : LeafVal
  | val : Nat → LeafVal
deriving DecidableEq, Repr

/-- Modelled from the spec: one named attribute of a Node — a tagged leaf, a
child reference (an arena handle, per the spec section 9 design note that child
attributes store stable integer handles), or an opaque static field. -/
inductive Attr where
  | leaf : String → LeafVal → Attr
  | child : Nat → Attr
  | static : Nat → Attr
deriving DecidableEq, Repr

/-- Modelled from the spec: a Node is a mutable entity with a constructor/type
identity and named attributes enumerated in a stable definition order. -/
structure Node where
  type : String
  attrs : List (String × Attr)
deriving DecidableEq, Repr

/-- Modelled from the spec: a live Node graph, represented as an arena of Node
records addressed by stable integer handles (spec section 9), with a root handle. -/
structure Graph where
  nodes : List Node
  root : Nat
deriving DecidableEq, Repr

/-- A Path is an ordered sequence of attribute names (spec section 3). -/
abbrev Path := List String

def Node.names (nd : Node) : List String := nd.attrs.map Prod.fst

/-- The child handles referenced from an attribute list. -/
def childrenOf (attrs : List (String × Attr)) : List Nat :=
  attrs.filterMap fun a =>
    match a.2 with
    | .child h => some h
    | _ => none

def Node.childHandles (nd : Node) : List Nat := childrenOf nd.attrs

/-- Well-formedness of a live graph: the root handle is valid, every child
handle is valid, and each Node's attribute names are distinct (attribute names
of one object are unique). -/
def Graph.wf (g : Graph) : Prop :=
  g.root < g.nodes.length ∧
    ∀ nd ∈ g.nodes, nd.names.Nodup ∧ ∀ h ∈ nd.childHandles, h < g.nodes.length

instance (g : Graph) : Decidable g.wf := by
  unfold Graph.wf
  infer_instance

mutual
/-- Modelled from the spec: a GraphDef node (spec section 3): type identity,
registry index, ordered static fields, ordered leaf slots (name, tag), and
ordered children entries. -/
inductive GraphDef where
  | mk : String → Nat → List (String × Nat) → List (String × String) → ChildList → GraphDef
/-- Modelled from the spec: the ordered (name, reference) children list of a
GraphDef node, each reference either a nested GraphDef (first visit) or a bare
back-reference index. -/
inductive ChildList where
  | nil : ChildList
  | consSub : String → GraphDef → ChildList → ChildList
  | consRef : String → Nat → ChildList → ChildList
end

deriving instance DecidableEq for GraphDef, ChildList
deriving instance Repr for GraphDef, ChildList

def GraphDef.type : GraphDef → String
  | .mk t _ _ _ _ => t

def GraphDef.index : GraphDef → Nat
  | .mk _ i _ _ _ => i

def GraphDef.statics : GraphDef → List (String × Nat)
  | .mk _ _ sf _ _ => sf

def GraphDef.leafSlots : GraphDef → List (String × String)
  | .mk _ _ _ ls _ => ls

def GraphDef.children : GraphDef → ChildList
  | .mk _ _ _ _ cs => cs

/-- One flattened leaf entry: its Path, its tag, and its value. -/
structure FLeaf where
  path : Path
  tag : String
  val : LeafVal
deriving DecidableEq, Repr

/-- A State is an ordered mapping from Path to leaf value (spec section 3). -/
abbrev StateL := List (Path × LeafVal)

/-- Identity Registry lookup (spec section 4.1): the index previously assigned
to a handle is its position in the registration-order list. -/
def regIndex : List Nat → Nat → Option Nat
  | [], _ => none
  | x :: xs, h => if x = h then some 0 else (regIndex xs h).map (· + 1)

/-- Result of flattening the attribute list of one Node. -/
structure ARes where
  sf : List (String × Nat)
  ls : List (String × String)
  cs : ChildList
  flat : List FLeaf
  reg : List Nat

/-- Result of flattening one Node. -/
structure NRes where
  d : GraphDef
  flat : List FLeaf
  reg : List Nat

mutual
/-- Modelled from the spec: the Flatten Engine's visit of one Node (spec
section 4.2).  The Node is registered (its index is the number of previously
registered handles), then its attributes are walked in definition order.
Recursion is fuel-bounded; fuel sufficiency is proved separately. -/
def flattenN (g : Graph) (fuel : Nat) (h : Nat) (path : Path) (reg : List Nat) :
    Option NRes :=
  match fuel with
  | 0 => none
  | fuel + 1 =>
    match g.nodes[h]? with
    | none => none
    | some nd =>
      match flattenAttrs g fuel nd.attrs path (reg ++ [h]) with
      | none => none
      | some r => some ⟨.mk nd.type reg.length r.sf r.ls r.cs, r.flat, r.reg⟩
termination_by (fuel, 0)
/-- Modelled from the spec: the Flatten Engine's walk over one Node's attribute
list in definition order (spec section 4.2).  Static fields are copied verbatim;
each leaf contributes a (path, tag, value) entry and a (name, tag) leaf slot; a
child already in the registry becomes a back-reference and is not redescended
into, otherwise the engine recurses. -/
def flattenAttrs (g : Graph) (fuel : Nat) (attrs : List (String × Attr))
    (path : Path) (reg : List Nat) : Option ARes :=
  match attrs with
  | [] => some ⟨[], [], .nil, [], reg⟩
  | (name, a) :: rest =>
    match a with
    | .static v =>
      (flattenAttrs g fuel rest path reg).map fun r =>
        ⟨(name, v) :: r.sf, r.ls, r.cs, r.flat, r.reg⟩
    | .leaf tag v =>
      (flattenAttrs g fuel rest path reg).map fun r =>
        ⟨r.sf, (name, tag) :: r.ls, r.cs, ⟨path ++ [name], tag, v⟩ :: r.flat, r.reg⟩
    | .child hc =>
      match regIndex reg hc with
      | some i =>
        (flattenAttrs g fuel rest path reg).map fun r =>
          ⟨r.sf, r.ls, .consRef name i r.cs, r.flat, r.reg⟩
      | none =>
        match flattenN g fuel hc (path ++ [name]) reg with
        | none => none
        | some rn =>
          (flattenAttrs g fuel rest path rn.reg).map fun r =>
            ⟨r.sf, r.ls, .consSub name rn.d r.cs, rn.flat ++ r.flat, r.reg⟩
termination_by (fuel, attrs.length + 1)
end

/-- Modelled from the spec: flatten a whole graph from its root with an empty
registry; the fuel budget (number of nodes plus one) is proved sufficient for
well-formed graphs. -/
def splitRaw (g : Graph) : Option (GraphDef × List FLeaf) :=
  (flattenN g (g.nodes.length + 1) g.root [] []).map fun r => (r.d, r.flat)

theorem fN_zero (g : Graph) (h : Nat) (path : Path) (reg : List Nat) :
    flattenN g 0 h path reg = none := by
  rw [flattenN]

theorem fN_succ_none (g : Graph) (fuel h : Nat) (path : Path) (reg : List Nat)
    (hg : g.nodes[h]? = none) : flattenN g (fuel + 1) h path reg = none := by
  rw [flattenN, hg]

theorem fN_succ_anone (g : Graph) (fuel h : Nat) (path : Path) (reg : List Nat)
    (nd : Node) (hg : g.nodes[h]? = some nd)
    (ha : flattenAttrs g fuel nd.attrs path (reg ++ [h]) = none) :
    flattenN g (fuel + 1) h path reg = none := by
  rw [flattenN, hg]
  exact (congrArg (fun o => match o with
    | none => none
    | some (r : ARes) => some (⟨.mk nd.type reg.length r.sf r.ls r.cs, r.flat, r.reg⟩ : NRes)) ha)

theorem fN_succ (g : Graph) (fuel h : Nat) (path : Path) (reg : List Nat)
    (nd : Node) (ra : ARes) (hg : g.nodes[h]? = some nd)
    (ha : flattenAttrs g fuel nd.attrs path (reg ++ [h]) = some ra) :
    flattenN g (fuel + 1) h path reg =
      some ⟨.mk nd.type reg.length ra.sf ra.ls ra.cs, ra.flat, ra.reg⟩ := by
  rw [flattenN, hg]
  exact (congrArg (fun o => match o with
    | none => none
    | some (r : ARes) => some (⟨.mk nd.type reg.length r.sf r.ls r.cs, r.flat, r.reg⟩ : NRes)) ha)

theorem fA_nil (g : Graph) (fuel : Nat) (path : Path) (reg : List Nat) :
    flattenAttrs g fuel [] path reg = some ⟨[], [], .nil, [], reg⟩ := by
  rw [flattenAttrs]

theorem fA_static (g : Graph) (fuel : Nat) (name : String) (v : Nat)
    (rest : List (String × Attr)) (path : Path) (reg : List Nat) :
    flattenAttrs g fuel ((name, .static v) :: rest) path reg =
      (flattenAttrs g fuel rest path reg).map fun r =>
        ⟨(name, v) :: r.sf, r.ls, r.cs, r.flat, r.reg⟩ := by
  rw [flattenAttrs]

theorem fA_leaf (g : Graph) (fuel : Nat) (name tag : String) (v : LeafVal)
    (rest : List (String × Attr)) (path : Path) (reg : List Nat) :
    flattenAttrs g fuel ((name, .leaf tag v) :: rest) path reg =
      (flattenAttrs g fuel rest path reg).map fun r =>
        ⟨r.sf, (name, tag) :: r.ls, r.cs, ⟨path ++ [name], tag, v⟩ :: r.flat, r.reg⟩ := by
  rw [flattenAttrs]

theorem fA_child_old (g : Graph) (fuel : Nat) (name : String) (hc i : Nat)
    (rest : List (String × Attr)) (path : Path) (reg : List Nat)
    (hreg : regIndex reg hc = some i) :
    flattenAttrs g fuel ((name, .child hc) :: rest) path reg =
      (flattenAttrs g fuel rest path reg).map fun r =>
        ⟨r.sf, r.ls, .consRef name i r.cs, r.flat, r.reg⟩ := by
  rw [flattenAttrs, hreg]

theorem fA_child_new_none (g : Graph) (fuel : Nat) (name : String) (hc : Nat)
    (rest : List (String × Attr)) (path : Path) (reg : List Nat)
    (hreg : regIndex reg hc = none)
    (hn : flattenN g fuel hc (path ++ [name]) reg = none) :
    flattenAttrs g fuel ((name, .child hc) :: rest) path reg = none := by
  rw [flattenAttrs, hreg, hn]

theorem fA_child_new (g : Graph) (fuel : Nat) (name : String) (hc : Nat)
    (rest : List (String × Attr)) (path : Path) (reg : List Nat) (rn : NRes)
    (hreg : regIndex reg hc = none)
    (hn : flattenN g fuel hc (path ++ [name]) reg = some rn) :
    flattenAttrs g fuel ((name, .child hc) :: rest) path reg =
      (flattenAttrs g fuel rest path rn.reg).map fun r =>
        ⟨r.sf, r.ls, .consSub name rn.d r.cs, rn.flat ++ r.flat, r.reg⟩ := by
  rw [flattenAttrs, hreg, hn]

/-- Lexicographic order on character lists, by code point. -/
def charsLE : List Char → List Char → Bool
  | [], _ => true
  | _ :: _, [] => false
  | c :: cs, d :: ds =>
    if c.toNat < d.toNat then true
    else if d.toNat < c.toNat then false
    else charsLE cs ds

/-- Lexicographic order on attribute names. -/
def nameLE (a b : String) : Bool := charsLE a.data b.data

/-- Insert one attribute into a name-sorted attribute list, keeping it sorted. -/
def insertAttr (a : String × Attr) : List (String × Attr) → List (String × Attr)
  | [] => [a]
  | b :: rest => if nameLE a.1 b.1 then a :: b :: rest else b :: insertAttr a rest

/-- Sort an attribute list by attribute name (insertion sort). -/
def sortAttrs : List (String × Attr) → List (String × Attr)
  | [] => []
  | a :: rest => insertAttr a (sortAttrs rest)

/-- A Node with its attributes sorted by name. -/
def sortNode (nd : Node) : Node := ⟨nd.type, sortAttrs nd.attrs⟩

/-- A graph with every Node's attributes sorted by name. -/
def sortGraph (g : Graph) : Graph := ⟨g.nodes.map sortNode, g.root⟩

mutual
/-- Modelled from the program's recorded outputs rather than the spec's words:
the notebook outputs (src/unnamed/part_000) list the `b` entry before the `w`
entry in both State and ModuleDef although `w` is assigned first, so the
program walks attributes in sorted attribute-name order; this variant of the
Flatten Engine visits one Node with its attributes so sorted (the spec's
section 9 flags exactly this definition-order-versus-sorted-order question). -/
def flattenNS (g : Graph) (fuel : Nat) (h : Nat) (path : Path) (reg : List Nat) :
    Option NRes :=
  match fuel with
  | 0 => none
  | fuel + 1 =>
    match g.nodes[h]? with
    | none => none
    | some nd =>
      match flattenAttrsS g fuel (sortAttrs nd.attrs) path (reg ++ [h]) with
      | none => none
      | some r => some ⟨.mk nd.type reg.length r.sf r.ls r.cs, r.flat, r.reg⟩
termination_by (fuel, 0)
/-- The sorted-order walk over an attribute list: the same stepping as
`flattenAttrs`, recursing through `flattenNS`. -/
def flattenAttrsS (g : Graph) (fuel : Nat) (attrs : List (String × Attr))
    (path : Path) (reg : List Nat) : Option ARes :=
  match attrs with
  | [] => some ⟨[], [], .nil, [], reg⟩
  | (name, a) :: rest =>
    match a with
    | .static v =>
      (flattenAttrsS g fuel rest path reg).map fun r =>
        ⟨(name, v) :: r.sf, r.ls, r.cs, r.flat, r.reg⟩
    | .leaf tag v =>
      (flattenAttrsS g fuel rest path reg).map fun r =>
        ⟨r.sf, (name, tag) :: r.ls, r.cs, ⟨path ++ [name], tag, v⟩ :: r.flat, r.reg⟩
    | .child hc =>
      match regIndex reg hc with
      | some i =>
        (flattenAttrsS g fuel rest path reg).map fun r =>
          ⟨r.sf, r.ls, .consRef name i r.cs, r.flat, r.reg⟩
      | none =>
        match flattenNS g fuel hc (path ++ [name]) reg with
        | none => none
        | some rn =>
          (flattenAttrsS g fuel rest path rn.reg).map fun r =>
            ⟨r.sf, r.ls, .consSub name rn.d r.cs, rn.flat ++ r.flat, r.reg⟩
termination_by (fuel, attrs.length + 1)
end

theorem fNS_zero (g : Graph) (h : Nat) (path : Path) (reg : List Nat) :
    flattenNS g 0 h path reg = none := by
  rw [flattenNS]

theorem fNS_succ_none (g : Graph) (fuel h : Nat) (path : Path) (reg : List Nat)
    (hg : g.nodes[h]? = none) : flattenNS g (fuel + 1) h path reg = none := by
  rw [flattenNS, hg]

theorem fNS_succ_anone (g : Graph) (fuel h : Nat) (path : Path) (reg : List Nat)
    (nd : Node) (hg : g.nodes[h]? = some nd)
    (ha : flattenAttrsS g fuel (sortAttrs nd.attrs) path (reg ++ [h]) = none) :
    flattenNS g (fuel + 1) h path reg = none := by
  rw [flattenNS, hg]
  exact (congrArg (fun o => match o with
    | none => none
    | some (r : ARes) => some (⟨.mk nd.type reg.length r.sf r.ls r.cs, r.flat, r.reg⟩ : NRes)) ha)

theorem fNS_succ (g : Graph) (fuel h : Nat) (path : Path) (reg : List Nat)
    (nd : Node) (ra : ARes) (hg : g.nodes[h]? = some nd)
    (ha : flattenAttrsS g fuel (sortAttrs nd.attrs) path (reg ++ [h]) = some ra) :
    flattenNS g (fuel + 1) h path reg =
      some ⟨.mk nd.type reg.length ra.sf ra.ls ra.cs, ra.flat, ra.reg⟩ := by
  rw [flattenNS, hg]
  exact (congrArg (fun o => match o with
    | none => none
    | some (r : ARes) => some (⟨.mk nd.type reg.length r.sf r.ls r.cs, r.flat, r.reg⟩ : NRes)) ha)

theorem fAS_nil (g : Graph) (fuel : Nat) (path : Path) (reg : List Nat) :
    flattenAttrsS g fuel [] path reg = some ⟨[], [], .nil, [], reg⟩ := by
  rw [flattenAttrsS]

theorem fAS_static (g : Graph) (fuel : Nat) (name : String) (v : Nat)
    (rest : List (String × Attr)) (path : Path) (reg : List Nat) :
    flattenAttrsS g fuel ((name, .static v) :: rest) path reg =
      (flattenAttrsS g fuel rest path reg).map fun r =>
        ⟨(name, v) :: r.sf, r.ls, r.cs, r.flat, r.reg⟩ := by
  rw [flattenAttrsS]

theorem fAS_leaf (g : Graph) (fuel : Nat) (name tag : String) (v : LeafVal)
    (rest : List (String × Attr)) (path : Path) (reg : List Nat) :
    flattenAttrsS g fuel ((name, .leaf tag v) :: rest) path reg =
      (flattenAttrsS g fuel rest path reg).map fun r =>
        ⟨r.sf, (name, tag) :: r.ls, r.cs, ⟨path ++ [name], tag, v⟩ :: r.flat, r.reg⟩ := by
  rw [flattenAttrsS]

theorem fAS_child_old (g : Graph) (fuel : Nat) (name : String) (hc i : Nat)
    (rest : List (String × Attr)) (path : Path) (reg : List Nat)
    (hreg : regIndex reg hc = some i) :
    flattenAttrsS g fuel ((name, .child hc) :: rest) path reg =
      (flattenAttrsS g fuel rest path reg).map fun r =>
        ⟨r.sf, r.ls, .consRef name i r.cs, r.flat, r.reg⟩ := by
  rw [flattenAttrsS, hreg]

theorem fAS_child_new_none (g : Graph) (fuel : Nat) (name : String) (hc : Nat)
    (rest : List (String × Attr)) (path : Path) (reg : List Nat)
    (hreg : regIndex reg hc = none)
    (hn : flattenNS g fuel hc (path ++ [name]) reg = none) :
    flattenAttrsS g fuel ((name, .child hc) :: rest) path reg = none := by
  rw [flattenAttrsS, hreg, hn]

theorem fAS_child_new (g : Graph) (fuel : Nat) (name : String) (hc : Nat)
    (rest : List (String × Attr)) (path : Path) (reg : List Nat) (rn : NRes)
    (hreg : regIndex reg hc = none)
    (hn : flattenNS g fuel hc (path ++ [name]) reg = some rn) :
    flattenAttrsS g fuel ((name, .child hc) :: rest) path reg =
      (flattenAttrsS g fuel rest path rn.reg).map fun r =>
        ⟨r.sf, r.ls, .consSub name rn.d r.cs, rn.flat ++ r.flat, r.reg⟩ := by
  rw [flattenAttrsS, hreg, hn]

theorem sEqA_of_sEqN (g : Graph) (fuel : Nat)
    (hN : ∀ h path reg, flattenNS g fuel h path reg =
      flattenN (sortGraph g) fuel h path reg) :
    ∀ attrs path reg, flattenAttrsS g fuel attrs path reg =
      flattenAttrs (sortGraph g) fuel attrs path reg := by
  intro attrs
  induction attrs with
  | nil => intro path reg; rw [fAS_nil, fA_nil]
  | cons na rest ih =>
    intro path reg
    obtain ⟨name, a⟩ := na
    match a with
    | .static v => rw [fAS_static, fA_static, ih]
    | .leaf tag v => rw [fAS_leaf, fA_leaf, ih]
    | .child hc =>
      match hreg : regIndex reg hc with
      | some i =>
        rw [fAS_child_old g fuel name hc i rest path reg hreg,
          fA_child_old (sortGraph g) fuel name hc i rest path reg hreg, ih]
      | none =>
        match hn : flattenNS g fuel hc (path ++ [name]) reg with
        | none =>
          rw [fAS_child_new_none g fuel name hc rest path reg hreg hn,
            fA_child_new_none (sortGraph g) fuel name hc rest path reg hreg
              (by rw [← hN hc (path ++ [name]) reg]; exact hn)]
        | some rn =>
          rw [fAS_child_new g fuel name hc rest path reg rn hreg hn,
            fA_child_new (sortGraph g) fuel name hc rest path reg rn hreg
              (by rw [← hN hc (path ++ [name]) reg]; exact hn), ih]

theorem sEqN_all (g : Graph) : ∀ fuel h path reg,
    flattenNS g fuel h path reg = flattenN (sortGraph g) fuel h path reg := by
  intro fuel
  induction fuel with
  | zero => intro h path reg; rw [fNS_zero, fN_zero]
  | succ fuel ih =>
    intro h path reg
    have hA := sEqA_of_sEqN g fuel ih
    match hg : g.nodes[h]? with
    | none =>
      have hg2 : (sortGraph g).nodes[h]? = none := by
        show (g.nodes.map sortNode)[h]? = none
        rw [List.getElem?_map, hg]
        rfl
      rw [fNS_succ_none g fuel h path reg hg,
        fN_succ_none (sortGraph g) fuel h path reg hg2]
    | some nd =>
      have hg2 : (sortGraph g).nodes[h]? = some (sortNode nd) := by
        show (g.nodes.map sortNode)[h]? = some (sortNode nd)
        rw [List.getElem?_map, hg]
        rfl
      match ha : flattenAttrsS g fuel (sortAttrs nd.attrs) path (reg ++ [h]) with
      | none =>
        rw [fNS_succ_anone g fuel h path reg nd hg ha,
          fN_succ_anone (sortGraph g) fuel h path reg (sortNode nd) hg2
            (by show flattenAttrs (sortGraph g) fuel (sortAttrs nd.attrs) path
                  (reg ++ [h]) = none
                rw [← hA]; exact ha)]
      | some ra =>
        rw [fNS_succ g fuel h path reg nd ra hg ha,
          fN_succ (sortGraph g) fuel h path reg (sortNode nd) ra hg2
            (by show flattenAttrs (sortGraph g) fuel (sortAttrs nd.attrs) path
                  (reg ++ [h]) = some ra
                rw [← hA]; exact ha)]
        rfl

/-- A tag filter is a predicate over leaf tags (spec section 4.2). -/
abbrev TagFilter := String → Bool

/-- Index of the first filter matching a tag, tested in caller-supplied order. -/
def firstMatch (fs : List TagFilter) (tag : String) : Option Nat :=
  match fs with
  | [] => none
  | f :: rest => if f tag then some 0 else (firstMatch rest tag).map (· + 1)

/-- Forget tags: project flattened leaves to a State. -/
def stateOf (flat : List FLeaf) : StateL := flat.map fun e => (e.path, e.val)

/-- Modelled from the spec: partition the flattened leaves by the filters,
tested in caller-supplied order — each leaf goes to the State of the first
filter matching its tag, and the final State collects the leaves matched by no
filter (the implicit remainder if filters were supplied, otherwise the single
State covering all leaves). -/
def splitStates (fs : List TagFilter) (flat : List FLeaf) : List StateL :=
  match fs with
  | [] => [stateOf flat]
  | f :: rest =>
    stateOf (flat.filter fun e => f e.tag) ::
      splitStates rest (flat.filter fun e => !(f e.tag))

/-- Modelled from the spec: `split` (spec sections 4.2 and 6) — one State per
filter plus one implicit remainder State if filters were supplied, otherwise a
single State covering all leaves, plus the GraphDef. -/
def split (g : Graph) (fs : List TagFilter) : Option (List StateL × GraphDef) :=
  (splitRaw g).map fun r => (splitStates fs r.2, r.1)

/-- Reconstruction cache lookup: GraphDef index to new arena handle. -/
def cacheLookup : List (Nat × Nat) → Nat → Option Nat
  | [], _ => none
  | (i, h) :: rest, j => if i = j then some h else cacheLookup rest j

/-- Ordered-mapping lookup in a State: the value at the first entry with the
given Path. -/
def lookupState : StateL → Path → Option LeafVal
  | [], _ => none
  | (p, v) :: rest, q => if p = q then some v else lookupState rest q

/-- Modelled from the spec: the Populate phase for leaf slots (spec section
4.3): each leaf slot's Path is looked up in the supplied State and rewrapped
with its declared tag; an absent Path is a MissingLeafError (`none`). -/
def mergeLeaves (st : StateL) (ls : List (String × String)) (path : Path) :
    Option (List (String × Attr)) :=
  match ls with
  | [] => some []
  | (name, tag) :: rest =>
    match lookupState st (path ++ [name]) with
    | none => none
    | some v => (mergeLeaves st rest path).map fun l => (name, Attr.leaf tag v) :: l

mutual
/-- Modelled from the spec: the Reconstruct Engine's visit of one GraphDef node
(spec section 4.3): allocate a fresh arena slot and register it in the cache
under the node's index before populating (cache-before-populate), populate leaf
slots from the State and children from nested defs or the cache, then write the
finished Node record into its slot. -/
def mergeNode (st : StateL) (d : GraphDef) (path : Path)
    (ar : List (Option Node)) (ca : List (Nat × Nat)) :
    Option (Nat × List (Option Node) × List (Nat × Nat)) :=
  match d with
  | .mk t i sf ls cs =>
    match mergeLeaves st ls path with
    | none => none
    | some leafAttrs =>
      match mergeChildren st cs path (ar ++ [none]) (ca ++ [(i, ar.length)]) with
      | none => none
      | some (childAttrs, ar2, ca2) =>
        let nd : Node :=
          ⟨t, (sf.map fun nv => (nv.1, Attr.static nv.2)) ++ leafAttrs ++ childAttrs⟩
        some (ar.length, ar2.set ar.length (some nd), ca2)
/-- Modelled from the spec: the Reconstruct Engine's walk over a GraphDef
node's children (spec section 4.3): a nested GraphDef is recursed into, a
back-reference index is resolved through the cache (a miss is a
DanglingReferenceError, `none`). -/
def mergeChildren (st : StateL) (cs : ChildList) (path : Path)
    (ar : List (Option Node)) (ca : List (Nat × Nat)) :
    Option (List (String × Attr) × List (Option Node) × List (Nat × Nat)) :=
  match cs with
  | .nil => some ([], ar, ca)
  | .consSub name d rest =>
    match mergeNode st d (path ++ [name]) ar ca with
    | none => none
    | some (h, ar2, ca2) =>
      (mergeChildren st rest path ar2 ca2).map fun r =>
        ((name, Attr.child h) :: r.1, r.2.1, r.2.2)
  | .consRef name j rest =>
    match cacheLookup ca j with
    | none => none
    | some h =>
      (mergeChildren st rest path ar ca).map fun r =>
        ((name, Attr.child h) :: r.1, r.2.1, r.2.2)
end

/-- Modelled from the spec: `merge` (spec sections 4.3 and 6): the supplied
States are concatenated logically, the root GraphDef is reconstructed with an
empty arena and cache, and the arena (every slot populated) becomes the new
live graph. -/
def merge (d : GraphDef) (sts : List StateL) : Option Graph :=
  match mergeNode sts.flatten d [] [] [] with
  | none => none
  | some (h, ar, _) => (ar.mapM id).map fun nds => ⟨nds, h⟩

/-- Does any filter match this tag (spec section 4.4: pop removes every leaf
whose tag matches any filter)? -/
def matchesAny (fs : List TagFilter) (tag : String) : Bool := fs.any fun f => f tag

/-- Result of popping the attribute list of one Node: the rewritten attribute
list, the removed (Path, value) entries, the updated arena and the registry. -/
structure PRes where
  attrs : List (String × Attr)
  st : StateL
  nodes : List Node
  reg : List Nat

mutual
/-- Modelled from the spec: Leaf Extraction's visit of one Node (spec section
4.4): register it, pop its attribute list, and write the rewritten record back
into the arena. -/
def popN (fs : List TagFilter) (fuel : Nat) (h : Nat) (path : Path)
    (reg : List Nat) (nds : List Node) : Option (StateL × List Node × List Nat) :=
  match fuel with
  | 0 => none
  | fuel + 1 =>
    match nds[h]? with
    | none => none
    | some nd =>
      match popAttrs fs fuel nd.attrs path (reg ++ [h]) nds with
      | none => none
      | some r => some (r.st, r.nodes.set h ⟨nd.type, r.attrs⟩, r.reg)
termination_by (fuel, 0)
/-- Modelled from the spec: Leaf Extraction's walk over one Node's attribute
list (spec section 4.4): a leaf whose tag matches any filter is replaced by an
empty placeholder and collected under its Path; other leaves, static fields and
children are left unchanged; children are traversed but not removed, with the
registry bounding recursion exactly as in Flatten. -/
def popAttrs (fs : List TagFilter) (fuel : Nat) (attrs : List (String × Attr))
    (path : Path) (reg : List Nat) (nds : List Node) : Option PRes :=
  match attrs with
  | [] => some ⟨[], [], nds, reg⟩
  | (name, a) :: rest =>
    match a with
    | .static v =>
      (popAttrs fs fuel rest path reg nds).map fun r =>
        ⟨(name, Attr.static v) :: r.attrs, r.st, r.nodes, r.reg⟩
    | .leaf tag v =>
      if matchesAny fs tag then
        (popAttrs fs fuel rest path reg nds).map fun r =>
          ⟨(name, Attr.leaf tag .empty) :: r.attrs, (path ++ [name], v) :: r.st,
            r.nodes, r.reg⟩
      else
        (popAttrs fs fuel rest path reg nds).map fun r =>
          ⟨(name, Attr.leaf tag v) :: r.attrs, r.st, r.nodes, r.reg⟩
    | .child hc =>
      match regIndex reg hc with
      | some _ =>
        (popAttrs fs fuel rest path reg nds).map fun r =>
          ⟨(name, Attr.child hc) :: r.attrs, r.st, r.nodes, r.reg⟩
      | none =>
        match popN fs fuel hc (path ++ [name]) reg nds with
        | none => none
        | some (stc, nds2, reg2) =>
          (popAttrs fs fuel rest path reg2 nds2).map fun r =>
            ⟨(name, Attr.child hc) :: r.attrs, stc ++ r.st, r.nodes, r.reg⟩
termination_by (fuel, attrs.length + 1)
end

/-- Modelled from the spec: `pop` (spec sections 4.4 and 6): remove every leaf
whose tag matches any filter from the live graph, returning the removed leaves
as a State keyed by their Paths (computed the same way as in Flatten) together
with the mutated graph. -/
def pop (g : Graph) (fs : List TagFilter) : Option (StateL × Graph) :=
  (popN fs (g.nodes.length + 1) g.root [] [] g.nodes).map fun r =>
    (r.1, ⟨r.2.1, g.root⟩)

/-- Attribute lookup by name in a Node (first entry with that name). -/
def attrLookup : List (String × Attr) → String → Option Attr
  | [], _ => none
  | (n, a) :: rest, q => if n = q then some a else attrLookup rest q

/-- Modelled from the spec: Path resolution for Update (spec section 4.5):
starting at a handle, follow child attributes by name along the Path; the final
component must name a leaf attribute, whose handle and name are returned. -/
def resolveLeaf (g : Graph) : Nat → Path → Option (Nat × String)
  | _, [] => none
  | h, [n] =>
    match g.nodes[h]? with
    | none => none
    | some nd =>
      match attrLookup nd.attrs n with
      | some (.leaf _ _) => some (h, n)
      | _ => none
  | h, n :: rest =>
    match g.nodes[h]? with
    | none => none
    | some nd =>
      match attrLookup nd.attrs n with
      | some (.child hc) => resolveLeaf g hc rest
      | _ => none

/-- Overwrite the value of the named leaf attribute of the node at a handle,
keeping its tag. -/
def writeLeaf (nds : List Node) (h : Nat) (name : String) (v : LeafVal) : List Node :=
  match nds[h]? with
  | none => nds
  | some nd =>
    nds.set h ⟨nd.type, nd.attrs.map fun na =>
      if na.1 = name then
        (na.1, match na.2 with
          | .leaf tag _ => Attr.leaf tag v
          | a => a)
      else na⟩

/-- Modelled from the spec: `update` (spec sections 4.5 and 6): every Path in
the supplied States must resolve to an existing leaf slot, in which case all
leaf-value writes apply (tags unchanged); otherwise a StructureMismatchError
(`none`) is raised and the graph is left untouched. -/
def update (g : Graph) (sts : List StateL) : Option Graph :=
  let entries := sts.flatten
  if entries.all fun pv => (resolveLeaf g g.root pv.1).isSome then
    some ⟨entries.foldl (fun nds pv =>
      match resolveLeaf ⟨nds, g.root⟩ g.root pv.1 with
      | some (h, n) => writeLeaf nds h n pv.2
      | none => nds) g.nodes, g.root⟩
  else none

/-! ### Basic lemmas about the Identity Registry -/

theorem regIndex_eq_none_iff (reg : List Nat) (h : Nat) :
    regIndex reg h = none ↔ h ∉ reg := by
  induction reg with
  | nil => simp [regIndex]
  | cons x xs ih =>
    by_cases hx : x = h
    · subst hx; simp [regIndex]
    · simp [regIndex, hx, Option.map_eq_none, ih, Ne.symm hx]

theorem regIndex_append_left (reg ext : List Nat) (h : Nat) (hm : h ∈ reg) :
    regIndex (reg ++ ext) h = regIndex reg h := by
  induction reg with
  | nil => simp at hm
  | cons x xs ih =>
    by_cases hx : x = h
    · subst hx; simp [regIndex]
    · have : h ∈ xs := by
        rcases List.mem_cons.mp hm with h1 | h1
        · exact absurd h1.symm hx
        · exact h1
      simp [regIndex, hx, ih this]

theorem regIndex_getElem (reg : List Nat) (h i : Nat)
    (hr : regIndex reg h = some i) : reg[i]? = some h := by
  induction reg generalizing i with
  | nil => simp [regIndex] at hr
  | cons x xs ih =>
    by_cases hx : x = h
    · subst hx
      simp [regIndex] at hr
      subst hr
      simp
    · simp [regIndex, hx] at hr
      rcases hr with ⟨j, hj, rfl⟩
      simpa using ih j hj

theorem regIndex_range (n j : Nat) :
    regIndex (List.range n) j = if j < n then some j else none := by
  induction n with
  | zero => simp [regIndex]
  | succ n ih =>
    rw [List.range_succ]
    by_cases hj : j ∈ List.range n
    · rw [regIndex_append_left _ _ _ hj, ih]
      have : j < n := List.mem_range.mp hj
      simp [this, Nat.lt_succ_of_lt this]
    · have hj2 : j < n → False := fun hlt => hj (List.mem_range.mpr hlt)
      have hmain : ∀ l : List Nat, j ∉ l → regIndex (l ++ [n]) j =
          if n = j then some l.length else none := by
        intro l
        induction l with
        | nil => intro _; simp [regIndex]
        | cons x xs ihl =>
          intro hnm
          have hxj : ¬ x = j := fun hh => hnm (by simp [hh])
          have hxs : j ∉ xs := fun hh => hnm (by simp [hh])
          rw [List.cons_append, regIndex]
          simp only [hxj, if_false, ihl hxs]
          by_cases hnj : n = j
          · simp [hnj]
          · simp [hnj]
      rw [hmain _ hj]
      by_cases hnj : n = j
      · subst hnj
        simp [List.length_range]
      · have : ¬ j < n + 1 := by
          intro hlt
          rcases Nat.lt_succ_iff_lt_or_eq.mp hlt with hlt2 | rfl
          · exact hj2 hlt2
          · exact hnj rfl
        simp [hnj, this]

/-- Every handle bound by `n`. -/
def regBound (n : Nat) (reg : List Nat) : Prop := ∀ x ∈ reg, x < n

theorem nodes_mem {g : Graph} {h : Nat} {nd : Node}
    (hg : g.nodes[h]? = some nd) : nd ∈ g.nodes := by
  rcases List.getElem?_eq_some.mp hg with ⟨hlt, rfl⟩
  exact List.getElem_mem hlt

/-! ### Registry evolution during Flatten: the registry only grows, stays
duplicate-free and stays within the arena. -/

/-- Registry invariant conclusion for one `flattenN` call. -/
def RegInvN (g : Graph) (fuel : Nat) : Prop :=
  ∀ h path reg r, flattenN g fuel h path reg = some r →
    h < g.nodes.length → (reg ++ [h]).Nodup → regBound g.nodes.length reg →
    ∃ ext, r.reg = (reg ++ [h]) ++ ext ∧ r.reg.Nodup ∧ regBound g.nodes.length r.reg

/-- Registry invariant conclusion for one `flattenAttrs` call. -/
def RegInvA (g : Graph) (fuel : Nat) : Prop :=
  ∀ attrs path reg r, flattenAttrs g fuel attrs path reg = some r →
    (∀ c ∈ childrenOf attrs, c < g.nodes.length) → reg.Nodup →
    regBound g.nodes.length reg →
    ∃ ext, r.reg = reg ++ ext ∧ r.reg.Nodup ∧ regBound g.nodes.length r.reg

theorem regInvA_of_regInvN (g : Graph) (fuel : Nat) (hN : RegInvN g fuel) :
    RegInvA g fuel := by
  intro attrs
  induction attrs with
  | nil =>
    intro path reg r hr hc hnd hb
    rw [flattenAttrs] at hr
    simp only [Option.some.injEq] at hr
    exact ⟨[], by simp [← hr], by simpa [← hr] using hnd, by simpa [← hr] using hb⟩
  | cons a rest ih =>
    intro path reg r hr hc hnd hb
    obtain ⟨name, attr⟩ := a
    match attr with
    | .static v =>
      rw [flattenAttrs] at hr
      rcases Option.map_eq_some.mp hr with ⟨r1, hr1, hr2⟩
      have hc1 : ∀ c ∈ childrenOf rest, c < g.nodes.length := by
        intro c hcm; exact hc c (by simp [childrenOf, List.filterMap_cons] at hcm ⊢; exact hcm)
      rcases ih path reg r1 hr1 hc1 hnd hb with ⟨ext, he, hn2, hb2⟩
      exact ⟨ext, by simp [← hr2, he], by simp [← hr2]; exact hn2, by simp [← hr2]; exact hb2⟩
    | .leaf tag v =>
      rw [flattenAttrs] at hr
      rcases Option.map_eq_some.mp hr with ⟨r1, hr1, hr2⟩
      have hc1 : ∀ c ∈ childrenOf rest, c < g.nodes.length := by
        intro c hcm; exact hc c (by simp [childrenOf, List.filterMap_cons] at hcm ⊢; exact hcm)
      rcases ih path reg r1 hr1 hc1 hnd hb with ⟨ext, he, hn2, hb2⟩
      exact ⟨ext, by simp [← hr2, he], by simp [← hr2]; exact hn2, by simp [← hr2]; exact hb2⟩
    | .child hcd =>
      have hc1 : ∀ c ∈ childrenOf rest, c < g.nodes.length := by
        intro c hcm
        refine hc c ?_
        simp [childrenOf, List.filterMap_cons] at hcm ⊢
        exact Or.inr hcm
      have hcd_lt : hcd < g.nodes.length := hc hcd (by simp [childrenOf, List.filterMap_cons])
      rw [flattenAttrs] at hr
      match hreg : regIndex reg hcd with
      | some i =>
        rw [hreg] at hr
        rcases Option.map_eq_some.mp hr with ⟨r1, hr1, hr2⟩
        rcases ih path reg r1 hr1 hc1 hnd hb with ⟨ext, he, hn2, hb2⟩
        exact ⟨ext, by simp [← hr2, he], by simp [← hr2]; exact hn2, by simp [← hr2]; exact hb2⟩
      | none =>
        rw [hreg] at hr
        have hcd_nm : hcd ∉ reg := (regIndex_eq_none_iff reg hcd).mp hreg
        match hrn : flattenN g fuel hcd (path ++ [name]) reg with
        | none => rw [hrn] at hr; exact absurd hr (by simp)
        | some rn =>
          rw [hrn] at hr
          rcases Option.map_eq_some.mp hr with ⟨r1, hr1, hr2⟩
          have hnd2 : (reg ++ [hcd]).Nodup := by
            simp [List.nodup_append, hnd, hcd_nm]
          rcases hN hcd (path ++ [name]) reg rn hrn hcd_lt hnd2 hb with ⟨ext1, he1, hn1, hb1⟩
          rcases ih path rn.reg r1 hr1 hc1 hn1 hb1 with ⟨ext2, he2, hn2, hb2⟩
          refine ⟨[hcd] ++ ext1 ++ ext2, ?_, ?_, ?_⟩
          · simp [← hr2, he2, he1]
          · simp [← hr2]; exact hn2
          · simp [← hr2]; exact hb2

theorem regInvN_all (g : Graph) (hwf : g.wf) : ∀ fuel, RegInvN g fuel := by
  intro fuel
  induction fuel with
  | zero =>
    intro h path reg r hr
    rw [flattenN] at hr
    exact absurd hr (by simp)
  | succ fuel ih =>
    intro h path reg r hr hh hnd hb
    rw [flattenN] at hr
    split at hr
    · simp at hr
    · rename_i nd hg
      split at hr
      · simp at hr
      · rename_i ra ha
        simp only [Option.some.injEq] at hr
        have hc : ∀ c ∈ childrenOf nd.attrs, c < g.nodes.length :=
          (hwf.2 nd (nodes_mem hg)).2
        have hb2 : regBound g.nodes.length (reg ++ [h]) := by
          intro x hx
          rcases List.mem_append.mp hx with hx | hx
          · exact hb x hx
          · simp at hx; omega
        rcases regInvA_of_regInvN g fuel ih nd.attrs path (reg ++ [h]) ra ha hc hnd hb2 with
          ⟨ext, he, hn2, hbv⟩
        exact ⟨ext, by simp [← hr, he], by simp [← hr]; exact hn2, by simp [← hr]; exact hbv⟩

theorem nodup_bound_length {n : Nat} {reg : List Nat} (hnd : reg.Nodup)
    (hb : regBound n reg) : reg.length ≤ n := by
  classical
  have h1 : reg.toFinset ⊆ Finset.range n := by
    intro x hx
    rw [List.mem_toFinset] at hx
    rw [Finset.mem_range]
    exact hb x hx
  have h2 := Finset.card_le_card h1
  rwa [List.toFinset_card_of_nodup hnd, Finset.card_range] at h2

/-! ### Fuel sufficiency: the registry's membership check bounds recursion, so
a fuel budget of (number of nodes) minus (number already registered) suffices. -/

/-- Fuel sufficiency for one `flattenN` call. -/
def FuelOkN (g : Graph) (fuel : Nat) : Prop :=
  ∀ h path reg, h < g.nodes.length → (reg ++ [h]).Nodup →
    regBound g.nodes.length reg → g.nodes.length ≤ fuel + reg.length →
    (flattenN g fuel h path reg).isSome

/-- Fuel sufficiency for one `flattenAttrs` call. -/
def FuelOkA (g : Graph) (fuel : Nat) : Prop :=
  ∀ attrs path reg, (∀ c ∈ childrenOf attrs, c < g.nodes.length) → reg.Nodup →
    regBound g.nodes.length reg → g.nodes.length ≤ fuel + reg.length →
    (flattenAttrs g fuel attrs path reg).isSome

theorem fuelOkA_of_fuelOkN (g : Graph) (hwf : g.wf) (fuel : Nat)
    (hN : FuelOkN g fuel) : FuelOkA g fuel := by
  intro attrs
  induction attrs with
  | nil =>
    intro path reg _ _ _ _
    rw [flattenAttrs]
    simp
  | cons a rest ih =>
    intro path reg hc hnd hb hfuel
    obtain ⟨name, attr⟩ := a
    have hc1 : ∀ c ∈ childrenOf rest, c < g.nodes.length := by
      intro c hcm
      refine hc c ?_
      match attr with
      | .static v => simpa [childrenOf, List.filterMap_cons] using hcm
      | .leaf t v => simpa [childrenOf, List.filterMap_cons] using hcm
      | .child hcd =>
        simp [childrenOf, List.filterMap_cons] at hcm ⊢
        exact Or.inr hcm
    match attr with
    | .static v =>
      rw [flattenAttrs]
      have := ih path reg hc1 hnd hb hfuel
      rcases Option.isSome_iff_exists.mp this with ⟨r1, hr1⟩
      rw [hr1]
      simp
    | .leaf tag v =>
      rw [flattenAttrs]
      have := ih path reg hc1 hnd hb hfuel
      rcases Option.isSome_iff_exists.mp this with ⟨r1, hr1⟩
      rw [hr1]
      simp
    | .child hcd =>
      have hcd_lt : hcd < g.nodes.length := hc hcd (by simp [childrenOf, List.filterMap_cons])
      match hreg : regIndex reg hcd with
      | some i =>
        have := ih path reg hc1 hnd hb hfuel
        rcases Option.isSome_iff_exists.mp this with ⟨r1, hr1⟩
        rw [flattenAttrs]
        simp [hreg, hr1]
      | none =>
        have hcd_nm : hcd ∉ reg := (regIndex_eq_none_iff reg hcd).mp hreg
        have hnd2 : (reg ++ [hcd]).Nodup := by
          simp [List.nodup_append, hnd, hcd_nm]
        have hfN := hN hcd (path ++ [name]) reg hcd_lt hnd2 hb hfuel
        rcases Option.isSome_iff_exists.mp hfN with ⟨rn, hrn⟩
        rcases regInvN_all g hwf fuel hcd (path ++ [name]) reg rn hrn hcd_lt hnd2 hb with
          ⟨ext, he, hn1, hb1⟩
        have hlen : reg.length + 1 ≤ rn.reg.length := by
          rw [he]
          simp
        have := ih path rn.reg hc1 hn1 hb1 (by omega)
        rcases Option.isSome_iff_exists.mp this with ⟨r1, hr1⟩
        rw [flattenAttrs]
        simp [hreg, hrn, hr1]

theorem fuelOkN_all (g : Graph) (hwf : g.wf) : ∀ fuel, FuelOkN g fuel := by
  intro fuel
  induction fuel with
  | zero =>
    intro h path reg hh hnd hb hfuel
    have h1 : reg.length + 1 ≤ g.nodes.length := by
      have := nodup_bound_length hnd (by
        intro x hx
        rcases List.mem_append.mp hx with hx | hx
        · exact hb x hx
        · simp at hx; omega)
      simpa using this
    omega
  | succ fuel ih =>
    intro h path reg hh hnd hb hfuel
    rw [flattenN]
    have hg : g.nodes[h]? = some g.nodes[h] := List.getElem?_eq_getElem hh
    rw [hg]
    have hc : ∀ c ∈ childrenOf (g.nodes[h]).attrs, c < g.nodes.length :=
      (hwf.2 _ (List.getElem_mem hh)).2
    have hb2 : regBound g.nodes.length (reg ++ [h]) := by
      intro x hx
      rcases List.mem_append.mp hx with hx | hx
      · exact hb x hx
      · simp at hx; omega
    have := fuelOkA_of_fuelOkN g hwf fuel ih (g.nodes[h]).attrs path (reg ++ [h]) hc hnd hb2
      (by simp; omega)
    rcases Option.isSome_iff_exists.mp this with ⟨ra, hra⟩
    simp [hra]

/-- Flattening a well-formed graph always succeeds with the standard fuel
budget: the `is_new` check prevents revisiting, so recursion is bounded. -/
theorem splitRaw_isSome (g : Graph) (hwf : g.wf) : (splitRaw g).isSome := by
  rw [splitRaw]
  have := fuelOkN_all g hwf (g.nodes.length + 1) g.root [] [] hwf.1 (by simp)
    (by intro x hx; simp at hx) (by simp)
  rcases Option.isSome_iff_exists.mp this with ⟨r, hr⟩
  rw [hr]
  simp

/-! ### Structural descriptors: pre-order indexing, leaf-slot collection and
the canonical arena a GraphDef describes. -/

mutual
/-- Pre-order index discipline of a GraphDef (spec section 3 invariant):
starting from next-fresh counter `m`, the node's own index must be `m`, nested
descriptors are numbered consecutively in pre-order, and every back-reference
must point below the counter at its position (a node at or before it in
pre-order).  Returns the next-fresh counter after the subtree. -/
def wfFrom : Nat → GraphDef → Option Nat
  | m, .mk _ i _ _ cs => if i = m then wfFromCL (m + 1) cs else none
/-- Pre-order index discipline of a children list. -/
def wfFromCL : Nat → ChildList → Option Nat
  | m, .nil => some m
  | m, .consSub _ d rest =>
    match wfFrom m d with
    | none => none
    | some m2 => wfFromCL m2 rest
  | m, .consRef _ j rest => if j < m then wfFromCL m rest else none
end

mutual
/-- Number of descriptors (distinct Nodes) in a GraphDef. -/
def defCount : GraphDef → Nat
  | .mk _ _ _ _ cs => 1 + defCountCL cs
def defCountCL : ChildList → Nat
  | .nil => 0
  | .consSub _ d rest => defCount d + defCountCL rest
  | .consRef _ _ rest => defCountCL rest
end

mutual
/-- All leaf slots of a GraphDef with their full Paths, in descriptor order
(a node's own slots first, then its nested children's). -/
def defLeaves : GraphDef → Path → List (Path × String)
  | .mk _ _ _ ls cs, path => (ls.map fun nt => (path ++ [nt.1], nt.2)) ++ defLeavesCL cs path
def defLeavesCL : ChildList → Path → List (Path × String)
  | .nil, _ => []
  | .consSub name d rest, path => defLeaves d (path ++ [name]) ++ defLeavesCL rest path
  | .consRef _ _ rest, path => defLeavesCL rest path
end

/-- The child attributes a children list reconstructs to, given that the arena
handle of every descriptor equals its index. -/
def childAttrsOf : ChildList → List (String × Attr)
  | .nil => []
  | .consSub name d rest => (name, .child d.index) :: childAttrsOf rest
  | .consRef name j rest => (name, .child j) :: childAttrsOf rest

/-- The leaf attributes leaf slots reconstruct to, reading values from a State. -/
def leafAttrsOf (st : StateL) (ls : List (String × String)) (path : Path) :
    List (String × Attr) :=
  ls.map fun nt => (nt.1, .leaf nt.2 ((lookupState st (path ++ [nt.1])).getD .empty))

mutual
/-- The canonical arena segment described by a GraphDef: one Node record per
descriptor, in pre-order (allocation order), with attributes laid out as the
Reconstruct Engine does (statics, then leaves, then children). -/
def buildList (st : StateL) : GraphDef → Path → List Node
  | .mk t _ sf ls cs, path =>
    ⟨t, (sf.map fun nv => (nv.1, Attr.static nv.2)) ++ leafAttrsOf st ls path ++
      childAttrsOf cs⟩ :: buildListCL st cs path
def buildListCL (st : StateL) : ChildList → Path → List Node
  | .nil, _ => []
  | .consSub name d rest, path => buildList st d (path ++ [name]) ++ buildListCL st rest path
  | .consRef _ _ rest, path => buildListCL st rest path
end

mutual
/-- The flattened leaves of the canonical arena of a GraphDef, with values read
from a State. -/
def leafEntries (st : StateL) : GraphDef → Path → List FLeaf
  | .mk _ _ _ ls cs, path =>
    (ls.map fun nt => ⟨path ++ [nt.1], nt.2, (lookupState st (path ++ [nt.1])).getD .empty⟩) ++
      leafEntriesCL st cs path
def leafEntriesCL (st : StateL) : ChildList → Path → List FLeaf
  | .nil, _ => []
  | .consSub name d rest, path =>
    leafEntries st d (path ++ [name]) ++ leafEntriesCL st rest path
  | .consRef _ _ rest, path => leafEntriesCL st rest path
end

/-- The reference target of the child entry with a given name: a nested
descriptor's index, or a back-reference's index. -/
def csTarget : ChildList → String → Option Nat
  | .nil, _ => none
  | .consSub name d rest, q => if name = q then some d.index else csTarget rest q
  | .consRef name j rest, q => if name = q then some j else csTarget rest q

/-- The back-reference index of the child entry with a given name, provided
that entry is a back-reference (not a nested descriptor). -/
def csRef : ChildList → String → Option Nat
  | .nil, _ => none
  | .consSub name _ rest, q => if name = q then none else csRef rest q
  | .consRef name j rest, q => if name = q then some j else csRef rest q

/-- Concatenation of children lists. -/
def csAppend : ChildList → ChildList → ChildList
  | .nil, cs2 => cs2
  | .consSub n d rest, cs2 => .consSub n d (csAppend rest cs2)
  | .consRef n j rest, cs2 => .consRef n j (csAppend rest cs2)

/-- Flattening a concatenation of attribute lists concatenates all outputs,
threading the registry left to right. -/
theorem flattenAttrs_append (g : Graph) (fuel : Nat) (as bs : List (String × Attr))
    (path : Path) : ∀ reg,
    flattenAttrs g fuel (as ++ bs) path reg =
      (flattenAttrs g fuel as path reg).bind fun r1 =>
        (flattenAttrs g fuel bs path r1.reg).map fun r2 =>
          ⟨r1.sf ++ r2.sf, r1.ls ++ r2.ls, csAppend r1.cs r2.cs, r1.flat ++ r2.flat,
            r2.reg⟩ := by
  induction as with
  | nil =>
    intro reg
    rw [flattenAttrs]
    cases hb : flattenAttrs g fuel bs path reg with
    | none => simp [hb]
    | some r2 => simp [hb, csAppend]
  | cons a as ih =>
    intro reg
    obtain ⟨name, attr⟩ := a
    match attr with
    | .static v =>
      rw [List.cons_append, flattenAttrs, flattenAttrs, ih reg]
      cases ha : flattenAttrs g fuel as path reg with
      | none => simp
      | some r1 =>
        cases hb : flattenAttrs g fuel bs path r1.reg with
        | none => simp [hb]
        | some r2 => simp [hb, csAppend]
    | .leaf tag v =>
      rw [List.cons_append, flattenAttrs, flattenAttrs, ih reg]
      cases ha : flattenAttrs g fuel as path reg with
      | none => simp
      | some r1 =>
        cases hb : flattenAttrs g fuel bs path r1.reg with
        | none => simp [hb]
        | some r2 => simp [hb, csAppend]
    | .child hc =>
      rw [List.cons_append]
      cases hreg : regIndex reg hc with
      | some i =>
        rw [fA_child_old g fuel name hc i (as ++ bs) path reg hreg,
          fA_child_old g fuel name hc i as path reg hreg, ih reg]
        cases ha : flattenAttrs g fuel as path reg with
        | none => simp
        | some r1 =>
          cases hb : flattenAttrs g fuel bs path r1.reg with
          | none => simp [hb]
          | some r2 => simp [hb, csAppend]
      | none =>
        cases hn : flattenN g fuel hc (path ++ [name]) reg with
        | none =>
          rw [fA_child_new_none g fuel name hc (as ++ bs) path reg hreg hn,
            fA_child_new_none g fuel name hc as path reg hreg hn]
          simp
        | some rn =>
          rw [fA_child_new g fuel name hc (as ++ bs) path reg rn hreg hn,
            fA_child_new g fuel name hc as path reg rn hreg hn, ih rn.reg]
          cases ha : flattenAttrs g fuel as path rn.reg with
          | none => simp
          | some r1 =>
            cases hb : flattenAttrs g fuel bs path r1.reg with
            | none => simp [hb]
            | some r2 => simp [hb, csAppend]

theorem regIndex_lt_length {reg : List Nat} {h i : Nat}
    (hr : regIndex reg h = some i) : i < reg.length := by
  have := regIndex_getElem reg h i hr
  exact (List.getElem?_eq_some.mp this).1

/-! ### The flatten output satisfies the pre-order index discipline, and
children entries point at the registry position of their handle. -/

/-- Index-discipline invariant for one `flattenN` call. -/
def WfInvN (g : Graph) (fuel : Nat) : Prop :=
  ∀ h path reg r, flattenN g fuel h path reg = some r →
    h < g.nodes.length → (reg ++ [h]).Nodup → regBound g.nodes.length reg →
    wfFrom reg.length r.d = some r.reg.length

/-- Index-discipline and child-target invariant for one `flattenAttrs` call. -/
def WfInvA (g : Graph) (fuel : Nat) : Prop :=
  ∀ attrs path reg r, flattenAttrs g fuel attrs path reg = some r →
    (∀ c ∈ childrenOf attrs, c < g.nodes.length) → reg.Nodup →
    regBound g.nodes.length reg →
    wfFromCL reg.length r.cs = some r.reg.length ∧
    ((attrs.map Prod.fst).Nodup →
      ∀ name hcd, (name, Attr.child hcd) ∈ attrs →
        (∃ j, csTarget r.cs name = some j ∧ r.reg[j]? = some hcd) ∧
        (hcd ∈ reg → ∃ i, regIndex reg hcd = some i ∧ csRef r.cs name = some i))

theorem wfInvA_of_wfInvN (g : Graph) (hwf : g.wf) (fuel : Nat)
    (hN : WfInvN g fuel) : WfInvA g fuel := by
  intro attrs
  induction attrs with
  | nil =>
    intro path reg r hr hc hnd hb
    rw [flattenAttrs] at hr
    simp only [Option.some.injEq] at hr
    constructor
    · rw [← hr]
      rw [wfFromCL]
    · intro _ name hcd hm
      simp at hm
  | cons a rest ih =>
    intro path reg r hr hc hnd hb
    obtain ⟨name0, attr⟩ := a
    have hc1 : ∀ c ∈ childrenOf rest, c < g.nodes.length := by
      intro c hcm
      refine hc c ?_
      match attr with
      | .static v => simpa [childrenOf, List.filterMap_cons] using hcm
      | .leaf t v => simpa [childrenOf, List.filterMap_cons] using hcm
      | .child hcd =>
        simp [childrenOf, List.filterMap_cons] at hcm ⊢
        exact Or.inr hcm
    match attr with
    | .static v =>
      rw [flattenAttrs] at hr
      rcases Option.map_eq_some.mp hr with ⟨r1, hr1, hr2⟩
      rcases ih path reg r1 hr1 hc1 hnd hb with ⟨hwfc, htg⟩
      subst hr2
      refine ⟨hwfc, ?_⟩
      intro hnames name hcd hm
      rcases List.mem_cons.mp hm with hm0 | hm0
      · exact absurd (congrArg Prod.snd hm0) (by simp)
      · refine htg ?_ name hcd hm0
        rw [List.map_cons, List.nodup_cons] at hnames
        exact hnames.2
    | .leaf tag v =>
      rw [flattenAttrs] at hr
      rcases Option.map_eq_some.mp hr with ⟨r1, hr1, hr2⟩
      rcases ih path reg r1 hr1 hc1 hnd hb with ⟨hwfc, htg⟩
      subst hr2
      refine ⟨hwfc, ?_⟩
      intro hnames name hcd hm
      rcases List.mem_cons.mp hm with hm0 | hm0
      · exact absurd (congrArg Prod.snd hm0) (by simp)
      · refine htg ?_ name hcd hm0
        rw [List.map_cons, List.nodup_cons] at hnames
        exact hnames.2
    | .child hcd0 =>
      rw [flattenAttrs] at hr
      have hcd0_lt : hcd0 < g.nodes.length :=
        hc hcd0 (by simp [childrenOf, List.filterMap_cons])
      match hreg : regIndex reg hcd0 with
      | some i =>
        rw [hreg] at hr
        rcases Option.map_eq_some.mp hr with ⟨r1, hr1, hr2⟩
        rcases ih path reg r1 hr1 hc1 hnd hb with ⟨hwfc, htg⟩
        rcases regInvA_of_regInvN g fuel (regInvN_all g hwf fuel) rest path reg r1 hr1
          hc1 hnd hb with ⟨ext, hext, -, -⟩
        subst hr2
        have hi_lt : i < reg.length := regIndex_lt_length hreg
        constructor
        · rw [wfFromCL]
          simp [hi_lt, hwfc]
        · intro hnames name hcd hm
          have hnames2 : name0 ∉ rest.map Prod.fst ∧ (rest.map Prod.fst).Nodup := by
            rw [List.map_cons, List.nodup_cons] at hnames
            exact hnames
          rcases List.mem_cons.mp hm with hm0 | hm0
          · have hname : name = name0 := by
              have := congrArg Prod.fst hm0
              simpa using this
            have hhcd : hcd = hcd0 := by
              have := congrArg Prod.snd hm0
              simpa [Attr.child.injEq] using this
            subst hname
            subst hhcd
            constructor
            · refine ⟨i, ?_, ?_⟩
              · rw [csTarget]
                simp
              · rw [hext]
                rw [List.getElem?_append_left hi_lt]
                exact regIndex_getElem reg hcd i hreg
            · intro _
              refine ⟨i, hreg, ?_⟩
              rw [csRef]
              simp
          · have hne : name0 ≠ name := by
              intro hh
              exact hnames2.1 (hh ▸ (List.mem_map.mpr ⟨(name, Attr.child hcd), hm0, rfl⟩))
            rcases htg hnames2.2 name hcd hm0 with ⟨⟨j, hj1, hj2⟩, hrefc⟩
            refine ⟨⟨j, ?_, hj2⟩, ?_⟩
            · rw [csTarget]
              simp [hne, hj1]
            · intro hmem
              rcases hrefc hmem with ⟨i2, hi2, hcr⟩
              refine ⟨i2, hi2, ?_⟩
              rw [csRef]
              simp [hne, hcr]
      | none =>
        rw [hreg] at hr
        have hcd0_nm : hcd0 ∉ reg := (regIndex_eq_none_iff reg hcd0).mp hreg
        match hrn : flattenN g fuel hcd0 (path ++ [name0]) reg with
        | none => rw [hrn] at hr; exact absurd hr (by simp)
        | some rn =>
          rw [hrn] at hr
          rcases Option.map_eq_some.mp hr with ⟨r1, hr1, hr2⟩
          have hnd2 : (reg ++ [hcd0]).Nodup := by
            simp [List.nodup_append, hnd, hcd0_nm]
          rcases regInvN_all g hwf fuel hcd0 (path ++ [name0]) reg rn hrn hcd0_lt hnd2 hb with
            ⟨ext1, hext1, hnrn, hbrn⟩
          rcases ih path rn.reg r1 hr1 hc1 hnrn hbrn with ⟨hwfc, htg⟩
          rcases regInvA_of_regInvN g fuel (regInvN_all g hwf fuel) rest path rn.reg r1 hr1
            hc1 hnrn hbrn with ⟨ext2, hext2, -, -⟩
          have hwfd : wfFrom reg.length rn.d = some rn.reg.length :=
            hN hcd0 (path ++ [name0]) reg rn hrn hcd0_lt hnd2 hb
          subst hr2
          constructor
          · rw [wfFromCL]
            simp [hwfd, hwfc]
          · intro hnames name hcd hm
            have hnames2 : name0 ∉ rest.map Prod.fst ∧ (rest.map Prod.fst).Nodup := by
              rw [List.map_cons, List.nodup_cons] at hnames
              exact hnames
            rcases List.mem_cons.mp hm with hm0 | hm0
            · have hname : name = name0 := by
                have := congrArg Prod.fst hm0
                simpa using this
              have hhcd : hcd = hcd0 := by
                have := congrArg Prod.snd hm0
                simpa [Attr.child.injEq] using this
              subst hname
              subst hhcd
              constructor
              · refine ⟨rn.d.index, ?_, ?_⟩
                · rw [csTarget]
                  simp
                · have hidx : rn.d.index = reg.length := by
                    cases hdd : rn.d with
                    | mk t i sf ls cs =>
                      rw [hdd] at hwfd
                      rw [wfFrom] at hwfd
                      simp [GraphDef.index]
                      by_contra hne
                      simp [hne] at hwfd
                  rw [hidx, hext2, hext1, List.append_assoc, List.append_assoc,
                    List.getElem?_append_right (le_refl reg.length)]
                  simp
              · intro hmem
                exact absurd hmem hcd0_nm
            · have hne : name0 ≠ name := by
                intro hh
                exact hnames2.1 (hh ▸ (List.mem_map.mpr ⟨(name, Attr.child hcd), hm0, rfl⟩))
              rcases htg hnames2.2 name hcd hm0 with ⟨⟨j, hj1, hj2⟩, hrefc⟩
              refine ⟨⟨j, ?_, hj2⟩, ?_⟩
              · rw [csTarget]
                simp [hne, hj1]
              · intro hmem
                have hmem2 : hcd ∈ rn.reg := by
                  rw [hext1]
                  simp [hmem]
                rcases hrefc hmem2 with ⟨i2, hi2, hcr⟩
                refine ⟨i2, ?_, ?_⟩
                · rw [hext1, List.append_assoc] at hi2
                  rwa [regIndex_append_left reg ([hcd0] ++ ext1) hcd hmem] at hi2
                · rw [csRef]
                  simp [hne, hcr]

theorem wfInvN_all (g : Graph) (hwf : g.wf) : ∀ fuel, WfInvN g fuel := by
  intro fuel
  induction fuel with
  | zero =>
    intro h path reg r hr
    rw [flattenN] at hr
    exact absurd hr (by simp)
  | succ fuel ih =>
    intro h path reg r hr hh hnd hb
    rw [flattenN] at hr
    split at hr
    · simp at hr
    · rename_i nd hg
      split at hr
      · simp at hr
      · rename_i ra ha
        simp only [Option.some.injEq] at hr
        have hc : ∀ c ∈ childrenOf nd.attrs, c < g.nodes.length :=
          (hwf.2 nd (nodes_mem hg)).2
        have hb2 : regBound g.nodes.length (reg ++ [h]) := by
          intro x hx
          rcases List.mem_append.mp hx with hx | hx
          · exact hb x hx
          · simp at hx; omega
        rcases wfInvA_of_wfInvN g hwf fuel ih nd.attrs path (reg ++ [h]) ra ha hc hnd hb2 with
          ⟨hwfc, -⟩
        rw [← hr]
        rw [wfFrom]
        simpa using hwfc

/-! ### The flattened leaves: they are exactly the GraphDef's leaf slots (as a
permutation), their Paths are pairwise distinct, and each extends the node's
Path by its attribute name. -/

theorem path_ext_ne {path : Path} {n1 n2 : String} {r1 r2 : List String}
    (hne : n1 ≠ n2) : path ++ n1 :: r1 ≠ path ++ n2 :: r2 := by
  intro hh
  have h2 : n1 :: r1 = n2 :: r2 := by
    induction path with
    | nil => simpa using hh
    | cons x xs ih => exact ih (by simpa using hh)
  exact hne (by simpa using congrArg (fun l => l.headI) h2)

/-- Flat-leaf invariant for one `flattenN` call. -/
def FlatInvN (g : Graph) (fuel : Nat) : Prop :=
  ∀ h path reg r, flattenN g fuel h path reg = some r →
    (r.flat.map fun e => (e.path, e.tag)).Perm (defLeaves r.d path) ∧
    (r.flat.map FLeaf.path).Nodup ∧
    (∀ e ∈ r.flat, ∃ nm rest2, e.path = path ++ nm :: rest2)

/-- Flat-leaf invariant for one `flattenAttrs` call. -/
def FlatInvA (g : Graph) (fuel : Nat) : Prop :=
  ∀ attrs path reg r, flattenAttrs g fuel attrs path reg = some r →
    (attrs.map Prod.fst).Nodup →
    (r.flat.map fun e => (e.path, e.tag)).Perm
      ((r.ls.map fun nt => (path ++ [nt.1], nt.2)) ++ defLeavesCL r.cs path) ∧
    (r.flat.map FLeaf.path).Nodup ∧
    (∀ e ∈ r.flat, ∃ nm rest2, e.path = path ++ nm :: rest2 ∧ nm ∈ attrs.map Prod.fst)

theorem flatInvA_of_flatInvN (g : Graph) (hwf : g.wf) (fuel : Nat)
    (hN : FlatInvN g fuel) : FlatInvA g fuel := by
  intro attrs
  induction attrs with
  | nil =>
    intro path reg r hr _
    rw [fA_nil] at hr
    simp only [Option.some.injEq] at hr
    rw [← hr]
    refine ⟨by simp [defLeavesCL], by simp, by simp⟩
  | cons a rest ih =>
    intro path reg r hr hnames
    obtain ⟨name0, attr⟩ := a
    rw [List.map_cons, List.nodup_cons] at hnames
    match attr with
    | .static v =>
      rw [fA_static] at hr
      rcases Option.map_eq_some.mp hr with ⟨r1, hr1, hr2⟩
      subst hr2
      rcases ih path reg r1 hr1 hnames.2 with ⟨hperm, hnd, hshape⟩
      refine ⟨hperm, hnd, ?_⟩
      intro e he
      rcases hshape e he with ⟨nm, rest2, hnm, hmem⟩
      exact ⟨nm, rest2, hnm, by simp [hmem]⟩
    | .leaf tag v =>
      rw [fA_leaf] at hr
      rcases Option.map_eq_some.mp hr with ⟨r1, hr1, hr2⟩
      subst hr2
      rcases ih path reg r1 hr1 hnames.2 with ⟨hperm, hnd, hshape⟩
      refine ⟨?_, ?_, ?_⟩
      · simpa using hperm.cons (path ++ [name0], tag)
      · simp only [List.map_cons, List.nodup_cons]
        refine ⟨?_, hnd⟩
        intro hmem
        rcases List.mem_map.mp hmem with ⟨e, he, hep⟩
        rcases hshape e he with ⟨nm, rest2, hnm, hmm⟩
        have hne : nm ≠ name0 := fun hh => hnames.1 (hh ▸ hmm)
        exact path_ext_ne (hne.symm ∘ Eq.symm) (by rw [← hep, hnm])
      · intro e he
        rcases List.mem_cons.mp he with he0 | he0
        · exact ⟨name0, [], by simp [he0], by simp⟩
        · rcases hshape e he0 with ⟨nm, rest2, hnm, hmm⟩
          exact ⟨nm, rest2, hnm, by simp [hmm]⟩
    | .child hc =>
      match hreg : regIndex reg hc with
      | some i =>
        rw [fA_child_old g fuel name0 hc i rest path reg hreg] at hr
        rcases Option.map_eq_some.mp hr with ⟨r1, hr1, hr2⟩
        subst hr2
        rcases ih path reg r1 hr1 hnames.2 with ⟨hperm, hnd, hshape⟩
        refine ⟨by simpa [defLeavesCL] using hperm, hnd, ?_⟩
        intro e he
        rcases hshape e he with ⟨nm, rest2, hnm, hmm⟩
        exact ⟨nm, rest2, hnm, by simp [hmm]⟩
      | none =>
        match hrn : flattenN g fuel hc (path ++ [name0]) reg with
        | none =>
          rw [fA_child_new_none g fuel name0 hc rest path reg hreg hrn] at hr
          exact absurd hr (by simp)
        | some rn =>
          rw [fA_child_new g fuel name0 hc rest path reg rn hreg hrn] at hr
          rcases Option.map_eq_some.mp hr with ⟨r1, hr1, hr2⟩
          subst hr2
          rcases ih path rn.reg r1 hr1 hnames.2 with ⟨hperm, hnd, hshape⟩
          rcases hN hc (path ++ [name0]) reg rn hrn with ⟨hpermN, hndN, hshapeN⟩
          have hshapeN2 : ∀ e ∈ rn.flat, ∃ rest2, e.path = path ++ name0 :: rest2 := by
            intro e he
            rcases hshapeN e he with ⟨nm, rest2, hnm⟩
            exact ⟨nm :: rest2, by rw [hnm]; simp⟩
          refine ⟨?_, ?_, ?_⟩
          · simp only [List.map_append, defLeavesCL]
            refine (hpermN.append hperm).trans ?_
            rw [← List.append_assoc, ← List.append_assoc]
            exact (List.perm_append_comm).append_right _
          · rw [List.map_append]
            rw [List.nodup_append]
            refine ⟨hndN, hnd, ?_⟩
            intro p hp1 hp2
            rcases List.mem_map.mp hp1 with ⟨e1, he1, hep1⟩
            rcases List.mem_map.mp hp2 with ⟨e2, he2, hep2⟩
            rcases hshapeN2 e1 he1 with ⟨rest1, hr1p⟩
            rcases hshape e2 he2 with ⟨nm2, rest2, hr2p, hmm2⟩
            have hne : name0 ≠ nm2 := fun hh => hnames.1 (hh ▸ hmm2)
            have heq : path ++ name0 :: rest1 = path ++ nm2 :: rest2 := by
              rw [← hr1p, ← hr2p, hep1, hep2]
            exact path_ext_ne hne heq
          · intro e he
            rcases List.mem_append.mp he with he0 | he0
            · rcases hshapeN2 e he0 with ⟨rest2, hnm⟩
              exact ⟨name0, rest2, hnm, by simp⟩
            · rcases hshape e he0 with ⟨nm, rest2, hnm, hmm⟩
              exact ⟨nm, rest2, hnm, by simp [hmm]⟩

theorem flatInvN_all (g : Graph) (hwf : g.wf) : ∀ fuel, FlatInvN g fuel := by
  intro fuel
  induction fuel with
  | zero =>
    intro h path reg r hr
    rw [fN_zero] at hr
    exact absurd hr (by simp)
  | succ fuel ih =>
    intro h path reg r hr
    rw [flattenN] at hr
    split at hr
    · simp at hr
    · rename_i nd hg
      split at hr
      · simp at hr
      · rename_i ra ha
        simp only [Option.some.injEq] at hr
        have hnames : (nd.attrs.map Prod.fst).Nodup := (hwf.2 nd (nodes_mem hg)).1
        rcases flatInvA_of_flatInvN g hwf fuel ih nd.attrs path (reg ++ [h]) ra ha hnames with
          ⟨hperm, hnd2, hshape⟩
        rw [← hr]
        refine ⟨?_, hnd2, ?_⟩
        · simpa [defLeaves] using hperm
        · intro e he
          rcases hshape e he with ⟨nm, rest2, hnm, -⟩
          exact ⟨nm, rest2, hnm⟩

/-! ### Reconstruction helpers: the cache stays the identity map on assigned
indices, and counts of descriptors. -/

theorem cacheLookup_append (ca ca2 : List (Nat × Nat)) (j : Nat) :
    cacheLookup (ca ++ ca2) j =
      match cacheLookup ca j with
      | some h => some h
      | none => cacheLookup ca2 j := by
  induction ca with
  | nil => rw [cacheLookup]; simp
  | cons p rest ih =>
    by_cases hp : p.1 = j
    · rw [List.cons_append, cacheLookup, cacheLookup]
      simp [hp]
    · rw [List.cons_append, cacheLookup, cacheLookup]
      simp only [hp, if_false]
      exact ih

/-- The identity cache on indices below `m`. -/
def iotaPairs (m : Nat) : List (Nat × Nat) := (List.range m).map fun i => (i, i)

theorem iotaPairs_succ (m : Nat) : iotaPairs (m + 1) = iotaPairs m ++ [(m, m)] := by
  rw [iotaPairs, List.range_succ, List.map_append, iotaPairs]
  simp

theorem cacheLookup_iota (m j : Nat) :
    cacheLookup (iotaPairs m) j = if j < m then some j else none := by
  induction m with
  | zero => simp [iotaPairs, cacheLookup]
  | succ m ih =>
    rw [iotaPairs_succ, cacheLookup_append, ih]
    by_cases hj : j < m
    · simp [hj, Nat.lt_succ_of_lt hj]
    · by_cases hjm : m = j
      · subst hjm
        simp [cacheLookup]
      · have : ¬ j < m + 1 := by omega
        simp [hj, hjm, this, cacheLookup]

mutual
theorem wfFrom_count : ∀ (m m' : Nat) (d : GraphDef),
    wfFrom m d = some m' → m' = m + defCount d
  | m, m', .mk t i sf ls cs => by
    intro hw
    rw [wfFrom] at hw
    by_cases hi : i = m
    · rw [defCount]
      simp only [hi, if_true] at hw
      have := wfFromCL_count (m + 1) m' cs hw
      omega
    · simp [hi] at hw
theorem wfFromCL_count : ∀ (m m' : Nat) (cs : ChildList),
    wfFromCL m cs = some m' → m' = m + defCountCL cs
  | m, m', .nil => by
    intro hw
    rw [wfFromCL] at hw
    simp at hw
    rw [defCountCL]
    omega
  | m, m', .consSub n d rest => by
    intro hw
    rw [wfFromCL] at hw
    match hd : wfFrom m d with
    | none => rw [hd] at hw; exact absurd hw (by simp)
    | some m2 =>
      rw [hd] at hw
      have h1 := wfFrom_count m m2 d hd
      have h2 := wfFromCL_count m2 m' rest hw
      rw [defCountCL]
      omega
  | m, m', .consRef n j rest => by
    intro hw
    rw [wfFromCL] at hw
    by_cases hj : j < m
    · simp only [hj, if_true] at hw
      have := wfFromCL_count m m' rest hw
      rw [defCountCL]
      omega
    · simp [hj] at hw
end

mutual
theorem buildList_length : ∀ (st : StateL) (d : GraphDef) (path : Path),
    (buildList st d path).length = defCount d
  | st, .mk t i sf ls cs, path => by
    rw [buildList, defCount]
    simp [buildListCL_length st cs path]
    omega
theorem buildListCL_length : ∀ (st : StateL) (cs : ChildList) (path : Path),
    (buildListCL st cs path).length = defCountCL cs
  | st, .nil, path => by
    rw [buildListCL, defCountCL]
    rfl
  | st, .consSub n d rest, path => by
    rw [buildListCL, defCountCL]
    simp [buildList_length st d (path ++ [n]), buildListCL_length st rest path]
  | st, .consRef n j rest, path => by
    rw [buildListCL, defCountCL]
    exact buildListCL_length st rest path
end

theorem mergeLeaves_ok (st : StateL) (ls : List (String × String)) (path : Path)
    (hok : ∀ nt ∈ ls, (lookupState st (path ++ [nt.1])).isSome) :
    mergeLeaves st ls path = some (leafAttrsOf st ls path) := by
  induction ls with
  | nil => rw [mergeLeaves, leafAttrsOf]; simp
  | cons nt rest ih =>
    obtain ⟨name, tag⟩ := nt
    have h1 : (lookupState st (path ++ [name])).isSome := hok (name, tag) (by simp)
    rcases Option.isSome_iff_exists.mp h1 with ⟨v, hv⟩
    rw [mergeLeaves, hv, ih (fun nt hm => hok nt (by simp [hm]))]
    simp only [leafAttrsOf, List.map_cons, hv]
    rfl

theorem set_append_left_length {α : Type} (l1 l2 : List α) (a : α) :
    (l1 ++ l2).set l1.length a = l1 ++ l2.set 0 a := by
  induction l1 with
  | nil => simp
  | cons x xs ih => simp [List.set_cons_succ, ih]

theorem wfFrom_index (m m' : Nat) (d : GraphDef) (h : wfFrom m d = some m') :
    d.index = m := by
  cases d with
  | mk t i sf ls cs =>
    rw [wfFrom] at h
    by_cases hi : i = m
    · simpa [GraphDef.index] using hi
    · simp [hi] at h

/-! ### The Reconstruct Engine builds the canonical arena: handles coincide
with indices, so the cache is the identity map throughout. -/

mutual
theorem mergeNode_build : ∀ (st : StateL) (d : GraphDef) (path : Path) (m m' : Nat)
    (ar : List (Option Node)),
    wfFrom m d = some m' → ar.length = m →
    (∀ p ∈ (defLeaves d path).map Prod.fst, (lookupState st p).isSome) →
    mergeNode st d path ar (iotaPairs m) =
      some (m, ar ++ (buildList st d path).map some, iotaPairs m')
  | st, .mk t i sf ls cs, path, m, m', ar => by
    intro hw hlen hok
    subst hlen
    rw [wfFrom] at hw
    by_cases hi : i = ar.length
    swap
    · simp [hi] at hw
    simp only [hi, if_true] at hw
    subst hi
    have hlsok : ∀ nt ∈ ls, (lookupState st (path ++ [nt.1])).isSome := by
      intro nt hm
      refine hok (path ++ [nt.1]) ?_
      rw [defLeaves, List.map_append, List.map_map]
      refine List.mem_append.mpr (Or.inl ?_)
      exact List.mem_map.mpr ⟨nt, hm, rfl⟩
    have hokCL : ∀ p ∈ (defLeavesCL cs path).map Prod.fst, (lookupState st p).isSome := by
      intro p hm
      refine hok p ?_
      rw [defLeaves, List.map_append]
      exact List.mem_append.mpr (Or.inr hm)
    rw [mergeNode, mergeLeaves_ok st ls path hlsok, ← iotaPairs_succ,
      mergeChildren_build st cs path (ar.length + 1) m' (ar ++ [none]) hw (by simp) hokCL]
    rw [buildList, List.append_assoc]
    simp [set_append_left_length]
theorem mergeChildren_build : ∀ (st : StateL) (cs : ChildList) (path : Path) (m m' : Nat)
    (ar : List (Option Node)),
    wfFromCL m cs = some m' → ar.length = m →
    (∀ p ∈ (defLeavesCL cs path).map Prod.fst, (lookupState st p).isSome) →
    mergeChildren st cs path ar (iotaPairs m) =
      some (childAttrsOf cs, ar ++ (buildListCL st cs path).map some, iotaPairs m')
  | st, .nil, path, m, m', ar => by
    intro hw hlen hok
    rw [wfFromCL] at hw
    simp only [Option.some.injEq] at hw
    rw [mergeChildren, childAttrsOf, buildListCL]
    simp [hw]
  | st, .consSub name d rest, path, m, m', ar => by
    intro hw hlen hok
    rw [wfFromCL] at hw
    match hd : wfFrom m d with
    | none => rw [hd] at hw; exact absurd hw (by simp)
    | some m2 =>
      rw [hd] at hw
      have hidx : d.index = m := wfFrom_index m m2 d hd
      have hsubok : ∀ p ∈ (defLeaves d (path ++ [name])).map Prod.fst,
          (lookupState st p).isSome := by
        intro p hm
        refine hok p ?_
        rw [defLeavesCL, List.map_append]
        exact List.mem_append.mpr (Or.inl hm)
      have hrestok : ∀ p ∈ (defLeavesCL rest path).map Prod.fst,
          (lookupState st p).isSome := by
        intro p hm
        refine hok p ?_
        rw [defLeavesCL, List.map_append]
        exact List.mem_append.mpr (Or.inr hm)
      have h1 := mergeNode_build st d (path ++ [name]) m m2 ar hd hlen hsubok
      have hlen2 : (ar ++ (buildList st d (path ++ [name])).map some).length = m2 := by
        have hc := wfFrom_count m m2 d hd
        simp [hlen, buildList_length]
        omega
      have h2 := mergeChildren_build st rest path m2 m'
        (ar ++ (buildList st d (path ++ [name])).map some) hw hlen2 hrestok
      rw [mergeChildren, h1]
      simp only [h2, Option.map_some]
      rw [childAttrsOf, buildListCL]
      simp [hidx, List.append_assoc]
  | st, .consRef name j rest, path, m, m', ar => by
    intro hw hlen hok
    rw [wfFromCL] at hw
    by_cases hj : j < m
    · simp only [hj, if_true] at hw
      rw [mergeChildren, cacheLookup_iota]
      simp only [hj, if_true]
      simp only [mergeChildren_build st rest path m m' ar hw hlen
        (by rw [defLeavesCL] at hok; exact hok), Option.map_some]
      rw [childAttrsOf, buildListCL]
      simp
    · simp [hj] at hw
end

theorem mapM_loop_id {α : Type} (l acc : List α) :
    List.mapM.loop id (l.map some) acc = some (acc.reverse ++ l) := by
  induction l generalizing acc with
  | nil => simp [List.mapM.loop]
  | cons x xs ih => simp [List.mapM.loop, ih]

theorem mapM_id_map_some {α : Type} (l : List α) : (l.map some).mapM id = some l := by
  rw [List.mapM]
  simpa using mapM_loop_id l []

/-- Reconstructing a well-indexed GraphDef from concatenated States succeeds
and yields the canonical arena with the root at handle 0. -/
theorem merge_build (d : GraphDef) (sts : List StateL) (n : Nat)
    (hw : wfFrom 0 d = some n)
    (hok : ∀ p ∈ (defLeaves d []).map Prod.fst, (lookupState sts.flatten p).isSome) :
    merge d sts = some ⟨buildList sts.flatten d [], 0⟩ := by
  have h1 := mergeNode_build sts.flatten d [] 0 n [] hw rfl hok
  have h0 : iotaPairs 0 = [] := rfl
  rw [h0] at h1
  rw [merge]
  simp only [h1, List.nil_append]
  rw [mapM_id_map_some]
  simp

/-! ### Re-flattening the canonical arena reproduces the GraphDef exactly. -/

theorem flattenAttrs_statics (g : Graph) (fuel : Nat) (sf : List (String × Nat))
    (path : Path) (reg : List Nat) :
    flattenAttrs g fuel (sf.map fun nv => (nv.1, Attr.static nv.2)) path reg =
      some ⟨sf, [], .nil, [], reg⟩ := by
  induction sf with
  | nil => rw [List.map_nil, fA_nil]
  | cons nv rest ih =>
    rw [List.map_cons, fA_static, ih]
    simp

theorem flattenAttrs_leaves (g : Graph) (fuel : Nat) (st : StateL)
    (ls : List (String × String)) (path : Path) (reg : List Nat) :
    flattenAttrs g fuel (leafAttrsOf st ls path) path reg =
      some ⟨[], ls, .nil,
        ls.map fun nt => ⟨path ++ [nt.1], nt.2, (lookupState st (path ++ [nt.1])).getD .empty⟩,
        reg⟩ := by
  induction ls with
  | nil =>
    rw [leafAttrsOf]
    simp [fA_nil]
  | cons nt rest ih =>
    rw [leafAttrsOf, List.map_cons, fA_leaf]
    rw [leafAttrsOf] at ih
    rw [ih]
    simp

mutual
theorem reflatten_node : ∀ (st : StateL) (d : GraphDef) (path : Path) (m' fuel : Nat)
    (g2 : Graph) (pre post : List Node),
    g2.nodes = pre ++ buildList st d path ++ post →
    wfFrom pre.length d = some m' → defCount d < fuel →
    flattenN g2 fuel pre.length path (List.range pre.length) =
      some ⟨d, leafEntries st d path, List.range m'⟩
  | st, .mk t i sf ls cs, path, m', fuel, g2, pre, post => by
    intro hnodes hw hfuel
    rw [wfFrom] at hw
    by_cases hi : i = pre.length
    swap
    · simp [hi] at hw
    simp only [hi, if_true] at hw
    subst hi
    rw [defCount] at hfuel
    match fuel with
    | 0 => omega
    | f + 1 =>
      have hfuel2 : defCountCL cs < f := by omega
      rw [buildList] at hnodes
      have hnode0 : g2.nodes[pre.length]? =
          some ⟨t, (sf.map fun nv => (nv.1, Attr.static nv.2)) ++ leafAttrsOf st ls path ++
            childAttrsOf cs⟩ := by
        rw [hnodes, List.append_assoc, List.getElem?_append_right (le_refl pre.length)]
        simp
      have hchild := reflatten_children st cs path m' f g2 (pre ++
        [⟨t, (sf.map fun nv => (nv.1, Attr.static nv.2)) ++ leafAttrsOf st ls path ++
          childAttrsOf cs⟩]) post
        (by rw [hnodes]; simp) (by simpa using hw) hfuel2
      have hattrs : flattenAttrs g2 f
          ((sf.map fun nv => (nv.1, Attr.static nv.2)) ++ (leafAttrsOf st ls path ++
            childAttrsOf cs)) path (List.range pre.length ++ [pre.length]) =
          some ⟨sf, ls, cs, leafEntries st (.mk t pre.length sf ls cs) path,
            List.range m'⟩ := by
        rw [flattenAttrs_append, flattenAttrs_statics]
        simp only [Option.some_bind]
        rw [flattenAttrs_append, flattenAttrs_leaves]
        simp only [List.length_append, List.length_cons, List.length_nil,
          Nat.zero_add] at hchild
        rw [List.range_succ] at hchild
        simp only [Option.some_bind]
        simp only [hchild]
        rw [leafEntries]
        simp [csAppend]
      have := fN_succ g2 f pre.length path (List.range pre.length) _ _ hnode0
        (by rw [← List.append_assoc] at hattrs; exact hattrs)
      rw [this]
      simp [leafEntries]
theorem reflatten_children : ∀ (st : StateL) (cs : ChildList) (path : Path) (m' fuel : Nat)
    (g2 : Graph) (pre post : List Node),
    g2.nodes = pre ++ buildListCL st cs path ++ post →
    wfFromCL pre.length cs = some m' → defCountCL cs < fuel →
    flattenAttrs g2 fuel (childAttrsOf cs) path (List.range pre.length) =
      some ⟨[], [], cs, leafEntriesCL st cs path, List.range m'⟩
  | st, .nil, path, m', fuel, g2, pre, post => by
    intro hnodes hw hfuel
    rw [wfFromCL] at hw
    simp only [Option.some.injEq] at hw
    rw [childAttrsOf, fA_nil, leafEntriesCL, hw]
  | st, .consSub name d rest, path, m', fuel, g2, pre, post => by
    intro hnodes hw hfuel
    rw [wfFromCL] at hw
    match hd : wfFrom pre.length d with
    | none => rw [hd] at hw; exact absurd hw (by simp)
    | some m2 =>
      rw [hd] at hw
      have hidx : d.index = pre.length := wfFrom_index _ _ _ hd
      rw [defCountCL] at hfuel
      rw [buildListCL] at hnodes
      have hsub := reflatten_node st d (path ++ [name]) m2 fuel g2 pre
        (buildListCL st rest path ++ post)
        (by rw [hnodes]; simp) hd (by omega)
      have hlen2 : (pre ++ buildList st d (path ++ [name])).length = m2 := by
        have := wfFrom_count pre.length m2 d hd
        simp [buildList_length]
        omega
      have hrest := reflatten_children st rest path m' fuel g2
        (pre ++ buildList st d (path ++ [name])) post
        (by rw [hnodes]; simp) (by rw [hlen2]; exact hw) (by omega)
      rw [childAttrsOf, hidx]
      have hreg : regIndex (List.range pre.length) pre.length = none := by
        rw [regIndex_range]
        simp
      rw [fA_child_new g2 fuel name pre.length (childAttrsOf rest) path
        (List.range pre.length) _ hreg hsub]
      rw [hlen2] at hrest
      simp only [hrest]
      rw [leafEntriesCL]
      simp
  | st, .consRef name j rest, path, m', fuel, g2, pre, post => by
    intro hnodes hw hfuel
    rw [wfFromCL] at hw
    by_cases hj : j < pre.length
    swap
    · simp [hj] at hw
    simp only [hj, if_true] at hw
    rw [defCountCL] at hfuel
    rw [buildListCL] at hnodes
    have hrest := reflatten_children st rest path m' fuel g2 pre post hnodes hw hfuel
    rw [childAttrsOf]
    have hreg : regIndex (List.range pre.length) j = some j := by
      rw [regIndex_range]
      simp [hj]
    rw [fA_child_old g2 fuel name j j (childAttrsOf rest) path (List.range pre.length) hreg]
    simp only [hrest]
    rw [leafEntriesCL]
    simp
end

/-! ### State lookup and partition lemmas -/

theorem lookupState_isSome_iff (st : StateL) (p : Path) :
    (lookupState st p).isSome ↔ p ∈ st.map Prod.fst := by
  induction st with
  | nil => simp [lookupState]
  | cons pv rest ih =>
    obtain ⟨q, v⟩ := pv
    by_cases hq : q = p
    · subst hq
      rw [lookupState, if_pos rfl, List.map_cons]
      exact iff_of_true rfl (List.mem_cons_self _ _)
    · rw [lookupState]
      simp only [hq, if_false]
      rw [ih, List.map_cons]
      constructor
      · intro hm
        exact List.mem_cons.mpr (Or.inr hm)
      · intro hm
        rcases List.mem_cons.mp hm with h1 | h1
        · exact absurd h1.symm hq
        · exact h1

theorem lookupState_eq_some_of_mem {st : StateL} (hnd : (st.map Prod.fst).Nodup)
    {p : Path} {v : LeafVal} (hm : (p, v) ∈ st) : lookupState st p = some v := by
  induction st with
  | nil => simp at hm
  | cons pv rest ih =>
    obtain ⟨q, w⟩ := pv
    rw [List.map_cons, List.nodup_cons] at hnd
    rcases List.mem_cons.mp hm with hm0 | hm0
    · have hq : p = q := congrArg Prod.fst hm0
      have hv : v = w := congrArg Prod.snd hm0
      subst hq
      subst hv
      rw [lookupState]
      simp
    · have hqp : q ≠ p := by
        intro hh
        subst hh
        exact hnd.1 (List.mem_map.mpr ⟨(q, v), hm0, rfl⟩)
      rw [lookupState]
      simp only [hqp, if_false]
      exact ih hnd.2 hm0

theorem mem_of_lookupState_eq_some {st : StateL} {p : Path} {v : LeafVal}
    (h : lookupState st p = some v) : (p, v) ∈ st := by
  induction st with
  | nil => simp [lookupState] at h
  | cons pv rest ih =>
    obtain ⟨q, w⟩ := pv
    by_cases hq : q = p
    · subst hq
      rw [lookupState] at h
      simp only [if_true, Option.some.injEq] at h
      subst h
      exact List.mem_cons_self _ _
    · rw [lookupState] at h
      simp only [hq, if_false] at h
      exact List.mem_cons.mpr (Or.inr (ih h))

theorem splitStates_length (fs : List TagFilter) (flat : List FLeaf) :
    (splitStates fs flat).length = fs.length + 1 := by
  induction fs generalizing flat with
  | nil => rw [splitStates]; rfl
  | cons f rest ih =>
    rw [splitStates]
    simp [ih]

theorem splitStates_flatten_perm (fs : List TagFilter) (flat : List FLeaf) :
    (splitStates fs flat).flatten.Perm (stateOf flat) := by
  induction fs generalizing flat with
  | nil =>
    rw [splitStates]
    simp
  | cons f rest ih =>
    rw [splitStates]
    rw [List.flatten_cons]
    refine ((ih _).append_left _).trans ?_
    have h1 : stateOf (flat.filter fun e => f e.tag) ++
        stateOf (flat.filter fun e => !(f e.tag)) =
        stateOf ((flat.filter fun e => f e.tag) ++ (flat.filter fun e => !(f e.tag))) := by
      rw [stateOf, stateOf, stateOf, List.map_append]
    rw [h1]
    exact (List.filter_append_perm _ flat).map _

theorem splitStates_perm (fs : List TagFilter) {flat1 flat2 : List FLeaf}
    (h : flat1.Perm flat2) :
    List.Forall₂ (fun s1 s2 => s1.Perm s2) (splitStates fs flat1) (splitStates fs flat2) := by
  induction fs generalizing flat1 flat2 with
  | nil =>
    rw [splitStates, splitStates]
    exact List.forall₂_cons.mpr ⟨h.map _, List.Forall₂.nil⟩
  | cons f rest ih =>
    rw [splitStates, splitStates]
    exact List.forall₂_cons.mpr ⟨(h.filter _).map _, ih (h.filter _)⟩

/-! ### Reading off the root call of a flatten -/

theorem flattenN_elim {g : Graph} {fuel h : Nat} {path : Path} {reg : List Nat} {r : NRes}
    (hr : flattenN g (fuel + 1) h path reg = some r) :
    ∃ nd ra, g.nodes[h]? = some nd ∧
      flattenAttrs g fuel nd.attrs path (reg ++ [h]) = some ra ∧
      r = ⟨.mk nd.type reg.length ra.sf ra.ls ra.cs, ra.flat, ra.reg⟩ := by
  rw [flattenN] at hr
  split at hr
  · simp at hr
  · rename_i nd hg
    split at hr
    · simp at hr
    · rename_i ra ha
      simp only [Option.some.injEq] at hr
      exact ⟨nd, ra, hg, ha, hr.symm⟩

theorem splitRaw_elim {g : Graph} {d : GraphDef} {flat : List FLeaf}
    (hwf : g.wf) (hs : splitRaw g = some (d, flat)) :
    ∃ nd ra, g.nodes[g.root]? = some nd ∧
      flattenAttrs g g.nodes.length nd.attrs [] [g.root] = some ra ∧
      d = .mk nd.type 0 ra.sf ra.ls ra.cs ∧ flat = ra.flat := by
  rw [splitRaw] at hs
  rcases Option.map_eq_some.mp hs with ⟨r, hr, hdr⟩
  rcases flattenN_elim hr with ⟨nd, ra, hg, ha, hres⟩
  have hd : r.d = d := congrArg Prod.fst hdr
  have hf : r.flat = flat := congrArg Prod.snd hdr
  refine ⟨nd, ra, hg, by simpa using ha, ?_, ?_⟩
  · rw [← hd, hres]
    rfl
  · rw [← hf, hres]

mutual
theorem leafEntries_proj : ∀ (st : StateL) (d : GraphDef) (path : Path),
    (leafEntries st d path).map (fun e => (e.path, e.tag)) = defLeaves d path
  | st, .mk t i sf ls cs, path => by
    rw [leafEntries, defLeaves, List.map_append, List.map_map,
      leafEntriesCL_proj st cs path]
    rfl
theorem leafEntriesCL_proj : ∀ (st : StateL) (cs : ChildList) (path : Path),
    (leafEntriesCL st cs path).map (fun e => (e.path, e.tag)) = defLeavesCL cs path
  | st, .nil, path => by
    rw [leafEntriesCL, defLeavesCL]
    rfl
  | st, .consSub name d rest, path => by
    rw [leafEntriesCL, defLeavesCL, List.map_append, leafEntries_proj st d (path ++ [name]),
      leafEntriesCL_proj st rest path]
  | st, .consRef name j rest, path => by
    rw [leafEntriesCL, defLeavesCL]
    exact leafEntriesCL_proj st rest path
end

mutual
theorem leafEntries_val : ∀ (st : StateL) (d : GraphDef) (path : Path) (e : FLeaf),
    e ∈ leafEntries st d path → e.val = (lookupState st e.path).getD .empty
  | st, .mk t i sf ls cs, path, e => by
    intro he
    rw [leafEntries] at he
    rcases List.mem_append.mp he with h1 | h1
    · rcases List.mem_map.mp h1 with ⟨nt, -, hnt⟩
      rw [← hnt]
    · exact leafEntriesCL_val st cs path e h1
theorem leafEntriesCL_val : ∀ (st : StateL) (cs : ChildList) (path : Path) (e : FLeaf),
    e ∈ leafEntriesCL st cs path → e.val = (lookupState st e.path).getD .empty
  | st, .nil, path, e => by
    intro he
    rw [leafEntriesCL] at he
    simp at he
  | st, .consSub name d rest, path, e => by
    intro he
    rw [leafEntriesCL] at he
    rcases List.mem_append.mp he with h1 | h1
    · exact leafEntries_val st d (path ++ [name]) e h1
    · exact leafEntriesCL_val st rest path e h1
  | st, .consRef name j rest, path, e => by
    intro he
    rw [leafEntriesCL] at he
    exact leafEntriesCL_val st rest path e he
end

theorem splitRaw_props {g : Graph} {d : GraphDef} {flat : List FLeaf}
    (hwf : g.wf) (hs : splitRaw g = some (d, flat)) :
    wfFrom 0 d = some (defCount d) ∧
    (flat.map fun e => (e.path, e.tag)).Perm (defLeaves d []) ∧
    (flat.map FLeaf.path).Nodup := by
  rw [splitRaw] at hs
  rcases Option.map_eq_some.mp hs with ⟨r, hr, hdr⟩
  have hd : r.d = d := congrArg Prod.fst hdr
  have hf : r.flat = flat := congrArg Prod.snd hdr
  subst hd
  subst hf
  have hwfi := wfInvN_all g hwf (g.nodes.length + 1) g.root [] [] r hr hwf.1 (by simp)
    (by intro x hx; simp at hx)
  have hwf0 : wfFrom 0 r.d = some r.reg.length := by simpa using hwfi
  have hcnt := wfFrom_count 0 r.reg.length r.d hwf0
  have hflat := flatInvN_all g hwf (g.nodes.length + 1) g.root [] [] r hr
  refine ⟨?_, hflat.1, hflat.2.1⟩
  rw [hwf0, hcnt]
  simp

/-! ### The round-trip law -/

/-- C1.  For a well-formed graph, splitting, merging the returned States with
the returned GraphDef, and re-splitting with the same filters succeeds, yields
the same GraphDef, and yields States equal to the originals by Path and value
(each State a permutation of the corresponding original State's entries). -/
theorem roundTrip (g : Graph) (fs : List TagFilter) (states : List StateL) (d : GraphDef)
    (hwf : g.wf) (hs : split g fs = some (states, d)) :
    ∃ g2 states2,
      merge d states = some g2 ∧
      split g2 fs = some (states2, d) ∧
      List.Forall₂ (fun s2 s1 => s2.Perm s1) states2 states := by
  rw [split] at hs
  rcases Option.map_eq_some.mp hs with ⟨r, hsr, heq⟩
  obtain ⟨d0, flat⟩ := r
  have hstates : splitStates fs flat = states := congrArg Prod.fst heq
  have hd0 : d = d0 := (congrArg Prod.snd heq).symm
  subst hd0
  rcases splitRaw_props hwf hsr with ⟨hwf0, hperm, hnodup⟩
  set st := states.flatten with hst
  have hstperm : st.Perm (stateOf flat) := by
    rw [hst, ← hstates]
    exact splitStates_flatten_perm fs flat
  have hstfst : (stateOf flat).map Prod.fst = flat.map FLeaf.path := by
    rw [stateOf, List.map_map]
    rfl
  have hstnodup : (st.map Prod.fst).Nodup := by
    refine ((hstperm.map Prod.fst).nodup_iff).mpr ?_
    rw [hstfst]
    exact hnodup
  have hmemflat : ∀ p, p ∈ (defLeaves d []).map Prod.fst → p ∈ flat.map FLeaf.path := by
    intro p hp
    have h2 : ((flat.map fun e => (e.path, e.tag)).map Prod.fst).Perm
        ((defLeaves d []).map Prod.fst) := hperm.map Prod.fst
    have h3 : (flat.map fun e => (e.path, e.tag)).map Prod.fst = flat.map FLeaf.path := by
      rw [List.map_map]
      rfl
    rw [h3] at h2
    exact h2.mem_iff.mpr hp
  have hok : ∀ p ∈ (defLeaves d []).map Prod.fst, (lookupState st p).isSome := by
    intro p hp
    rw [lookupState_isSome_iff]
    have := hmemflat p hp
    have h4 : (st.map Prod.fst).Perm (flat.map FLeaf.path) := by
      rw [← hstfst]
      exact hstperm.map Prod.fst
    exact h4.mem_iff.mpr this
  have hmerge : merge d states = some ⟨buildList st d [], 0⟩ :=
    merge_build d states (defCount d) hwf0 hok
  set g2 : Graph := ⟨buildList st d [], 0⟩ with hg2
  have hlen2 : g2.nodes.length = defCount d := by
    rw [hg2]
    exact buildList_length st d []
  have hrefl := reflatten_node st d [] (defCount d) (defCount d + 1) g2 [] []
    (by rw [hg2]; simp) (by simpa using hwf0) (by omega)
  have hsplit2 : splitRaw g2 = some (d, leafEntries st d []) := by
    rw [splitRaw, hlen2]
    have hroot2 : g2.root = 0 := rfl
    rw [hroot2]
    have : flattenN g2 (defCount d + 1) 0 [] [] =
        some ⟨d, leafEntries st d [], List.range (defCount d)⟩ := by
      simpa using hrefl
    rw [this]
    rfl
  set flat2 := leafEntries st d [] with hflat2
  have hproj2 : flat2.map (fun e => (e.path, e.tag)) = defLeaves d [] :=
    leafEntries_proj st d []
  have hpaths2 : flat2.map FLeaf.path = (defLeaves d []).map Prod.fst := by
    rw [← hproj2, List.map_map]
    rfl
  have hpathsperm : (flat2.map FLeaf.path).Perm (flat.map FLeaf.path) := by
    rw [hpaths2]
    refine (hperm.map Prod.fst).symm.trans ?_
    rw [List.map_map]
    rfl
  have hnodup2 : (flat2.map FLeaf.path).Nodup := hpathsperm.nodup_iff.mpr hnodup
  have hsubset : flat2 ⊆ flat := by
    intro e2 he2
    have hpt : (e2.path, e2.tag) ∈ defLeaves d [] := by
      rw [← hproj2]
      exact List.mem_map.mpr ⟨e2, he2, rfl⟩
    have hpt2 : (e2.path, e2.tag) ∈ flat.map fun e => (e.path, e.tag) :=
      hperm.mem_iff.mpr hpt
    rcases List.mem_map.mp hpt2 with ⟨e, he, hee⟩
    have hpe : e.path = e2.path := congrArg Prod.fst hee
    have hte : e.tag = e2.tag := congrArg Prod.snd hee
    have hval : e2.val = (lookupState st e2.path).getD .empty :=
      leafEntries_val st d [] e2 he2
    have hmemst : (e.path, e.val) ∈ st := by
      refine hstperm.mem_iff.mpr ?_
      rw [stateOf]
      exact List.mem_map.mpr ⟨e, he, rfl⟩
    have hlook : lookupState st e.path = some e.val :=
      lookupState_eq_some_of_mem hstnodup hmemst
    have he2e : e2 = e := by
      cases e2 with
      | mk p2 t2 v2 =>
        cases e with
        | mk p t v =>
          simp only [FLeaf.mk.injEq]
          simp only at hpe hte hval
          rw [hpe] at hlook
          rw [hval, hlook]
          simp [hpe, hte]
    rw [he2e]
    exact he
  have hlenflat : flat.length ≤ flat2.length := by
    have h1 : flat2.length = (defLeaves d []).length := by
      rw [← hproj2, List.length_map]
    have h2 : flat.length = (defLeaves d []).length := by
      rw [← hperm.length_eq, List.length_map]
    omega
  have hflatperm : flat2.Perm flat :=
    (List.Nodup.subperm (hnodup2.of_map _) hsubset).perm_of_length_le hlenflat
  refine ⟨g2, splitStates fs flat2, hmerge, ?_, ?_⟩
  · rw [split, hsplit2]
    rfl
  · rw [← hstates]
    exact splitStates_perm fs hflatperm

/-! ### Flatten reads only newly visited nodes -/

/-- Registry extension for `flattenN`, with no side conditions. -/
def ExtN (g : Graph) (fuel : Nat) : Prop :=
  ∀ h path reg r, flattenN g fuel h path reg = some r →
    ∃ ext, r.reg = (reg ++ [h]) ++ ext

/-- Registry extension for `flattenAttrs`, with no side conditions. -/
def ExtA (g : Graph) (fuel : Nat) : Prop :=
  ∀ attrs path reg r, flattenAttrs g fuel attrs path reg = some r →
    ∃ ext, r.reg = reg ++ ext

theorem extA_of_extN (g : Graph) (fuel : Nat) (hN : ExtN g fuel) : ExtA g fuel := by
  intro attrs
  induction attrs with
  | nil =>
    intro path reg r hr
    rw [fA_nil] at hr
    simp only [Option.some.injEq] at hr
    exact ⟨[], by simp [← hr]⟩
  | cons a rest ih =>
    intro path reg r hr
    obtain ⟨name0, attr⟩ := a
    match attr with
    | .static v =>
      rw [fA_static] at hr
      rcases Option.map_eq_some.mp hr with ⟨r1, hr1, hr2⟩
      rcases ih path reg r1 hr1 with ⟨ext, he⟩
      exact ⟨ext, by rw [← hr2]; exact he⟩
    | .leaf tag v =>
      rw [fA_leaf] at hr
      rcases Option.map_eq_some.mp hr with ⟨r1, hr1, hr2⟩
      rcases ih path reg r1 hr1 with ⟨ext, he⟩
      exact ⟨ext, by rw [← hr2]; exact he⟩
    | .child hc =>
      match hreg : regIndex reg hc with
      | some i =>
        rw [fA_child_old g fuel name0 hc i rest path reg hreg] at hr
        rcases Option.map_eq_some.mp hr with ⟨r1, hr1, hr2⟩
        rcases ih path reg r1 hr1 with ⟨ext, he⟩
        exact ⟨ext, by rw [← hr2]; exact he⟩
      | none =>
        match hrn : flattenN g fuel hc (path ++ [name0]) reg with
        | none =>
          rw [fA_child_new_none g fuel name0 hc rest path reg hreg hrn] at hr
          exact absurd hr (by simp)
        | some rn =>
          rw [fA_child_new g fuel name0 hc rest path reg rn hreg hrn] at hr
          rcases Option.map_eq_some.mp hr with ⟨r1, hr1, hr2⟩
          rcases hN hc (path ++ [name0]) reg rn hrn with ⟨ext1, he1⟩
          rcases ih path rn.reg r1 hr1 with ⟨ext2, he2⟩
          refine ⟨[hc] ++ ext1 ++ ext2, ?_⟩
          rw [← hr2]
          simp only [he2, he1]
          simp

theorem extN_all (g : Graph) : ∀ fuel, ExtN g fuel := by
  intro fuel
  induction fuel with
  | zero =>
    intro h path reg r hr
    rw [fN_zero] at hr
    exact absurd hr (by simp)
  | succ fuel ih =>
    intro h path reg r hr
    rcases flattenN_elim hr with ⟨nd, ra, hg, ha, hres⟩
    rcases extA_of_extN g fuel ih nd.attrs path (reg ++ [h]) ra ha with ⟨ext, he⟩
    exact ⟨ext, by rw [hres]; exact he⟩

/-- Agreement invariant: flattening only reads the nodes it newly registers,
so any arena agreeing there produces the identical result. -/
def AgreeN (g : Graph) (g2 : Graph) (fuel : Nat) : Prop :=
  ∀ h path reg r, flattenN g fuel h path reg = some r → h ∉ reg →
    (∀ i, i ∈ r.reg → i ∉ reg → g2.nodes[i]? = g.nodes[i]?) →
    flattenN g2 fuel h path reg = some r

def AgreeA (g : Graph) (g2 : Graph) (fuel : Nat) : Prop :=
  ∀ attrs path reg r, flattenAttrs g fuel attrs path reg = some r →
    (∀ i, i ∈ r.reg → i ∉ reg → g2.nodes[i]? = g.nodes[i]?) →
    flattenAttrs g2 fuel attrs path reg = some r

theorem agreeA_of_agreeN (g g2 : Graph) (fuel : Nat) (hN : AgreeN g g2 fuel) :
    AgreeA g g2 fuel := by
  intro attrs
  induction attrs with
  | nil =>
    intro path reg r hr _
    rw [fA_nil] at hr
    rw [fA_nil]
    exact hr
  | cons a rest ih =>
    intro path reg r hr hag
    obtain ⟨name0, attr⟩ := a
    match attr with
    | .static v =>
      rw [fA_static] at hr
      rcases Option.map_eq_some.mp hr with ⟨r1, hr1, hr2⟩
      have hag1 : ∀ i, i ∈ r1.reg → i ∉ reg → g2.nodes[i]? = g.nodes[i]? := by
        intro i hi hni
        exact hag i (by rw [← hr2]; exact hi) hni
      rw [fA_static, ih path reg r1 hr1 hag1]
      rw [← hr2]
      rfl
    | .leaf tag v =>
      rw [fA_leaf] at hr
      rcases Option.map_eq_some.mp hr with ⟨r1, hr1, hr2⟩
      have hag1 : ∀ i, i ∈ r1.reg → i ∉ reg → g2.nodes[i]? = g.nodes[i]? := by
        intro i hi hni
        exact hag i (by rw [← hr2]; exact hi) hni
      rw [fA_leaf, ih path reg r1 hr1 hag1]
      rw [← hr2]
      rfl
    | .child hc =>
      match hreg : regIndex reg hc with
      | some i =>
        rw [fA_child_old g fuel name0 hc i rest path reg hreg] at hr
        rcases Option.map_eq_some.mp hr with ⟨r1, hr1, hr2⟩
        have hag1 : ∀ j, j ∈ r1.reg → j ∉ reg → g2.nodes[j]? = g.nodes[j]? := by
          intro j hj hnj
          exact hag j (by rw [← hr2]; exact hj) hnj
        rw [fA_child_old g2 fuel name0 hc i rest path reg hreg,
          ih path reg r1 hr1 hag1]
        rw [← hr2]
        rfl
      | none =>
        match hrn : flattenN g fuel hc (path ++ [name0]) reg with
        | none =>
          rw [fA_child_new_none g fuel name0 hc rest path reg hreg hrn] at hr
          exact absurd hr (by simp)
        | some rn =>
          rw [fA_child_new g fuel name0 hc rest path reg rn hreg hrn] at hr
          rcases Option.map_eq_some.mp hr with ⟨r1, hr1, hr2⟩
          rcases extA_of_extN g fuel (extN_all g fuel) rest path rn.reg r1 hr1 with ⟨ext2, he2⟩
          rcases extN_all g fuel hc (path ++ [name0]) reg rn hrn with ⟨ext1, he1⟩
          have hsub : ∀ j, j ∈ rn.reg → j ∈ r1.reg := by
            intro j hj
            rw [he2]
            exact List.mem_append.mpr (Or.inl hj)
          have hagn : ∀ j, j ∈ rn.reg → j ∉ reg → g2.nodes[j]? = g.nodes[j]? := by
            intro j hj hnj
            exact hag j (by rw [← hr2]; exact hsub j hj) hnj
          have hrn2 := hN hc (path ++ [name0]) reg rn hrn
            ((regIndex_eq_none_iff reg hc).mp hreg) hagn
          have hag1 : ∀ j, j ∈ r1.reg → j ∉ rn.reg → g2.nodes[j]? = g.nodes[j]? := by
            intro j hj hnj
            refine hag j (by rw [← hr2]; exact hj) ?_
            intro hjr
            exact hnj (by rw [he1]; simp [hjr])
          rw [fA_child_new g2 fuel name0 hc rest path reg rn hreg hrn2,
            ih path rn.reg r1 hr1 hag1]
          rw [← hr2]
          rfl

theorem agreeN_all (g g2 : Graph) : ∀ fuel, AgreeN g g2 fuel := by
  intro fuel
  induction fuel with
  | zero =>
    intro h path reg r hr
    rw [fN_zero] at hr
    exact absurd hr (by simp)
  | succ fuel ih =>
    intro h path reg r hr hnm hag
    rcases flattenN_elim hr with ⟨nd, ra, hg, ha, hres⟩
    rcases extA_of_extN g fuel (extN_all g fuel) nd.attrs path (reg ++ [h]) ra ha with
      ⟨ext, he⟩
    have hhm : h ∈ ra.reg := by
      rw [he]
      simp
    have hg2 : g2.nodes[h]? = some nd := by
      rw [hag h (by rw [hres]; exact hhm) hnm]
      exact hg
    have hag1 : ∀ i, i ∈ ra.reg → i ∉ reg ++ [h] → g2.nodes[i]? = g.nodes[i]? := by
      intro i hi hni
      refine hag i (by rw [hres]; exact hi) ?_
      intro hir
      exact hni (List.mem_append.mpr (Or.inl hir))
    have ha2 := agreeA_of_agreeN g g2 fuel ih nd.attrs path (reg ++ [h]) ra ha hag1
    rw [hres]
    exact fN_succ g2 fuel h path reg nd ra hg2 ha2

/-! ### Pop as a leaf-value transform -/

/-- Empty every leaf of one Node whose tag matches any filter: exactly the
rewrite `pop` performs on a visited Node's attributes. -/
def emptyMatching (fs : List TagFilter) (nd : Node) : Node :=
  ⟨nd.type, nd.attrs.map fun na =>
    (na.1, match na.2 with
      | .leaf tag v => if matchesAny fs tag then Attr.leaf tag .empty else Attr.leaf tag v
      | a => a)⟩

/-- Empty a flattened leaf entry if its tag matches any filter. -/
def emptyIfMatching (fs : List TagFilter) (e : FLeaf) : FLeaf :=
  ⟨e.path, e.tag, if matchesAny fs e.tag then .empty else e.val⟩

/-- Flattening after the value transform: same GraphDef and registry, values
emptied exactly at matching tags. -/
def EmptyN (fs : List TagFilter) (g gE : Graph) (fuel : Nat) : Prop :=
  ∀ h path reg r, flattenN g fuel h path reg = some r →
    flattenN gE fuel h path reg = some ⟨r.d, r.flat.map (emptyIfMatching fs), r.reg⟩

def EmptyA (fs : List TagFilter) (g gE : Graph) (fuel : Nat) : Prop :=
  ∀ attrs path reg r, flattenAttrs g fuel attrs path reg = some r →
    flattenAttrs gE fuel (attrs.map fun na =>
      (na.1, match na.2 with
        | .leaf tag v => if matchesAny fs tag then Attr.leaf tag .empty else Attr.leaf tag v
        | a => a)) path reg =
      some ⟨r.sf, r.ls, r.cs, r.flat.map (emptyIfMatching fs), r.reg⟩

theorem emptyA_of_emptyN (fs : List TagFilter) (g gE : Graph) (fuel : Nat)
    (hN : EmptyN fs g gE fuel) : EmptyA fs g gE fuel := by
  intro attrs
  induction attrs with
  | nil =>
    intro path reg r hr
    rw [fA_nil] at hr
    simp only [Option.some.injEq] at hr
    rw [List.map_nil, fA_nil, ← hr]
    rfl
  | cons a rest ih =>
    intro path reg r hr
    obtain ⟨name0, attr⟩ := a
    rw [List.map_cons]
    match attr with
    | .static v =>
      rw [fA_static] at hr
      rcases Option.map_eq_some.mp hr with ⟨r1, hr1, hr2⟩
      rw [fA_static, ih path reg r1 hr1]
      rw [← hr2]
      rfl
    | .leaf tag v =>
      rw [fA_leaf] at hr
      rcases Option.map_eq_some.mp hr with ⟨r1, hr1, hr2⟩
      by_cases hm : matchesAny fs tag
      · rw [show ((name0, Attr.leaf tag v).1, match (name0, Attr.leaf tag v).2 with
          | .leaf tag v => if matchesAny fs tag then Attr.leaf tag .empty
            else Attr.leaf tag v
          | a => a) = (name0, Attr.leaf tag LeafVal.empty) by simp [hm]]
        rw [fA_leaf, ih path reg r1 hr1]
        rw [← hr2]
        simp [emptyIfMatching, hm]
      · rw [show ((name0, Attr.leaf tag v).1, match (name0, Attr.leaf tag v).2 with
          | .leaf tag v => if matchesAny fs tag then Attr.leaf tag .empty
            else Attr.leaf tag v
          | a => a) = (name0, Attr.leaf tag v) by simp [hm]]
        rw [fA_leaf, ih path reg r1 hr1]
        rw [← hr2]
        simp [emptyIfMatching, hm]
    | .child hc =>
      rw [show ((name0, Attr.child hc).1, match (name0, Attr.child hc).2 with
        | .leaf tag v => if matchesAny fs tag then Attr.leaf tag .empty
          else Attr.leaf tag v
        | a => a) = (name0, Attr.child hc) by rfl]
      match hreg : regIndex reg hc with
      | some i =>
        rw [fA_child_old g fuel name0 hc i rest path reg hreg] at hr
        rcases Option.map_eq_some.mp hr with ⟨r1, hr1, hr2⟩
        rw [fA_child_old gE fuel name0 hc i _ path reg hreg, ih path reg r1 hr1]
        rw [← hr2]
        rfl
      | none =>
        match hrn : flattenN g fuel hc (path ++ [name0]) reg with
        | none =>
          rw [fA_child_new_none g fuel name0 hc rest path reg hreg hrn] at hr
          exact absurd hr (by simp)
        | some rn =>
          rw [fA_child_new g fuel name0 hc rest path reg rn hreg hrn] at hr
          rcases Option.map_eq_some.mp hr with ⟨r1, hr1, hr2⟩
          have hrn2 := hN hc (path ++ [name0]) reg rn hrn
          rw [fA_child_new gE fuel name0 hc _ path reg _ hreg hrn2,
            ih path rn.reg r1 hr1]
          rw [← hr2]
          simp

theorem emptyN_all (fs : List TagFilter) (g : Graph) (root2 : Nat) : ∀ fuel,
    EmptyN fs g ⟨g.nodes.map (emptyMatching fs), root2⟩ fuel := by
  intro fuel
  induction fuel with
  | zero =>
    intro h path reg r hr
    rw [fN_zero] at hr
    exact absurd hr (by simp)
  | succ fuel ih =>
    intro h path reg r hr
    rcases flattenN_elim hr with ⟨nd, ra, hg, ha, hres⟩
    have hgE : (⟨g.nodes.map (emptyMatching fs), root2⟩ : Graph).nodes[h]? =
        some (emptyMatching fs nd) := by
      show (g.nodes.map (emptyMatching fs))[h]? = some (emptyMatching fs nd)
      rw [List.getElem?_map, hg]
      rfl
    have ha2 := emptyA_of_emptyN fs g _ fuel ih nd.attrs path (reg ++ [h]) ra ha
    have := fN_succ ⟨g.nodes.map (emptyMatching fs), root2⟩ fuel h path reg
      (emptyMatching fs nd) ⟨ra.sf, ra.ls, ra.cs, ra.flat.map (emptyIfMatching fs), ra.reg⟩
      hgE (by rw [emptyMatching]; exact ha2)
    rw [this, hres]
    rfl

/-! ### pop mirrors the flatten traversal -/

theorem pN_succ (fs : List TagFilter) (fuel h : Nat) (path : Path) (reg : List Nat)
    (nds : List Node) (nd : Node) (rp : PRes) (hg : nds[h]? = some nd)
    (ha : popAttrs fs fuel nd.attrs path (reg ++ [h]) nds = some rp) :
    popN fs (fuel + 1) h path reg nds =
      some (rp.st, rp.nodes.set h ⟨nd.type, rp.attrs⟩, rp.reg) := by
  rw [popN, hg]
  exact congrArg (fun o => match o with
    | none => none
    | some (r : PRes) => some (r.st, r.nodes.set h ⟨nd.type, r.attrs⟩, r.reg)) ha

theorem pA_nil (fs : List TagFilter) (fuel : Nat) (path : Path) (reg : List Nat)
    (nds : List Node) : popAttrs fs fuel [] path reg nds = some ⟨[], [], nds, reg⟩ := by
  rw [popAttrs]

theorem pA_static (fs : List TagFilter) (fuel : Nat) (name : String) (v : Nat)
    (rest : List (String × Attr)) (path : Path) (reg : List Nat) (nds : List Node) :
    popAttrs fs fuel ((name, .static v) :: rest) path reg nds =
      (popAttrs fs fuel rest path reg nds).map fun r =>
        ⟨(name, Attr.static v) :: r.attrs, r.st, r.nodes, r.reg⟩ := by
  rw [popAttrs]

theorem pA_leaf_match (fs : List TagFilter) (fuel : Nat) (name tag : String) (v : LeafVal)
    (rest : List (String × Attr)) (path : Path) (reg : List Nat) (nds : List Node)
    (hm : matchesAny fs tag = true) :
    popAttrs fs fuel ((name, .leaf tag v) :: rest) path reg nds =
      (popAttrs fs fuel rest path reg nds).map fun r =>
        ⟨(name, Attr.leaf tag .empty) :: r.attrs, (path ++ [name], v) :: r.st,
          r.nodes, r.reg⟩ := by
  rw [popAttrs, if_pos hm]

theorem pA_leaf_nomatch (fs : List TagFilter) (fuel : Nat) (name tag : String) (v : LeafVal)
    (rest : List (String × Attr)) (path : Path) (reg : List Nat) (nds : List Node)
    (hm : ¬ matchesAny fs tag = true) :
    popAttrs fs fuel ((name, .leaf tag v) :: rest) path reg nds =
      (popAttrs fs fuel rest path reg nds).map fun r =>
        ⟨(name, Attr.leaf tag v) :: r.attrs, r.st, r.nodes, r.reg⟩ := by
  rw [popAttrs, if_neg hm]

theorem pA_child_old (fs : List TagFilter) (fuel : Nat) (name : String) (hc i : Nat)
    (rest : List (String × Attr)) (path : Path) (reg : List Nat) (nds : List Node)
    (hreg : regIndex reg hc = some i) :
    popAttrs fs fuel ((name, .child hc) :: rest) path reg nds =
      (popAttrs fs fuel rest path reg nds).map fun r =>
        ⟨(name, Attr.child hc) :: r.attrs, r.st, r.nodes, r.reg⟩ := by
  rw [popAttrs, hreg]

theorem pA_child_new (fs : List TagFilter) (fuel : Nat) (name : String) (hc : Nat)
    (rest : List (String × Attr)) (path : Path) (reg : List Nat) (nds : List Node)
    (stc : StateL) (nds2 : List Node) (reg2 : List Nat)
    (hreg : regIndex reg hc = none)
    (hpn : popN fs fuel hc (path ++ [name]) reg nds = some (stc, nds2, reg2)) :
    popAttrs fs fuel ((name, .child hc) :: rest) path reg nds =
      (popAttrs fs fuel rest path reg2 nds2).map fun r =>
        ⟨(name, Attr.child hc) :: r.attrs, stc ++ r.st, r.nodes, r.reg⟩ := by
  rw [popAttrs, hreg, hpn]

/-- The rewritten attribute list `pop` produces for one Node. -/
def popRewrite (fs : List TagFilter) (attrs : List (String × Attr)) :
    List (String × Attr) :=
  attrs.map fun na =>
    (na.1, match na.2 with
      | .leaf tag v => if matchesAny fs tag then Attr.leaf tag .empty else Attr.leaf tag v
      | a => a)

/-- pop mirror invariant for one Node visit. -/
def PopMirrorN (fs : List TagFilter) (g : Graph) (fuel : Nat) : Prop :=
  ∀ h path reg r nds, flattenN g fuel h path reg = some r → h ∉ reg →
    (∀ i, i ∉ reg → nds[i]? = g.nodes[i]?) → nds.length = g.nodes.length →
    ∃ nds2,
      popN fs fuel h path reg nds = some
        ((r.flat.filter fun e => matchesAny fs e.tag).map fun e => (e.path, e.val),
          nds2, r.reg) ∧
      nds2.length = nds.length ∧
      (∀ i, (i ∉ r.reg ∨ i ∈ reg) → nds2[i]? = nds[i]?) ∧
      (∀ i, i ∈ r.reg → i ∉ reg → nds2[i]? = (g.nodes[i]?).map (emptyMatching fs))

/-- pop mirror invariant for one attribute walk. -/
def PopMirrorA (fs : List TagFilter) (g : Graph) (fuel : Nat) : Prop :=
  ∀ attrs path reg r nds, flattenAttrs g fuel attrs path reg = some r →
    (∀ i, i ∉ reg → nds[i]? = g.nodes[i]?) → nds.length = g.nodes.length →
    ∃ nds2,
      popAttrs fs fuel attrs path reg nds = some
        ⟨popRewrite fs attrs,
          (r.flat.filter fun e => matchesAny fs e.tag).map fun e => (e.path, e.val),
          nds2, r.reg⟩ ∧
      nds2.length = nds.length ∧
      (∀ i, (i ∉ r.reg ∨ i ∈ reg) → nds2[i]? = nds[i]?) ∧
      (∀ i, i ∈ r.reg → i ∉ reg → nds2[i]? = (g.nodes[i]?).map (emptyMatching fs))

theorem popMirrorA_of_popMirrorN (fs : List TagFilter) (g : Graph) (fuel : Nat)
    (hN : PopMirrorN fs g fuel) : PopMirrorA fs g fuel := by
  intro attrs
  induction attrs with
  | nil =>
    intro path reg r nds hr hag hlen
    rw [fA_nil] at hr
    simp only [Option.some.injEq] at hr
    refine ⟨nds, ?_, rfl, fun i _ => rfl, ?_⟩
    · rw [pA_nil, ← hr]
      rfl
    · intro i hi hni
      rw [← hr] at hi
      exact absurd hi hni
  | cons a rest ih =>
    intro path reg r nds hr hag hlen
    obtain ⟨name0, attr⟩ := a
    match attr with
    | .static v =>
      rw [fA_static] at hr
      rcases Option.map_eq_some.mp hr with ⟨r1, hr1, hr2⟩
      rcases ih path reg r1 nds hr1 hag hlen with ⟨nds2, hpa, hl2, hfr, hem⟩
      refine ⟨nds2, ?_, hl2, ?_, ?_⟩
      · rw [pA_static, hpa, ← hr2]
        rfl
      · intro i hi
        refine hfr i ?_
        rw [← hr2] at hi
        exact hi
      · intro i hi hni
        rw [← hr2] at hi
        exact hem i hi hni
    | .leaf tag v =>
      rw [fA_leaf] at hr
      rcases Option.map_eq_some.mp hr with ⟨r1, hr1, hr2⟩
      rcases ih path reg r1 nds hr1 hag hlen with ⟨nds2, hpa, hl2, hfr, hem⟩
      by_cases hm : matchesAny fs tag
      · refine ⟨nds2, ?_, hl2, ?_, ?_⟩
        · rw [pA_leaf_match fs fuel name0 tag v rest path reg nds hm, hpa, ← hr2]
          simp [popRewrite, hm]
        · intro i hi
          refine hfr i ?_
          rw [← hr2] at hi
          exact hi
        · intro i hi hni
          rw [← hr2] at hi
          exact hem i hi hni
      · refine ⟨nds2, ?_, hl2, ?_, ?_⟩
        · rw [pA_leaf_nomatch fs fuel name0 tag v rest path reg nds hm, hpa, ← hr2]
          simp [popRewrite, hm]
        · intro i hi
          refine hfr i ?_
          rw [← hr2] at hi
          exact hi
        · intro i hi hni
          rw [← hr2] at hi
          exact hem i hi hni
    | .child hc =>
      match hreg : regIndex reg hc with
      | some i0 =>
        rw [fA_child_old g fuel name0 hc i0 rest path reg hreg] at hr
        rcases Option.map_eq_some.mp hr with ⟨r1, hr1, hr2⟩
        rcases ih path reg r1 nds hr1 hag hlen with ⟨nds2, hpa, hl2, hfr, hem⟩
        refine ⟨nds2, ?_, hl2, ?_, ?_⟩
        · rw [pA_child_old fs fuel name0 hc i0 rest path reg nds hreg, hpa, ← hr2]
          rfl
        · intro i hi
          refine hfr i ?_
          rw [← hr2] at hi
          exact hi
        · intro i hi hni
          rw [← hr2] at hi
          exact hem i hi hni
      | none =>
        match hrn : flattenN g fuel hc (path ++ [name0]) reg with
        | none =>
          rw [fA_child_new_none g fuel name0 hc rest path reg hreg hrn] at hr
          exact absurd hr (by simp)
        | some rn =>
          rw [fA_child_new g fuel name0 hc rest path reg rn hreg hrn] at hr
          rcases Option.map_eq_some.mp hr with ⟨r1, hr1, hr2⟩
          rcases extN_all g fuel hc (path ++ [name0]) reg rn hrn with ⟨ext1, he1⟩
          rcases extA_of_extN g fuel (extN_all g fuel) rest path rn.reg r1 hr1 with
            ⟨ext2, he2⟩
          have hsubreg : ∀ j, j ∈ reg → j ∈ rn.reg := by
            intro j hj
            rw [he1]
            simp [hj]
          have hsubrn : ∀ j, j ∈ rn.reg → j ∈ r1.reg := by
            intro j hj
            rw [he2]
            simp [hj]
          rcases hN hc (path ++ [name0]) reg rn nds hrn
            ((regIndex_eq_none_iff reg hc).mp hreg) hag hlen with
            ⟨ndsA, hpn, hlA, hfrA, hemA⟩
          have hagA : ∀ i, i ∉ rn.reg → ndsA[i]? = g.nodes[i]? := by
            intro i hi
            have hni : i ∉ reg := fun hh => hi (hsubreg i hh)
            rw [hfrA i (Or.inl hi)]
            exact hag i hni
          rcases ih path rn.reg r1 ndsA hr1 hagA (by rw [hlA, hlen]) with
            ⟨nds2, hpa, hl2, hfr, hem⟩
          refine ⟨nds2, ?_, by rw [hl2, hlA], ?_, ?_⟩
          · rw [pA_child_new fs fuel name0 hc rest path reg nds _ ndsA rn.reg hreg hpn,
              hpa, ← hr2]
            simp [popRewrite, List.filter_append]
          · intro i hi
            rw [← hr2] at hi
            have h1 : nds2[i]? = ndsA[i]? := by
              rcases hi with hi | hi
              · exact hfr i (Or.inl hi)
              · exact hfr i (Or.inr (hsubreg i hi))
            rw [h1]
            rcases hi with hi | hi
            · exact hfrA i (Or.inl (fun hh => hi (hsubrn i hh)))
            · exact hfrA i (Or.inr hi)
          · intro i hi hni
            rw [← hr2] at hi
            by_cases hirn : i ∈ rn.reg
            · rw [hfr i (Or.inr hirn)]
              exact hemA i hirn hni
            · exact hem i hi hirn
theorem popMirrorN_all (fs : List TagFilter) (g : Graph) : ∀ fuel,
    PopMirrorN fs g fuel := by
  intro fuel
  induction fuel with
  | zero =>
    intro h path reg r nds hr
    rw [fN_zero] at hr
    exact absurd hr (by simp)
  | succ fuel ih =>
    intro h path reg r nds hr hnm hag hlen
    rcases flattenN_elim hr with ⟨nd, ra, hg, ha, hres⟩
    have hglt : h < g.nodes.length := (List.getElem?_eq_some.mp hg).1
    have hgnds : nds[h]? = some nd := by
      rw [hag h hnm]
      exact hg
    have hagA : ∀ i, i ∉ reg ++ [h] → nds[i]? = g.nodes[i]? := by
      intro i hi
      exact hag i (fun hh => hi (List.mem_append.mpr (Or.inl hh)))
    rcases popMirrorA_of_popMirrorN fs g fuel ih nd.attrs path (reg ++ [h]) ra nds
      ha hagA hlen with ⟨ndsA, hpa, hlA, hfrA, hemA⟩
    rcases extA_of_extN g fuel (extN_all g fuel) nd.attrs path (reg ++ [h]) ra ha with
      ⟨ext, he⟩
    have hhra : h ∈ ra.reg := by
      rw [he]
      simp
    refine ⟨ndsA.set h (emptyMatching fs nd), ?_, by simp [hlA], ?_, ?_⟩
    · rw [pN_succ fs fuel h path reg nds nd _ hgnds hpa, hres]
      rfl
    · intro i hi
      rw [hres] at hi
      have hineh : i ≠ h := by
        intro hh
        subst hh
        rcases hi with hi | hi
        · exact hi hhra
        · exact hnm hi
      rw [List.getElem?_set_ne (fun hh => hineh hh.symm)]
      have h1 : ndsA[i]? = nds[i]? := by
        rcases hi with hi | hi
        · exact hfrA i (Or.inl hi)
        · exact hfrA i (Or.inr (List.mem_append.mpr (Or.inl hi)))
      exact h1
    · intro i hi hni
      rw [hres] at hi
      by_cases hih : i = h
      · subst hih
        rw [List.getElem?_set_eq_of_lt _ (by rw [hlA, hlen]; exact hglt)]
        rw [hg]
        rfl
      · rw [List.getElem?_set_ne (fun hh => hih hh.symm)]
        refine hemA i hi ?_
        intro hh
        rcases List.mem_append.mp hh with h2 | h2
        · exact hni h2
        · simp at h2
          exact hih h2

/-- C5.  `split` returns one State per filter plus one implicit remainder State
when filters were supplied, and a single State covering all leaves otherwise,
plus the GraphDef. -/
theorem split_arity (g : Graph) (fs : List TagFilter) (states : List StateL)
    (d : GraphDef) (hs : split g fs = some (states, d)) :
    states.length = if fs.isEmpty then 1 else fs.length + 1 := by
  rw [split] at hs
  rcases Option.map_eq_some.mp hs with ⟨r, hsr, heq⟩
  have h1 : splitStates fs r.2 = states := congrArg Prod.fst heq
  rw [← h1, splitStates_length]
  cases fs with
  | nil => simp
  | cons f rest => simp

/-- Frame property of `pop` over a raw split, stated for reuse. -/
theorem pop_frame_aux (g : Graph) (fs : List TagFilter) (d : GraphDef) (flat : List FLeaf)
    (hwf : g.wf) (hs : splitRaw g = some (d, flat)) :
    ∃ g2, pop g fs = some
        ((flat.filter fun e => matchesAny fs e.tag).map fun e => (e.path, e.val), g2) ∧
      g2.root = g.root ∧ g2.nodes.length = g.nodes.length ∧
      splitRaw g2 = some (d, flat.map (emptyIfMatching fs)) := by
  rw [splitRaw] at hs
  rcases Option.map_eq_some.mp hs with ⟨r, hr, hdr⟩
  have hd : r.d = d := congrArg Prod.fst hdr
  have hf : r.flat = flat := congrArg Prod.snd hdr
  rcases popMirrorN_all fs g (g.nodes.length + 1) g.root [] [] r g.nodes hr (by simp)
    (by intro i _; rfl) rfl with ⟨nds2, hpn, hlen2, hfr, hem⟩
  refine ⟨⟨nds2, g.root⟩, ?_, rfl, by simpa using hlen2, ?_⟩
  · rw [pop, hpn]
    rw [hf]
    rfl
  · have hE := emptyN_all fs g g.root (g.nodes.length + 1) g.root [] [] r hr
    have hag : ∀ i, i ∈ r.reg → i ∉ ([] : List Nat) →
        (⟨nds2, g.root⟩ : Graph).nodes[i]? =
          (⟨g.nodes.map (emptyMatching fs), g.root⟩ : Graph).nodes[i]? := by
      intro i hi _
      show nds2[i]? = (g.nodes.map (emptyMatching fs))[i]?
      rw [List.getElem?_map]
      exact hem i hi (by simp)
    have hA := agreeN_all ⟨g.nodes.map (emptyMatching fs), g.root⟩ ⟨nds2, g.root⟩
      (g.nodes.length + 1) g.root [] []
      ⟨r.d, r.flat.map (emptyIfMatching fs), r.reg⟩ hE (by simp) (by simpa using hag)
    rw [splitRaw]
    have hroot : (⟨nds2, g.root⟩ : Graph).root = g.root := rfl
    have hlen3 : (⟨nds2, g.root⟩ : Graph).nodes.length = g.nodes.length := by
      simpa using hlen2
    rw [hroot, hlen3, hA]
    rw [hd, hf]
    rfl

/-- C7.  `pop` removes exactly the leaves whose tag matches some filter,
returning them as a State keyed by their Paths; the graph keeps its root, its
size and its structure, and a subsequent split yields the same GraphDef with
the matching leaves now empty placeholders and every other leaf unchanged. -/
theorem pop_frame (g : Graph) (fs : List TagFilter) (d : GraphDef) (flat : List FLeaf)
    (hwf : g.wf) (hs : splitRaw g = some (d, flat)) :
    ∃ g2, pop g fs = some
        ((flat.filter fun e => matchesAny fs e.tag).map fun e => (e.path, e.val), g2) ∧
      g2.root = g.root ∧ g2.nodes.length = g.nodes.length ∧
      splitRaw g2 = some (d, flat.map (emptyIfMatching fs)) :=
  pop_frame_aux g fs d flat hwf hs

/-- C9.  Every `split` and `pop` call on a well-formed graph terminates with a
result, cycles and sharing included, because the registry's `is_new` check
prevents revisiting a node; `merge` and `update` are structurally recursive
total functions of the embedding, so they terminate by construction. -/
theorem operations_terminate (g : Graph) (fs : List TagFilter) (hwf : g.wf) :
    (splitRaw g).isSome ∧ (split g fs).isSome ∧ (pop g fs).isSome := by
  have h1 := splitRaw_isSome g hwf
  rcases Option.isSome_iff_exists.mp h1 with ⟨rp, hs⟩
  obtain ⟨d, flat⟩ := rp
  refine ⟨h1, ?_, ?_⟩
  · rw [split, hs]
    rfl
  · rcases pop_frame_aux g fs d flat hwf hs with ⟨g2, hp, -⟩
    rw [hp]
    rfl

/-- Ordering of flattened entries in the definition-order walk: a leaf earlier
in the attribute list handed to the walk contributes its entry (at the node's
Path extended by the attribute name) before a leaf later in that list.
Applied to `sortGraph` this yields the program's sorted-name insertion order. -/
theorem flat_order_defn (g : Graph) (fuel h : Nat) (path : Path) (reg : List Nat)
    (r : NRes) (nd : Node) (pre mid post : List (String × Attr))
    (n1 t1 n2 t2 : String) (v1 v2 : LeafVal)
    (hr : flattenN g fuel h path reg = some r)
    (hg : g.nodes[h]? = some nd)
    (hattrs : nd.attrs = pre ++ (n1, .leaf t1 v1) :: (mid ++ (n2, .leaf t2 v2) :: post)) :
    ∃ fl1 fl2 fl3,
      r.flat = fl1 ++ ⟨path ++ [n1], t1, v1⟩ :: (fl2 ++ ⟨path ++ [n2], t2, v2⟩ :: fl3) := by
  match fuel with
  | 0 =>
    rw [fN_zero] at hr
    exact absurd hr (by simp)
  | fuel + 1 =>
    rcases flattenN_elim hr with ⟨nd0, ra, hg0, ha, hres⟩
    have hnd : nd0 = nd := by
      rw [hg0] at hg
      exact Option.some.inj hg
    subst hnd
    rw [hattrs] at ha
    rw [flattenAttrs_append] at ha
    rcases Option.bind_eq_some.mp ha with ⟨rPre, hPre, ha2⟩
    rcases Option.map_eq_some.mp ha2 with ⟨rX, hX, hcomb⟩
    rw [fA_leaf] at hX
    rcases Option.map_eq_some.mp hX with ⟨rY, hY, hXc⟩
    rw [flattenAttrs_append] at hY
    rcases Option.bind_eq_some.mp hY with ⟨rMid, hMid, hY2⟩
    rcases Option.map_eq_some.mp hY2 with ⟨rZ, hZ, hYc⟩
    rw [fA_leaf] at hZ
    rcases Option.map_eq_some.mp hZ with ⟨rPost, hPost, hZc⟩
    refine ⟨rPre.flat, rMid.flat, rPost.flat, ?_⟩
    have h1 : r.flat = ra.flat := by rw [hres]
    rw [h1, ← hcomb]
    rw [← hXc, ← hYc, ← hZc]

theorem regIndex_singleton_self (h : Nat) : regIndex [h] h = some 0 := by
  rw [regIndex]
  simp


/-- C4 (corrected).  The program's recorded outputs (src/unnamed/part_000
lists the `b` entry before the `w` entry in State and ModuleDef although `w`
is assigned first) show State insertion order follows the traversal with
attributes visited in sorted attribute-name order within each node, not
definition order: under the sorted-order flatten, a leaf attribute of a
visited Node whose name sorts earlier contributes its State entry (at the
node's Path extended by the attribute name) before a leaf attribute of the
same Node whose name sorts later, regardless of definition order. -/
theorem state_order_sorted (g : Graph) (fuel h : Nat) (path : Path) (reg : List Nat)
    (r : NRes) (nd : Node) (pre mid post : List (String × Attr))
    (n1 t1 n2 t2 : String) (v1 v2 : LeafVal)
    (hr : flattenNS g fuel h path reg = some r)
    (hg : g.nodes[h]? = some nd)
    (hattrs : sortAttrs nd.attrs =
      pre ++ (n1, .leaf t1 v1) :: (mid ++ (n2, .leaf t2 v2) :: post)) :
    ∃ fl1 fl2 fl3,
      r.flat = fl1 ++ ⟨path ++ [n1], t1, v1⟩ :: (fl2 ++ ⟨path ++ [n2], t2, v2⟩ :: fl3) := by
  rw [sEqN_all] at hr
  have hg2 : (sortGraph g).nodes[h]? = some (sortNode nd) := by
    show (g.nodes.map sortNode)[h]? = some (sortNode nd)
    rw [List.getElem?_map, hg]
    rfl
  exact flat_order_defn (sortGraph g) fuel h path reg r (sortNode nd) pre mid post
    n1 t1 n2 t2 v1 v2 hr hg2 hattrs

/-- C6.  The GraphDef produced by a split satisfies the back-reference
invariant: pre-order indices are assigned consecutively from 0 and every bare
index refers below the next-fresh counter at its position, i.e. to a node at or
before it in pre-order (`wfFrom`), the traversal never redescending into a
registered node; each shared leaf appears in the flattened State exactly once
(distinct Paths); and a self-referencing root yields a children entry that is a
bare back-reference holding the root's own index 0. -/
theorem graphdef_backref_invariant (g : Graph) (d : GraphDef) (flat : List FLeaf)
    (hwf : g.wf) (hs : splitRaw g = some (d, flat)) :
    wfFrom 0 d = some (defCount d) ∧
    (flat.map FLeaf.path).Nodup ∧
    (∀ nd name, g.nodes[g.root]? = some nd → (name, Attr.child g.root) ∈ nd.attrs →
      csRef d.children name = some 0) := by
  rcases splitRaw_props hwf hs with ⟨h1, -, h3⟩
  refine ⟨h1, h3, ?_⟩
  intro nd name hnd hmem
  rcases splitRaw_elim hwf hs with ⟨nd0, ra, hg0, ha, hd, -⟩
  have hnd0 : nd0 = nd := by
    rw [hg0] at hnd
    exact Option.some.inj hnd
  subst hnd0
  have hnames : (nd0.attrs.map Prod.fst).Nodup := (hwf.2 nd0 (nodes_mem hg0)).1
  have hchb : ∀ c ∈ childrenOf nd0.attrs, c < g.nodes.length :=
    (hwf.2 nd0 (nodes_mem hg0)).2
  have hroot : g.root < g.nodes.length := hwf.1
  rcases wfInvA_of_wfInvN g hwf g.nodes.length (wfInvN_all g hwf g.nodes.length)
    nd0.attrs [] [g.root] ra ha hchb (by simp) (by intro x hx; simp at hx; omega) with
    ⟨-, htg⟩
  rcases htg hnames name g.root hmem with ⟨-, hrefc⟩
  rcases hrefc (by simp) with ⟨i, hi1, hi2⟩
  rw [regIndex_singleton_self] at hi1
  have : i = 0 := (Option.some.inj hi1).symm
  subst this
  have hch : d.children = ra.cs := by
    rw [hd]
    rfl
  rw [hch]
  exact hi2

/-! ### Partition helpers for C3, and child-target helpers for C2 -/

theorem splitStates_mem_flat (fs : List TagFilter) (flat : List FLeaf) :
    ∀ s ∈ splitStates fs flat, ∀ pv ∈ s, ∃ e ∈ flat, e.path = pv.1 ∧ e.val = pv.2 := by
  induction fs generalizing flat with
  | nil =>
    intro s hsm pv hpv
    rw [splitStates] at hsm
    simp only [List.mem_singleton] at hsm
    subst hsm
    rcases List.mem_map.mp hpv with ⟨e, he, hee⟩
    exact ⟨e, he, congrArg Prod.fst hee, congrArg Prod.snd hee⟩
  | cons f rest ih =>
    intro s hsm pv hpv
    rw [splitStates] at hsm
    rcases List.mem_cons.mp hsm with hs0 | hs0
    · subst hs0
      rcases List.mem_map.mp hpv with ⟨e, he, hee⟩
      exact ⟨e, List.mem_of_mem_filter he, congrArg Prod.fst hee, congrArg Prod.snd hee⟩
    · rcases ih (flat.filter fun e => !(f e.tag)) s hs0 pv hpv with ⟨e, he, h1, h2⟩
      exact ⟨e, List.mem_of_mem_filter he, h1, h2⟩

theorem fleaf_eq_of_path {flat : List FLeaf} (hnd : (flat.map FLeaf.path).Nodup)
    {e e2 : FLeaf} (he : e ∈ flat) (he2 : e2 ∈ flat) (hp : e.path = e2.path) : e = e2 :=
  List.inj_on_of_nodup_map hnd he he2 hp

theorem splitStates_disjoint (fs : List TagFilter) (flat : List FLeaf)
    (hnd : (flat.map FLeaf.path).Nodup) :
    List.Pairwise (fun s1 s2 => ∀ p, p ∈ s1.map Prod.fst → p ∉ s2.map Prod.fst)
      (splitStates fs flat) := by
  induction fs generalizing flat with
  | nil =>
    rw [splitStates]
    exact List.pairwise_singleton _ _
  | cons f rest ih =>
    rw [splitStates]
    refine List.pairwise_cons.mpr ⟨?_, ?_⟩
    · intro s hsm p hp1 hp2
      rcases List.mem_map.mp hp1 with ⟨pv1, hpv1, hpe1⟩
      rcases List.mem_map.mp hpv1 with ⟨e1, he1, he1e⟩
      rcases List.mem_map.mp hp2 with ⟨pv2, hpv2, hpe2⟩
      rcases splitStates_mem_flat rest _ s hsm pv2 hpv2 with ⟨e2, he2, he2p, -⟩
      have hf1 := List.of_mem_filter he1
      have hf2 := List.of_mem_filter he2
      have hpath : e1.path = e2.path := by
        have h1 : e1.path = p := by
          rw [← hpe1, ← he1e]
        have h2 : e2.path = p := by
          rw [he2p, hpe2]
        rw [h1, h2]
      have he12 : e1 = e2 := fleaf_eq_of_path hnd (List.mem_of_mem_filter he1)
        (List.mem_of_mem_filter he2) hpath
      rw [he12] at hf1
      simp [hf1] at hf2
    · refine ih (flat.filter fun e => !(f e.tag)) ?_
      exact ((List.filter_sublist flat).map FLeaf.path).nodup hnd

/-- C3.  The Path sets of the States returned by `split` are pairwise disjoint
and their union is exactly the set of leaf-slot Paths declared in the returned
GraphDef: a strict partition. -/
theorem split_partition (g : Graph) (fs : List TagFilter) (states : List StateL)
    (d : GraphDef) (hwf : g.wf) (hs : split g fs = some (states, d)) :
    List.Pairwise (fun s1 s2 => ∀ p, p ∈ s1.map Prod.fst → p ∉ s2.map Prod.fst) states ∧
    (∀ p, (∃ s ∈ states, p ∈ s.map Prod.fst) ↔ p ∈ (defLeaves d []).map Prod.fst) := by
  rw [split] at hs
  rcases Option.map_eq_some.mp hs with ⟨r, hsr, heq⟩
  obtain ⟨d0, flat⟩ := r
  have hstates : splitStates fs flat = states := congrArg Prod.fst heq
  have hd0 : d = d0 := (congrArg Prod.snd heq).symm
  subst hd0
  rcases splitRaw_props hwf hsr with ⟨-, hperm, hnodup⟩
  have hpathperm : (flat.map FLeaf.path).Perm ((defLeaves d []).map Prod.fst) := by
    have h2 := hperm.map Prod.fst
    have h3 : (flat.map fun e => (e.path, e.tag)).map Prod.fst = flat.map FLeaf.path := by
      rw [List.map_map]
      rfl
    rw [h3] at h2
    exact h2
  constructor
  · rw [← hstates]
    exact splitStates_disjoint fs flat hnodup
  · intro p
    constructor
    · intro ⟨s, hsm, hps⟩
      rcases List.mem_map.mp hps with ⟨pv, hpv, hpe⟩
      rcases splitStates_mem_flat fs flat s (by rw [hstates]; exact hsm) pv hpv with
        ⟨e, he, hep, -⟩
      refine hpathperm.mem_iff.mp ?_
      rw [← hpe, ← hep]
      exact List.mem_map.mpr ⟨e, he, rfl⟩
    · intro hp
      have hpf : p ∈ flat.map FLeaf.path := hpathperm.mem_iff.mpr hp
      have hff : p ∈ (stateOf flat).map Prod.fst := by
        rw [stateOf, List.map_map]
        exact hpf
      have hfl : p ∈ (splitStates fs flat).flatten.map Prod.fst := by
        refine ((splitStates_flatten_perm fs flat).map Prod.fst).mem_iff.mpr hff
      rcases List.mem_map.mp hfl with ⟨pv, hpv, hpe⟩
      rcases List.mem_flatten.mp hpv with ⟨s, hsm, hpvs⟩
      exact ⟨s, by rw [← hstates]; exact hsm, by rw [← hpe]; exact List.mem_map.mpr ⟨pv, hpvs, rfl⟩⟩

/-! ### Child-target helpers for identity preservation -/

theorem csRef_mem_childAttrsOf : ∀ (cs : ChildList) (name : String) (j : Nat),
    csRef cs name = some j → (name, Attr.child j) ∈ childAttrsOf cs
  | .nil, name, j => by
    intro h
    rw [csRef] at h
    exact absurd h (by simp)
  | .consSub n d rest, name, j => by
    intro h
    rw [csRef] at h
    by_cases hn : n = name
    · simp [hn] at h
    · simp only [hn, if_false] at h
      rw [childAttrsOf]
      exact List.mem_cons.mpr (Or.inr (csRef_mem_childAttrsOf rest name j h))
  | .consRef n i rest, name, j => by
    intro h
    rw [csRef] at h
    by_cases hn : n = name
    · simp only [hn, if_true, Option.some.injEq] at h
      rw [childAttrsOf, hn, h]
      exact List.mem_cons_self _ _
    · simp only [hn, if_false] at h
      rw [childAttrsOf]
      exact List.mem_cons.mpr (Or.inr (csRef_mem_childAttrsOf rest name j h))

theorem csTarget_mem_childAttrsOf : ∀ (cs : ChildList) (name : String) (j : Nat),
    csTarget cs name = some j → (name, Attr.child j) ∈ childAttrsOf cs
  | .nil, name, j => by
    intro h
    rw [csTarget] at h
    exact absurd h (by simp)
  | .consSub n d rest, name, j => by
    intro h
    rw [csTarget] at h
    by_cases hn : n = name
    · simp only [hn, if_true, Option.some.injEq] at h
      rw [childAttrsOf, hn, h]
      exact List.mem_cons_self _ _
    · simp only [hn, if_false] at h
      rw [childAttrsOf]
      exact List.mem_cons.mpr (Or.inr (csTarget_mem_childAttrsOf rest name j h))
  | .consRef n i rest, name, j => by
    intro h
    rw [csTarget] at h
    by_cases hn : n = name
    · simp only [hn, if_true, Option.some.injEq] at h
      rw [childAttrsOf, hn, h]
      exact List.mem_cons_self _ _
    · simp only [hn, if_false] at h
      rw [childAttrsOf]
      exact List.mem_cons.mpr (Or.inr (csTarget_mem_childAttrsOf rest name j h))

theorem nodup_getElem?_inj {l : List Nat} (hnd : l.Nodup) {i j x : Nat}
    (hi : l[i]? = some x) (hj : l[j]? = some x) : i = j := by
  rcases List.getElem?_eq_some.mp hi with ⟨hi2, hix⟩
  rcases List.getElem?_eq_some.mp hj with ⟨hj2, hjx⟩
  exact (hnd.getElem_inj_iff).mp (by rw [hix, hjx])

/-- The root-call facts about child attributes of the root node. -/
theorem splitRaw_root_targets {g : Graph} {d : GraphDef} {flat : List FLeaf}
    (hwf : g.wf) (hs : splitRaw g = some (d, flat)) {nd : Node}
    (hnd : g.nodes[g.root]? = some nd) :
    (∀ name, (name, Attr.child g.root) ∈ nd.attrs → csRef d.children name = some 0) ∧
    (∀ n1 n2 hch, (n1, Attr.child hch) ∈ nd.attrs → (n2, Attr.child hch) ∈ nd.attrs →
      ∃ j, csTarget d.children n1 = some j ∧ csTarget d.children n2 = some j) := by
  rcases splitRaw_elim hwf hs with ⟨nd0, ra, hg0, ha, hd, -⟩
  have hnd0 : nd0 = nd := by
    rw [hg0] at hnd
    exact Option.some.inj hnd
  subst hnd0
  have hnames : (nd0.attrs.map Prod.fst).Nodup := (hwf.2 nd0 (nodes_mem hg0)).1
  have hchb : ∀ c ∈ childrenOf nd0.attrs, c < g.nodes.length :=
    (hwf.2 nd0 (nodes_mem hg0)).2
  have hroot : g.root < g.nodes.length := hwf.1
  have hrnodup : ([g.root] : List Nat).Nodup := by simp
  have hrbound : regBound g.nodes.length [g.root] := by
    intro x hx
    simp at hx
    omega
  rcases wfInvA_of_wfInvN g hwf g.nodes.length (wfInvN_all g hwf g.nodes.length)
    nd0.attrs [] [g.root] ra ha hchb hrnodup hrbound with ⟨-, htg⟩
  rcases regInvA_of_regInvN g g.nodes.length (regInvN_all g hwf g.nodes.length)
    nd0.attrs [] [g.root] ra ha hchb hrnodup hrbound with ⟨-, -, hranodup, -⟩
  have hch : d.children = ra.cs := by
    rw [hd]
    rfl
  constructor
  · intro name hmem
    rcases htg hnames name g.root hmem with ⟨-, hrefc⟩
    rcases hrefc (by simp) with ⟨i, hi1, hi2⟩
    rw [regIndex_singleton_self] at hi1
    have : i = 0 := (Option.some.inj hi1).symm
    subst this
    rw [hch]
    exact hi2
  · intro n1 n2 hcc h1 h2
    rcases htg hnames n1 hcc h1 with ⟨⟨j1, hj1, hj1g⟩, -⟩
    rcases htg hnames n2 hcc h2 with ⟨⟨j2, hj2, hj2g⟩, -⟩
    have : j1 = j2 := nodup_getElem?_inj hranodup hj1g hj2g
    subst this
    rw [hch]
    exact ⟨j1, hj1, hj2⟩

/-- The reconstruction of a split is the canonical arena. -/
theorem split_merge_canonical (g : Graph) (fs : List TagFilter) (states : List StateL)
    (d : GraphDef) (hwf : g.wf) (hs : split g fs = some (states, d)) :
    ∃ flat, splitRaw g = some (d, flat) ∧ states = splitStates fs flat ∧
      merge d states = some ⟨buildList states.flatten d [], 0⟩ := by
  rw [split] at hs
  rcases Option.map_eq_some.mp hs with ⟨r, hsr, heq⟩
  obtain ⟨d0, flat⟩ := r
  have hstates : splitStates fs flat = states := congrArg Prod.fst heq
  have hd0 : d = d0 := (congrArg Prod.snd heq).symm
  subst hd0
  rcases splitRaw_props hwf hsr with ⟨hwf0, hperm, hnodup⟩
  refine ⟨flat, hsr, hstates.symm, ?_⟩
  refine merge_build d states (defCount d) hwf0 ?_
  intro p hp
  rw [lookupState_isSome_iff]
  have hpf : p ∈ flat.map FLeaf.path := by
    have h2 := hperm.map Prod.fst
    have h3 : (flat.map fun e => (e.path, e.tag)).map Prod.fst = flat.map FLeaf.path := by
      rw [List.map_map]
      rfl
    rw [h3] at h2
    exact h2.mem_iff.mpr hp
  have hff : p ∈ (stateOf flat).map Prod.fst := by
    rw [stateOf, List.map_map]
    exact hpf
  rw [← hstates]
  exact ((splitStates_flatten_perm fs flat).map Prod.fst).mem_iff.mpr hff

/-- C2.  Reconstruction preserves aliasing topology: a self-reference on the
root (an attribute holding the root's own handle) reconstructs to an attribute
holding the reconstructed root's own handle, and two root attributes sharing
one identical child reconstruct to two attributes holding one identical
handle. -/
theorem identity_preservation (g : Graph) (fs : List TagFilter) (states : List StateL)
    (d : GraphDef) (g2 : Graph) (nd : Node) (hwf : g.wf)
    (hsplit : split g fs = some (states, d)) (hmerge : merge d states = some g2)
    (hnd : g.nodes[g.root]? = some nd) :
    ∃ nd2, g2.nodes[g2.root]? = some nd2 ∧
      (∀ name, (name, Attr.child g.root) ∈ nd.attrs →
        (name, Attr.child g2.root) ∈ nd2.attrs) ∧
      (∀ n1 n2 hch, (n1, Attr.child hch) ∈ nd.attrs → (n2, Attr.child hch) ∈ nd.attrs →
        ∃ h2, (n1, Attr.child h2) ∈ nd2.attrs ∧ (n2, Attr.child h2) ∈ nd2.attrs) := by
  rcases split_merge_canonical g fs states d hwf hsplit with ⟨flat, hsr, -, hmc⟩
  rw [hmerge] at hmc
  have hg2 : g2 = ⟨buildList states.flatten d [], 0⟩ := Option.some.inj hmc
  rcases splitRaw_elim hwf hsr with ⟨nd0, ra, hg0, -, hd, -⟩
  have hnd0 : nd0 = nd := by
    rw [hg0] at hnd
    exact Option.some.inj hnd
  subst hnd0
  rcases splitRaw_root_targets hwf hsr hg0 with ⟨hself, hshare⟩
  have hch : d.children = ra.cs := by
    rw [hd]
    rfl
  subst hg2
  refine ⟨⟨nd0.type, (ra.sf.map fun nv => (nv.1, Attr.static nv.2)) ++
    leafAttrsOf states.flatten ra.ls [] ++ childAttrsOf ra.cs⟩, ?_, ?_, ?_⟩
  · show (buildList states.flatten d [])[0]? = some _
    rw [hd, buildList]
    simp
  · intro name hmem
    have hcr : csRef ra.cs name = some 0 := by
      rw [← hch]
      exact hself name hmem
    have hmm : (name, Attr.child 0) ∈ childAttrsOf ra.cs :=
      csRef_mem_childAttrsOf ra.cs name 0 hcr
    show (name, Attr.child 0) ∈ _
    exact List.mem_append.mpr (Or.inr hmm)
  · intro n1 n2 hcc h1 h2
    rcases hshare n1 n2 hcc h1 h2 with ⟨j, hj1, hj2⟩
    rw [hch] at hj1 hj2
    refine ⟨j, ?_, ?_⟩
    · exact List.mem_append.mpr (Or.inr (csTarget_mem_childAttrsOf ra.cs n1 j hj1))
    · exact List.mem_append.mpr (Or.inr (csTarget_mem_childAttrsOf ra.cs n2 j hj2))

theorem csAppend_nil : ∀ (cs : ChildList), csAppend cs .nil = cs
  | .nil => by rw [csAppend]
  | .consSub n d rest => by rw [csAppend, csAppend_nil rest]
  | .consRef n j rest => by rw [csAppend, csAppend_nil rest]

/-- C10.  A tagged leaf attribute assigned to the root Node after construction
(modelled as appending a fresh leaf attribute to its attribute list)
participates in subsequent split and pop exactly like a constructor-assigned
leaf: split records its (name, tag) slot and its State entry at the root Path
extended by its name, and a matching pop returns it under that same Path. -/
theorem late_leaf (g : Graph) (nd : Node) (nm tag : String) (v : LeafVal)
    (d : GraphDef) (flat : List FLeaf) (hwf : g.wf)
    (hnd : g.nodes[g.root]? = some nd) (hfresh : nm ∉ nd.attrs.map Prod.fst)
    (hs : splitRaw g = some (d, flat)) :
    splitRaw ⟨g.nodes.set g.root ⟨nd.type, nd.attrs ++ [(nm, .leaf tag v)]⟩, g.root⟩ =
      some (.mk d.type 0 d.statics (d.leafSlots ++ [(nm, tag)]) d.children,
        flat ++ [⟨[nm], tag, v⟩]) ∧
    (∀ fs, matchesAny fs tag = true →
      ∃ st4 g4,
        pop ⟨g.nodes.set g.root ⟨nd.type, nd.attrs ++ [(nm, .leaf tag v)]⟩, g.root⟩ fs =
          some (st4, g4) ∧ ([nm], v) ∈ st4) := by
  have hroot : g.root < g.nodes.length := hwf.1
  rcases splitRaw_elim hwf hs with ⟨nd0, ra, hg0, ha, hd, hflat⟩
  have hnd0 : nd0 = nd := by
    rw [hg0] at hnd
    exact Option.some.inj hnd
  subst hnd0
  set nd3 : Node := ⟨nd0.type, nd0.attrs ++ [(nm, Attr.leaf tag v)]⟩ with hnd3
  set g3 : Graph := ⟨g.nodes.set g.root nd3, g.root⟩ with hg3
  have hlen3 : g3.nodes.length = g.nodes.length := by
    rw [hg3]
    simp
  have hg3root : g3.nodes[g.root]? = some nd3 := by
    rw [hg3]
    exact List.getElem?_set_eq_of_lt _ (by simpa using hroot)
  rcases extA_of_extN g g.nodes.length (extN_all g g.nodes.length) nd0.attrs []
    [g.root] ra ha with ⟨ext, hext⟩
  have hagr : ∀ i, i ∈ ra.reg → i ∉ ([g.root] : List Nat) →
      g3.nodes[i]? = g.nodes[i]? := by
    intro i _ hni
    rw [hg3]
    show (g.nodes.set g.root nd3)[i]? = g.nodes[i]?
    refine List.getElem?_set_ne ?_
    intro hh
    exact hni (by rw [← hh]; simp)
  have ha3 : flattenAttrs g3 g.nodes.length nd0.attrs [] [g.root] = some ra := by
    refine agreeA_of_agreeN g g3 g.nodes.length (agreeN_all g g3 g.nodes.length)
      nd0.attrs [] [g.root] ra ha ?_
    intro i hi hni
    exact hagr i hi hni
  have hb3 : flattenAttrs g3 g.nodes.length [(nm, Attr.leaf tag v)] [] ra.reg =
      some ⟨[], [(nm, tag)], .nil, [⟨[nm], tag, v⟩], ra.reg⟩ := by
    rw [fA_leaf g3 g.nodes.length nm tag v [] [] ra.reg, fA_nil]
    simp
  have hcomb : flattenAttrs g3 g.nodes.length (nd0.attrs ++ [(nm, Attr.leaf tag v)]) []
      [g.root] = some ⟨ra.sf, ra.ls ++ [(nm, tag)], ra.cs,
        ra.flat ++ [⟨[nm], tag, v⟩], ra.reg⟩ := by
    rw [flattenAttrs_append, ha3]
    simp only [Option.some_bind]
    rw [hb3]
    simp [csAppend_nil]
  have hsplit3 : splitRaw g3 =
      some (.mk nd0.type 0 ra.sf (ra.ls ++ [(nm, tag)]) ra.cs,
        ra.flat ++ [⟨[nm], tag, v⟩]) := by
    rw [splitRaw, hlen3]
    have hroot3 : g3.root = g.root := rfl
    rw [hroot3]
    have hN3 := fN_succ g3 g.nodes.length g.root [] [] nd3
      ⟨ra.sf, ra.ls ++ [(nm, tag)], ra.cs, ra.flat ++ [⟨[nm], tag, v⟩], ra.reg⟩
      hg3root (by rw [hnd3]; simpa using hcomb)
    rw [hN3]
    rfl
  have hdparts : d.type = nd0.type ∧ d.statics = ra.sf ∧ d.leafSlots = ra.ls ∧
      d.children = ra.cs := by
    rw [hd]
    exact ⟨rfl, rfl, rfl, rfl⟩
  have hfinal : splitRaw g3 =
      some (.mk d.type 0 d.statics (d.leafSlots ++ [(nm, tag)]) d.children,
        flat ++ [⟨[nm], tag, v⟩]) := by
    rw [hsplit3, hdparts.1, hdparts.2.1, hdparts.2.2.1, hdparts.2.2.2, hflat]
  refine ⟨hfinal, ?_⟩
  intro fs hm
  have hwf3 : g3.wf := by
    constructor
    · rw [hlen3]
      exact hroot
    · intro nd' hnd'
      have hmem : nd' ∈ g.nodes ∨ nd' = nd3 := List.mem_or_eq_of_mem_set hnd'
      rcases hmem with hmem | hmem
      · rcases hwf.2 nd' hmem with ⟨h1, h2⟩
        refine ⟨h1, ?_⟩
        intro hc hcm
        rw [hlen3]
        exact h2 hc hcm
      · subst hmem
        constructor
        · rw [hnd3]
          show ((nd0.attrs ++ [(nm, Attr.leaf tag v)]).map Prod.fst).Nodup
          rw [List.map_append]
          rw [List.nodup_append]
          refine ⟨(hwf.2 nd0 (nodes_mem hg0)).1, by simp, ?_⟩
          intro x hx1 hx2
          simp at hx2
          subst hx2
          exact hfresh hx1
        · intro hc hcm
          rw [hlen3]
          refine (hwf.2 nd0 (nodes_mem hg0)).2 hc ?_
          rw [hnd3] at hcm
          show hc ∈ childrenOf nd0.attrs
          have : childrenOf (nd0.attrs ++ [(nm, Attr.leaf tag v)]) =
              childrenOf nd0.attrs := by
            rw [childrenOf, childrenOf, List.filterMap_append]
            simp
          rw [Node.childHandles] at hcm
          rw [this] at hcm
          exact hcm
  rcases pop_frame_aux g3 fs _ _ hwf3 hfinal with ⟨g4, hp, -, -, -⟩
  refine ⟨_, g4, hp, ?_⟩
  refine List.mem_map.mpr ⟨⟨[nm], tag, v⟩, ?_, rfl⟩
  refine List.mem_filter.mpr ⟨by simp, hm⟩

/-! ### Update: structural shape, slot values, write lemmas -/

/-- The structural shape of an attribute: leaf values erased, tag kept. -/
def attrShape : Attr → Attr
  | .leaf tag _ => .leaf tag .empty
  | a => a

/-- The structural shape of a Node: type, attribute names and kinds, tags,
static values and child handles, with leaf values erased. -/
def Node.shape (nd : Node) : Node :=
  ⟨nd.type, nd.attrs.map fun na => (na.1, attrShape na.2)⟩

/-- The value held in the named leaf slot of the node at a handle. -/
def slotValue (nds : List Node) (h : Nat) (n : String) : Option LeafVal :=
  match nds[h]? with
  | none => none
  | some nd =>
    match attrLookup nd.attrs n with
    | some (.leaf _ v) => some v
    | _ => none

theorem attrLookup_map_shape (attrs : List (String × Attr)) (n : String) :
    attrLookup (attrs.map fun na => (na.1, attrShape na.2)) n =
      (attrLookup attrs n).map attrShape := by
  induction attrs with
  | nil => rw [attrLookup]; rfl
  | cons na rest ih =>
    rw [List.map_cons, attrLookup, attrLookup]
    by_cases hn : na.1 = n
    · simp [hn]
    · simp only [hn, if_false]
      exact ih

theorem resolveLeaf_nil (g : Graph) (h : Nat) : resolveLeaf g h [] = none := by
  rw [resolveLeaf]

theorem resolveLeaf_single (g : Graph) (h : Nat) (n : String) :
    resolveLeaf g h [n] =
      match g.nodes[h]? with
      | none => none
      | some nd =>
        match attrLookup nd.attrs n with
        | some (.leaf _ _) => some (h, n)
        | _ => none := by
  rw [resolveLeaf]

theorem resolveLeaf_cons2 (g : Graph) (h : Nat) (n m : String) (rest : List String) :
    resolveLeaf g h (n :: m :: rest) =
      match g.nodes[h]? with
      | none => none
      | some nd =>
        match attrLookup nd.attrs n with
        | some (.child hc) => resolveLeaf g hc (m :: rest)
        | _ => none := by
  rw [resolveLeaf]
  simp

theorem resolveLeaf_single_none (g : Graph) (h : Nat) (n : String)
    (hnd : g.nodes[h]? = none) : resolveLeaf g h [n] = none := by
  rw [resolveLeaf_single, hnd]

theorem resolveLeaf_single_some (g : Graph) (h : Nat) (n : String) (nd : Node)
    (hnd : g.nodes[h]? = some nd) :
    resolveLeaf g h [n] =
      match attrLookup nd.attrs n with
      | some (.leaf _ _) => some (h, n)
      | _ => none := by
  rw [resolveLeaf_single, hnd]

theorem resolveLeaf_cons2_none (g : Graph) (h : Nat) (n m : String) (rest : List String)
    (hnd : g.nodes[h]? = none) : resolveLeaf g h (n :: m :: rest) = none := by
  rw [resolveLeaf_cons2, hnd]

theorem resolveLeaf_cons2_some (g : Graph) (h : Nat) (n m : String) (rest : List String)
    (nd : Node) (hnd : g.nodes[h]? = some nd) :
    resolveLeaf g h (n :: m :: rest) =
      match attrLookup nd.attrs n with
      | some (.child hc) => resolveLeaf g hc (m :: rest)
      | _ => none := by
  rw [resolveLeaf_cons2, hnd]

theorem resolveLeaf_shapeEq {nds1 nds2 : List Node} {rt1 rt2 : Nat}
    (hsh : ∀ i : Nat, (nds1[i]?).map Node.shape = (nds2[i]?).map Node.shape) :
    ∀ (p : Path) (h0 : Nat),
      resolveLeaf ⟨nds1, rt1⟩ h0 p = resolveLeaf ⟨nds2, rt2⟩ h0 p := by
  intro p
  induction p with
  | nil => intro h0; rw [resolveLeaf_nil, resolveLeaf_nil]
  | cons n rest ih =>
    intro h0
    have hsh0 := hsh h0
    have hnodes1 : (⟨nds1, rt1⟩ : Graph).nodes = nds1 := rfl
    have hnodes2 : (⟨nds2, rt2⟩ : Graph).nodes = nds2 := rfl
    have hlk : ∀ nd1 nd2, nds1[h0]? = some nd1 → nds2[h0]? = some nd2 →
        (attrLookup nd1.attrs n).map attrShape =
          (attrLookup nd2.attrs n).map attrShape := by
      intro nd1 nd2 h1 h2
      rw [h1, h2] at hsh0
      have hsh1 : Node.shape nd1 = Node.shape nd2 := by
        simpa using hsh0
      have e1 := attrLookup_map_shape nd1.attrs n
      have e2 := attrLookup_map_shape nd2.attrs n
      have hattrs : nd1.attrs.map (fun na => (na.1, attrShape na.2)) =
          nd2.attrs.map (fun na => (na.1, attrShape na.2)) :=
        congrArg Node.attrs hsh1
      rw [hattrs, e2] at e1
      exact e1.symm
    cases rest with
    | nil =>
      match h1 : nds1[h0]?, h2 : nds2[h0]? with
      | none, none =>
        rw [resolveLeaf_single_none _ _ _ h1, resolveLeaf_single_none _ _ _ h2]
      | none, some nd2 => rw [h1, h2] at hsh0; exact absurd hsh0 (by simp)
      | some nd1, none => rw [h1, h2] at hsh0; exact absurd hsh0 (by simp)
      | some nd1, some nd2 =>
        rw [resolveLeaf_single_some _ _ _ _ h1, resolveLeaf_single_some _ _ _ _ h2]
        have hlk2 := hlk nd1 nd2 h1 h2
        match hl1 : attrLookup nd1.attrs n, hl2 : attrLookup nd2.attrs n with
        | none, none => rfl
        | none, some a2 => rw [hl1, hl2] at hlk2; exact absurd hlk2 (by simp)
        | some a1, none => rw [hl1, hl2] at hlk2; exact absurd hlk2 (by simp)
        | some a1, some a2 =>
          rw [hl1, hl2] at hlk2
          simp only [Option.map_some'] at hlk2
          match a1, a2 with
          | .leaf t1 v1, .leaf t2 v2 => rfl
          | .leaf t1 v1, .child c2 => exact Attr.noConfusion (Option.some.inj hlk2)
          | .leaf t1 v1, .static s2 => exact Attr.noConfusion (Option.some.inj hlk2)
          | .child c1, .leaf t2 v2 => exact Attr.noConfusion (Option.some.inj hlk2)
          | .child c1, .child c2 => rfl
          | .child c1, .static s2 => rfl
          | .static s1, .leaf t2 v2 => exact Attr.noConfusion (Option.some.inj hlk2)
          | .static s1, .child c2 => rfl
          | .static s1, .static s2 => rfl
    | cons m rest2 =>
      match h1 : nds1[h0]?, h2 : nds2[h0]? with
      | none, none =>
        rw [resolveLeaf_cons2_none _ _ _ _ _ h1, resolveLeaf_cons2_none _ _ _ _ _ h2]
      | none, some nd2 => rw [h1, h2] at hsh0; exact absurd hsh0 (by simp)
      | some nd1, none => rw [h1, h2] at hsh0; exact absurd hsh0 (by simp)
      | some nd1, some nd2 =>
        rw [resolveLeaf_cons2_some _ _ _ _ _ _ h1, resolveLeaf_cons2_some _ _ _ _ _ _ h2]
        have hlk2 := hlk nd1 nd2 h1 h2
        match hl1 : attrLookup nd1.attrs n, hl2 : attrLookup nd2.attrs n with
        | none, none => rfl
        | none, some a2 => rw [hl1, hl2] at hlk2; exact absurd hlk2 (by simp)
        | some a1, none => rw [hl1, hl2] at hlk2; exact absurd hlk2 (by simp)
        | some a1, some a2 =>
          rw [hl1, hl2] at hlk2
          simp only [Option.map_some'] at hlk2
          match a1, a2 with
          | .leaf t1 v1, .leaf t2 v2 => rfl
          | .leaf t1 v1, .child c2 => exact Attr.noConfusion (Option.some.inj hlk2)
          | .leaf t1 v1, .static s2 => exact Attr.noConfusion (Option.some.inj hlk2)
          | .child c1, .leaf t2 v2 => exact Attr.noConfusion (Option.some.inj hlk2)
          | .child c1, .child c2 =>
            have hcc : c1 = c2 := by
              have := congrArg (fun a => match a with
                | Attr.child c => c
                | _ => 0) (Option.some.inj hlk2)
              simpa using this
            show resolveLeaf ⟨nds1, rt1⟩ c1 (m :: rest2) =
              resolveLeaf ⟨nds2, rt2⟩ c2 (m :: rest2)
            rw [hcc]
            exact ih c2
          | .child c1, .static s2 => exact Attr.noConfusion (Option.some.inj hlk2)
          | .static s1, .leaf t2 v2 => exact Attr.noConfusion (Option.some.inj hlk2)
          | .static s1, .child c2 => exact Attr.noConfusion (Option.some.inj hlk2)
          | .static s1, .static s2 => rfl

theorem writeLeaf_shape (nds : List Node) (h : Nat) (name : String) (v : LeafVal) :
    ∀ i : Nat, ((writeLeaf nds h name v)[i]?).map Node.shape = (nds[i]?).map Node.shape := by
  intro i
  match hnd : nds[h]? with
  | none =>
    have hw : writeLeaf nds h name v = nds := by rw [writeLeaf, hnd]
    rw [hw]
  | some nd =>
    have hw : writeLeaf nds h name v = nds.set h ⟨nd.type, nd.attrs.map fun na =>
        if na.1 = name then
          (na.1, match na.2 with
            | .leaf tag _ => Attr.leaf tag v
            | a => a)
        else na⟩ := by rw [writeLeaf, hnd]
    rcases List.getElem?_eq_some.mp hnd with ⟨hlt, hget⟩
    rw [hw]
    by_cases hi : i = h
    · subst hi
      rw [List.getElem?_set_eq_of_lt _ hlt, hnd]
      simp only [Option.map_some']
      have hsame : Node.shape ⟨nd.type, nd.attrs.map fun na =>
          if na.1 = name then
            (na.1, match na.2 with
              | .leaf tag _ => Attr.leaf tag v
              | a => a)
          else na⟩ = Node.shape nd := by
        rw [Node.shape, Node.shape]
        simp only [List.map_map]
        refine congrArg (fun l => Node.mk nd.type l) ?_
        refine List.map_congr_left ?_
        intro na _
        by_cases hna : na.1 = name
        · simp only [Function.comp, if_pos hna]
          match na.2 with
          | .leaf tag w => rfl
          | .child c => rfl
          | .static st => rfl
        · simp only [Function.comp, if_neg hna]
      rw [hsame]
    · rw [List.getElem?_set_ne (fun hh => hi hh.symm)]

theorem attrLookup_write (attrs : List (String × Attr)) (n q : String) (v : LeafVal) :
    attrLookup (attrs.map fun na =>
      if na.1 = n then
        (na.1, match na.2 with
          | .leaf tag _ => Attr.leaf tag v
          | a => a)
      else na) q =
    if q = n then
      (attrLookup attrs q).map fun a =>
        match a with
        | .leaf tag _ => Attr.leaf tag v
        | a => a
    else attrLookup attrs q := by
  induction attrs with
  | nil => by_cases hq : q = n <;> simp [attrLookup, hq]
  | cons na rest ih =>
    by_cases hna : na.1 = n
    · rw [List.map_cons, if_pos hna]
      by_cases hq : q = n
      · subst hq
        rw [attrLookup, attrLookup, if_pos hna, if_pos rfl, if_pos hna]
        rfl
      · have hnaq : ¬na.1 = q := fun hh => hq (hh ▸ hna)
        rw [attrLookup, attrLookup, if_neg hnaq, if_neg hnaq, ih, if_neg hq]
    · rw [List.map_cons, if_neg hna]
      rw [attrLookup, attrLookup]
      by_cases hq2 : na.1 = q
      · rw [if_pos hq2, if_pos hq2, if_neg (fun hh => hna (hq2.trans hh))]
      · rw [if_neg hq2, if_neg hq2, ih]

theorem slotValue_none_nd (nds : List Node) (h : Nat) (n : String)
    (hnd : nds[h]? = none) : slotValue nds h n = none := by
  rw [slotValue, hnd]

theorem slotValue_some_nd (nds : List Node) (h : Nat) (n : String) (nd : Node)
    (hnd : nds[h]? = some nd) :
    slotValue nds h n =
      match attrLookup nd.attrs n with
      | some (.leaf _ v) => some v
      | _ => none := by
  rw [slotValue, hnd]

theorem slotValue_writeLeaf_eq (nds : List Node) (h : Nat) (n : String)
    (v w : LeafVal) (hs : slotValue nds h n = some w) :
    slotValue (writeLeaf nds h n v) h n = some v := by
  match hnd : nds[h]? with
  | none => rw [slotValue_none_nd _ _ _ hnd] at hs; exact absurd hs (by simp)
  | some nd =>
    rw [slotValue_some_nd _ _ _ _ hnd] at hs
    have hw : writeLeaf nds h n v = nds.set h ⟨nd.type, nd.attrs.map fun na =>
        if na.1 = n then
          (na.1, match na.2 with
            | .leaf tag _ => Attr.leaf tag v
            | a => a)
        else na⟩ := by rw [writeLeaf, hnd]
    rcases List.getElem?_eq_some.mp hnd with ⟨hlt, hget⟩
    have hnd2 : (writeLeaf nds h n v)[h]? = some ⟨nd.type, nd.attrs.map fun na =>
        if na.1 = n then
          (na.1, match na.2 with
            | .leaf tag _ => Attr.leaf tag v
            | a => a)
        else na⟩ := by rw [hw]; exact List.getElem?_set_eq_of_lt _ hlt
    rw [slotValue_some_nd _ _ _ _ hnd2]
    rw [show (⟨nd.type, nd.attrs.map fun na =>
        if na.1 = n then
          (na.1, match na.2 with
            | .leaf tag _ => Attr.leaf tag v
            | a => a)
        else na⟩ : Node).attrs = nd.attrs.map fun na =>
        if na.1 = n then
          (na.1, match na.2 with
            | .leaf tag _ => Attr.leaf tag v
            | a => a)
        else na from rfl]
    rw [attrLookup_write, if_pos rfl]
    match hl : attrLookup nd.attrs n with
    | some (.leaf tag w2) => rfl
    | some (.child c) => rw [hl] at hs; exact absurd hs (by simp)
    | some (.static st) => rw [hl] at hs; exact absurd hs (by simp)
    | none => rw [hl] at hs; exact absurd hs (by simp)

theorem slotValue_writeLeaf_ne (nds : List Node) (h : Nat) (n : String)
    (v : LeafVal) (h' : Nat) (n' : String) (hne : (h', n') ≠ (h, n)) :
    slotValue (writeLeaf nds h n v) h' n' = slotValue nds h' n' := by
  match hnd : nds[h]? with
  | none =>
    have hw : writeLeaf nds h n v = nds := by rw [writeLeaf, hnd]
    rw [hw]
  | some nd =>
    have hw : writeLeaf nds h n v = nds.set h ⟨nd.type, nd.attrs.map fun na =>
        if na.1 = n then
          (na.1, match na.2 with
            | .leaf tag _ => Attr.leaf tag v
            | a => a)
        else na⟩ := by rw [writeLeaf, hnd]
    rcases List.getElem?_eq_some.mp hnd with ⟨hlt, hget⟩
    by_cases hh : h' = h
    · subst hh
      have hn2 : n' ≠ n := fun hh2 => hne (by rw [hh2])
      have hnd2 : (writeLeaf nds h' n v)[h']? = some ⟨nd.type, nd.attrs.map fun na =>
          if na.1 = n then
            (na.1, match na.2 with
              | .leaf tag _ => Attr.leaf tag v
              | a => a)
          else na⟩ := by rw [hw]; exact List.getElem?_set_eq_of_lt _ hlt
      rw [slotValue_some_nd _ _ _ _ hnd2, slotValue_some_nd _ _ _ _ hnd]
      rw [show (⟨nd.type, nd.attrs.map fun na =>
          if na.1 = n then
            (na.1, match na.2 with
              | .leaf tag _ => Attr.leaf tag v
              | a => a)
          else na⟩ : Node).attrs = nd.attrs.map fun na =>
          if na.1 = n then
            (na.1, match na.2 with
              | .leaf tag _ => Attr.leaf tag v
              | a => a)
          else na from rfl]
      rw [attrLookup_write, if_neg hn2]
    · have hnd2 : (writeLeaf nds h n v)[h']? = nds[h']? := by
        rw [hw]; exact List.getElem?_set_ne (fun hh2 => hh hh2.symm)
      rw [slotValue, slotValue, hnd2]

theorem resolveLeaf_slotValue (g : Graph) :
    ∀ (p : Path) (h0 h : Nat) (n : String),
      resolveLeaf g h0 p = some (h, n) → ∃ w, slotValue g.nodes h n = some w := by
  intro p
  induction p with
  | nil => intro h0 h n hr; rw [resolveLeaf_nil] at hr; exact absurd hr (by simp)
  | cons m rest ih =>
    intro h0 h n hr
    cases rest with
    | nil =>
      match hnd : g.nodes[h0]? with
      | none => rw [resolveLeaf_single_none _ _ _ hnd] at hr; exact absurd hr (by simp)
      | some nd =>
        rw [resolveLeaf_single_some _ _ _ _ hnd] at hr
        match hl : attrLookup nd.attrs m with
        | some (.leaf tag v) =>
          rw [hl] at hr
          simp only [Option.some.injEq, Prod.mk.injEq] at hr
          obtain ⟨hh, hn⟩ := hr
          subst hh; subst hn
          exact ⟨v, by rw [slotValue_some_nd _ _ _ _ hnd, hl]⟩
        | some (.child c) => rw [hl] at hr; exact absurd hr (by simp)
        | some (.static st) => rw [hl] at hr; exact absurd hr (by simp)
        | none => rw [hl] at hr; exact absurd hr (by simp)
    | cons m2 rest2 =>
      match hnd : g.nodes[h0]? with
      | none => rw [resolveLeaf_cons2_none _ _ _ _ _ hnd] at hr; exact absurd hr (by simp)
      | some nd =>
        rw [resolveLeaf_cons2_some _ _ _ _ _ _ hnd] at hr
        match hl : attrLookup nd.attrs m with
        | some (.child c) =>
          rw [hl] at hr
          exact ih c h n hr
        | some (.leaf tag v) => rw [hl] at hr; exact absurd hr (by simp)
        | some (.static st) => rw [hl] at hr; exact absurd hr (by simp)
        | none => rw [hl] at hr; exact absurd hr (by simp)

theorem attrLookup_shape_of_nodes {nds1 nds2 : List Node}
    (hsh : ∀ i : Nat, (nds1[i]?).map Node.shape = (nds2[i]?).map Node.shape)
    {h : Nat} {nd1 nd2 : Node} (h1 : nds1[h]? = some nd1) (h2 : nds2[h]? = some nd2)
    (n : String) :
    (attrLookup nd1.attrs n).map attrShape = (attrLookup nd2.attrs n).map attrShape := by
  have hsh0 := hsh h
  rw [h1, h2] at hsh0
  have hsh1 : Node.shape nd1 = Node.shape nd2 := by simpa using hsh0
  have e1 := attrLookup_map_shape nd1.attrs n
  have e2 := attrLookup_map_shape nd2.attrs n
  have hattrs : nd1.attrs.map (fun na => (na.1, attrShape na.2)) =
      nd2.attrs.map (fun na => (na.1, attrShape na.2)) :=
    congrArg Node.attrs hsh1
  rw [hattrs, e2] at e1
  exact e1.symm

theorem slotValue_shapeEq {nds1 nds2 : List Node}
    (hsh : ∀ i : Nat, (nds1[i]?).map Node.shape = (nds2[i]?).map Node.shape)
    (h : Nat) (n : String) :
    (∃ w, slotValue nds1 h n = some w) → ∃ w, slotValue nds2 h n = some w := by
  rintro ⟨w, hw⟩
  have hsh0 := hsh h
  match h1 : nds1[h]?, h2 : nds2[h]? with
  | none, _ => rw [slotValue_none_nd _ _ _ h1] at hw; exact absurd hw (by simp)
  | some nd1, none => rw [h1, h2] at hsh0; exact absurd hsh0 (by simp)
  | some nd1, some nd2 =>
    rw [slotValue_some_nd _ _ _ _ h1] at hw
    rw [slotValue_some_nd _ _ _ _ h2]
    have hlk := attrLookup_shape_of_nodes hsh h1 h2 n
    match hl1 : attrLookup nd1.attrs n, hl2 : attrLookup nd2.attrs n with
    | none, _ => rw [hl1] at hw; exact absurd hw (by simp)
    | some (.child c), _ => rw [hl1] at hw; exact absurd hw (by simp)
    | some (.static st), _ => rw [hl1] at hw; exact absurd hw (by simp)
    | some (.leaf tag v), none => rw [hl1, hl2] at hlk; exact absurd hlk (by simp)
    | some (.leaf tag v), some (.child c2) =>
      rw [hl1, hl2] at hlk
      exact absurd (Option.some.inj hlk) (by simp [attrShape])
    | some (.leaf tag v), some (.static st2) =>
      rw [hl1, hl2] at hlk
      exact absurd (Option.some.inj hlk) (by simp [attrShape])
    | some (.leaf tag v), some (.leaf tag2 v2) => exact ⟨v2, rfl⟩

/-- One write step of Update: resolve a Path in the current arena and
overwrite the resolved leaf slot. -/
def updStep (rt : Nat) (nds : List Node) (pv : Path × LeafVal) : List Node :=
  match resolveLeaf ⟨nds, rt⟩ rt pv.1 with
  | some (h, n) => writeLeaf nds h n pv.2
  | none => nds

theorem update_eq (g : Graph) (sts : List StateL) :
    update g sts =
      if sts.flatten.all fun pv => (resolveLeaf g g.root pv.1).isSome then
        some ⟨sts.flatten.foldl (updStep g.root) g.nodes, g.root⟩
      else none := rfl

theorem update_fold_spec (g : Graph) :
    ∀ (entries : List (Path × LeafVal)) (nds : List Node),
      (∀ i : Nat, (nds[i]?).map Node.shape = (g.nodes[i]?).map Node.shape) →
      (∀ i : Nat, ((entries.foldl (updStep g.root) nds)[i]?).map Node.shape =
          (g.nodes[i]?).map Node.shape) ∧
      (∀ h n, (∀ pv ∈ entries, resolveLeaf g g.root pv.1 ≠ some (h, n)) →
        slotValue (entries.foldl (updStep g.root) nds) h n = slotValue nds h n) ∧
      ((entries.map fun pv => resolveLeaf g g.root pv.1).Nodup →
        ∀ pv ∈ entries, ∀ h n, resolveLeaf g g.root pv.1 = some (h, n) →
          slotValue (entries.foldl (updStep g.root) nds) h n = some pv.2) := by
  intro entries
  induction entries with
  | nil =>
    intro nds hsh
    refine ⟨hsh, fun h n _ => rfl, fun _ pv hpv => absurd hpv (by simp)⟩
  | cons pv0 rest ih =>
    intro nds hsh
    have hres_g : ∀ p : Path, resolveLeaf ⟨nds, g.root⟩ g.root p = resolveLeaf g g.root p := by
      intro p
      exact resolveLeaf_shapeEq hsh p g.root
    have hstep : ∀ i : Nat, ((updStep g.root nds pv0)[i]?).map Node.shape =
        (g.nodes[i]?).map Node.shape := by
      intro i
      rw [updStep]
      match hres : resolveLeaf ⟨nds, g.root⟩ g.root pv0.1 with
      | none => exact hsh i
      | some (h0, n0) => rw [writeLeaf_shape]; exact hsh i
    obtain ⟨ihsh, ifr, iwr⟩ := ih (updStep g.root nds pv0) hstep
    rw [List.foldl_cons]
    refine ⟨ihsh, ?_, ?_⟩
    · intro h n hno
      rw [ifr h n (fun pv hpv => hno pv (List.mem_cons_of_mem _ hpv))]
      have hno0 := hno pv0 (List.mem_cons_self _ _)
      rw [updStep]
      match hres : resolveLeaf ⟨nds, g.root⟩ g.root pv0.1 with
      | none => rfl
      | some (h0, n0) =>
        have hne : (h0, n0) ≠ (h, n) := by
          intro hh
          exact hno0 (by rw [← hres_g pv0.1, hres, hh])
        exact slotValue_writeLeaf_ne _ _ _ _ _ _ (fun hh => hne hh.symm)
    · intro hnd pv hmem h n hres_pv
      rw [List.map_cons] at hnd
      obtain ⟨hnotin, hnd_rest⟩ := List.nodup_cons.mp hnd
      rcases List.mem_cons.mp hmem with hpv0 | hmem_rest
      · subst hpv0
        have hres : resolveLeaf ⟨nds, g.root⟩ g.root pv.1 = some (h, n) := by
          rw [hres_g pv.1]; exact hres_pv
        have hstep_eq : updStep g.root nds pv = writeLeaf nds h n pv.2 := by
          rw [updStep, hres]
        have hslot_g : ∃ w, slotValue g.nodes h n = some w :=
          resolveLeaf_slotValue g pv.1 g.root h n hres_pv
        obtain ⟨w, hw⟩ := slotValue_shapeEq (fun i => (hsh i).symm) h n hslot_g
        have hwrite : slotValue (updStep g.root nds pv) h n = some pv.2 := by
          rw [hstep_eq]; exact slotValue_writeLeaf_eq nds h n pv.2 w hw
        have hnone_rest : ∀ pv2 ∈ rest, resolveLeaf g g.root pv2.1 ≠ some (h, n) := by
          intro pv2 hpv2 hcon
          exact hnotin (List.mem_map.mpr ⟨pv2, hpv2, hcon.trans hres_pv.symm⟩)
        rw [ifr h n hnone_rest, hwrite]
      · exact iwr hnd_rest pv hmem_rest h n hres_pv

/-- C8: Update atomicity (spec sections 4.5 and 6): for every live Node graph
and every collection of States passed to `update`, either some Path fails to
resolve to an existing leaf slot, in which case a StructureMismatchError
(`none`) is raised and no graph is produced — exactly the failure condition —
or every Path resolves and all leaf-value writes apply: the root handle and the
structural shape of every node (type, attribute names, kinds, tags and child
handles) are unchanged, every leaf slot targeted by no entry keeps its value,
and when the entries resolve to pairwise distinct slots every entry's resolved
slot holds the written value. -/
theorem update_atomic (g : Graph) (sts : List StateL) :
    (update g sts = none ↔ ∃ pv ∈ sts.flatten, resolveLeaf g g.root pv.1 = none) ∧
    (∀ g2, update g sts = some g2 →
      g2.root = g.root ∧
      (∀ i : Nat, (g2.nodes[i]?).map Node.shape = (g.nodes[i]?).map Node.shape) ∧
      (∀ h n, (∀ pv ∈ sts.flatten, resolveLeaf g g.root pv.1 ≠ some (h, n)) →
        slotValue g2.nodes h n = slotValue g.nodes h n) ∧
      ((sts.flatten.map fun pv => resolveLeaf g g.root pv.1).Nodup →
        ∀ pv ∈ sts.flatten, ∀ h n, resolveLeaf g g.root pv.1 = some (h, n) →
          slotValue g2.nodes h n = some pv.2)) := by
  constructor
  · rw [update_eq]
    by_cases hall : (sts.flatten.all fun pv => (resolveLeaf g g.root pv.1).isSome) = true
    · rw [if_pos hall]
      constructor
      · intro hcon; exact absurd hcon (by simp)
      · rintro ⟨pv, hpv, hnone⟩
        have hs := List.all_eq_true.mp hall pv hpv
        rw [hnone] at hs
        exact absurd hs (by simp)
    · rw [if_neg hall]
      have hx : ∃ pv ∈ sts.flatten, resolveLeaf g g.root pv.1 = none := by
        by_contra hc
        push_neg at hc
        apply hall
        refine List.all_eq_true.mpr fun pv hpv => ?_
        match hres : resolveLeaf g g.root pv.1 with
        | none => exact absurd hres (hc pv hpv)
        | some x => rfl
      exact ⟨fun _ => hx, fun _ => rfl⟩
  · intro g2 hg2
    rw [update_eq] at hg2
    by_cases hall : (sts.flatten.all fun pv => (resolveLeaf g g.root pv.1).isSome) = true
    · rw [if_pos hall] at hg2
      have hg3 := Option.some.inj hg2
      obtain ⟨s1, s2, s3⟩ := update_fold_spec g sts.flatten g.nodes (fun i => rfl)
      rw [← hg3]
      exact ⟨rfl, s1, s2, s3⟩
    · rw [if_neg hall] at hg2
      exact absurd hg2 (by simp)

/-! ### Concrete example graphs and witnesses -/

/-- A concrete example graph: one self-referencing Node with a static field,
a "param"-tagged leaf, an "inter"-tagged leaf and a self child reference. -/
def exG : Graph :=
  ⟨[⟨"Linear", [("din", .static 2), ("w", .leaf "param" (.val 1)),
    ("b", .leaf "inter" (.val 2)), ("sub", .child 0)]⟩], 0⟩

/-- The root Node of `exG`. -/
def exNode : Node :=
  ⟨"Linear", [("din", .static 2), ("w", .leaf "param" (.val 1)),
    ("b", .leaf "inter" (.val 2)), ("sub", .child 0)]⟩

/-- The GraphDef `split` produces for `exG`. -/
def exDef : GraphDef :=
  .mk "Linear" 0 [("din", 2)] [("w", "param"), ("b", "inter")]
    (.consRef "sub" 0 .nil)

/-- The flattened leaves `splitRaw` produces for `exG`. -/
def exFlat : List FLeaf :=
  [⟨["w"], "param", .val 1⟩, ⟨["b"], "inter", .val 2⟩]

/-- The States `split` returns for `exG` under the "param" filter. -/
def exStates : List StateL := [[(["w"], .val 1)], [(["b"], .val 2)]]

/-- A single filter matching the "param" tag. -/
def exFiltersParam : List TagFilter := [fun t => t == "param"]

/-- A single filter matching the "inter" tag. -/
def exFiltersInter : List TagFilter := [fun t => t == "inter"]

/-- The flatten result for the root of `exG`. -/
def exNRes : NRes := ⟨exDef, exFlat, [0]⟩

/-- An update writing 7 into the "w" slot of `exG`. -/
def exUpdStates : List StateL := [[(["w"], .val 7)]]

/-- `exG` after the update `exUpdStates`. -/
def exUpdated : Graph :=
  ⟨[⟨"Linear", [("din", .static 2), ("w", .leaf "param" (.val 7)),
    ("b", .leaf "inter" (.val 2)), ("sub", .child 0)]⟩], 0⟩

/-- The attribute name of the "param" leaf of `exG`. -/
def exNameW : String := "w"

/-- The attribute name of the "inter" leaf of `exG`. -/
def exNameB : String := "b"

/-- The name of the late-assigned leaf in the C10 witness. -/
def exNameY : String := "y"

/-- The "inter" tag. -/
def exTagInter : String := "inter"

theorem exG_flattenN : flattenN exG 2 0 [] [] = some exNRes := by
  have h4 : flattenAttrs exG 1 [("sub", .child 0)] [] [0] =
      some ⟨[], [], .consRef "sub" 0 .nil, [], [0]⟩ := by
    rw [fA_child_old exG 1 "sub" 0 0 [] [] [0] (by rfl), fA_nil]
    rfl
  have h3 : flattenAttrs exG 1
      [("b", .leaf "inter" (.val 2)), ("sub", .child 0)] [] [0] =
      some ⟨[], [("b", "inter")], .consRef "sub" 0 .nil,
        [⟨["b"], "inter", .val 2⟩], [0]⟩ := by
    rw [fA_leaf, h4]
    rfl
  have h2 : flattenAttrs exG 1
      [("w", .leaf "param" (.val 1)), ("b", .leaf "inter" (.val 2)),
        ("sub", .child 0)] [] [0] =
      some ⟨[], [("w", "param"), ("b", "inter")], .consRef "sub" 0 .nil,
        exFlat, [0]⟩ := by
    rw [fA_leaf, h3]
    rfl
  have h1 : flattenAttrs exG 1 exNode.attrs [] ([] ++ [0]) =
      some ⟨[("din", 2)], [("w", "param"), ("b", "inter")], .consRef "sub" 0 .nil,
        exFlat, [0]⟩ := by
    show flattenAttrs exG 1
      [("din", .static 2), ("w", .leaf "param" (.val 1)),
        ("b", .leaf "inter" (.val 2)), ("sub", .child 0)] [] [0] = _
    rw [fA_static, h2]
    rfl
  have hfin := fN_succ exG 1 0 [] [] exNode
    ⟨[("din", 2)], [("w", "param"), ("b", "inter")], .consRef "sub" 0 .nil,
      exFlat, [0]⟩ (by rfl) h1
  exact hfin.trans (by rfl)

theorem exG_splitRaw : splitRaw exG = some (exDef, exFlat) := by
  rw [splitRaw, show exG.nodes.length + 1 = 2 from rfl, show exG.root = 0 from rfl,
    exG_flattenN]
  rfl

theorem exG_split : split exG exFiltersParam = some (exStates, exDef) := by
  rw [split, exG_splitRaw]
  rfl

/-- The GraphDef the sorted-order flatten produces for `exG`. -/
def exDefS : GraphDef :=
  .mk "Linear" 0 [("din", 2)] [("b", "inter"), ("w", "param")]
    (.consRef "sub" 0 .nil)

/-- The flattened leaves the sorted-order flatten produces for `exG`. -/
def exFlatS : List FLeaf :=
  [⟨["b"], "inter", .val 2⟩, ⟨["w"], "param", .val 1⟩]

/-- The sorted-order flatten result for the root of `exG`. -/
def exNResS : NRes := ⟨exDefS, exFlatS, [0]⟩

/-- The notebook's `Linear` Node (src/unnamed/part_000): static din and dout,
then leaf `w` defined before leaf `b`. -/
def gLinNode : Node :=
  ⟨"Linear", [("din", .static 2), ("dout", .static 2),
    ("w", .leaf "param" (.val 1)), ("b", .leaf "param" (.val 2))]⟩

/-- The one-node graph of the notebook's `Linear` example. -/
def gLin : Graph := ⟨[gLinNode], 0⟩

/-- The GraphDef the sorted-order flatten produces for `gLin`. -/
def gLinDefS : GraphDef :=
  .mk "Linear" 0 [("din", 2), ("dout", 2)] [("b", "param"), ("w", "param")] .nil

/-- The flattened leaves the sorted-order flatten produces for `gLin`:
the `b` entry strictly before the `w` entry. -/
def gLinFlatS : List FLeaf :=
  [⟨["b"], "param", .val 2⟩, ⟨["w"], "param", .val 1⟩]

theorem exG_flattenNS : flattenNS exG 2 0 [] [] = some exNResS := by
  have h5 : flattenAttrsS exG 1 [("w", .leaf "param" (.val 1))] [] [0] =
      some ⟨[], [("w", "param")], .nil, [⟨["w"], "param", .val 1⟩], [0]⟩ := by
    rw [fAS_leaf, fAS_nil]
    rfl
  have h4 : flattenAttrsS exG 1
      [("sub", .child 0), ("w", .leaf "param" (.val 1))] [] [0] =
      some ⟨[], [("w", "param")], .consRef "sub" 0 .nil,
        [⟨["w"], "param", .val 1⟩], [0]⟩ := by
    rw [fAS_child_old exG 1 "sub" 0 0 [("w", .leaf "param" (.val 1))] [] [0] (by rfl),
      h5]
    rfl
  have h3 : flattenAttrsS exG 1
      [("din", .static 2), ("sub", .child 0), ("w", .leaf "param" (.val 1))] [] [0] =
      some ⟨[("din", 2)], [("w", "param")], .consRef "sub" 0 .nil,
        [⟨["w"], "param", .val 1⟩], [0]⟩ := by
    rw [fAS_static, h4]
    rfl
  have h2 : flattenAttrsS exG 1
      [("b", .leaf "inter" (.val 2)), ("din", .static 2), ("sub", .child 0),
        ("w", .leaf "param" (.val 1))] [] [0] =
      some ⟨[("din", 2)], [("b", "inter"), ("w", "param")], .consRef "sub" 0 .nil,
        exFlatS, [0]⟩ := by
    rw [fAS_leaf, h3]
    rfl
  have hfin := fNS_succ exG 1 0 [] [] exNode
    ⟨[("din", 2)], [("b", "inter"), ("w", "param")], .consRef "sub" 0 .nil,
      exFlatS, [0]⟩ (by rfl) h2
  exact hfin.trans (by rfl)

theorem gLin_flattenNS : flattenNS gLin 2 0 [] [] = some ⟨gLinDefS, gLinFlatS, [0]⟩ := by
  have h5 : flattenAttrsS gLin 1 [("w", .leaf "param" (.val 1))] [] [0] =
      some ⟨[], [("w", "param")], .nil, [⟨["w"], "param", .val 1⟩], [0]⟩ := by
    rw [fAS_leaf, fAS_nil]
    rfl
  have h4 : flattenAttrsS gLin 1
      [("dout", .static 2), ("w", .leaf "param" (.val 1))] [] [0] =
      some ⟨[("dout", 2)], [("w", "param")], .nil, [⟨["w"], "param", .val 1⟩], [0]⟩ := by
    rw [fAS_static, h5]
    rfl
  have h3 : flattenAttrsS gLin 1
      [("din", .static 2), ("dout", .static 2), ("w", .leaf "param" (.val 1))] [] [0] =
      some ⟨[("din", 2), ("dout", 2)], [("w", "param")], .nil,
        [⟨["w"], "param", .val 1⟩], [0]⟩ := by
    rw [fAS_static, h4]
    rfl
  have h2 : flattenAttrsS gLin 1
      [("b", .leaf "param" (.val 2)), ("din", .static 2), ("dout", .static 2),
        ("w", .leaf "param" (.val 1))] [] [0] =
      some ⟨[("din", 2), ("dout", 2)], [("b", "param"), ("w", "param")], .nil,
        gLinFlatS, [0]⟩ := by
    rw [fAS_leaf, h3]
    rfl
  have hfin := fNS_succ gLin 1 0 [] [] gLinNode
    ⟨[("din", 2), ("dout", 2)], [("b", "param"), ("w", "param")], .nil,
      gLinFlatS, [0]⟩ (by rfl) h2
  exact hfin.trans (by rfl)

/-- C4 counterexample.  In the notebook's `Linear` Node the attributes are
defined in the order din, dout, w, b — leaf `w` before leaf `b` — yet the
flatten matching the program's recorded output emits the State entry for `b`
strictly before the entry for `w`, refuting definition-order insertion. -/
theorem state_order_counterexample :
    (gLin.nodes[0]?).map Node.names = some ["din", "dout", "w", "b"] ∧
    (flattenNS gLin 2 0 [] []).map (fun r => r.flat.map FLeaf.path) =
      some [["b"], ["w"]] := by
  refine ⟨by rfl, ?_⟩
  rw [gLin_flattenNS]
  rfl

theorem state_order_sorted_witness :
    flattenNS exG 2 0 [] [] = some exNResS ∧
    ∃ fl1 fl2 fl3, exNResS.flat =
      fl1 ++ ⟨[exNameB], "inter", .val 2⟩ :: (fl2 ++ ⟨[exNameW], "param", .val 1⟩ :: fl3) :=
  ⟨exG_flattenNS,
    state_order_sorted exG 2 0 [] [] exNResS exNode []
      [("din", .static 2), ("sub", .child 0)] []
      exNameB "inter" exNameW "param" (.val 2) (.val 1) exG_flattenNS (by rfl) (by rfl)⟩

theorem roundTrip_witness :
    exG.wf ∧ split exG exFiltersParam = some (exStates, exDef) ∧
    ∃ g2 states2, merge exDef exStates = some g2 ∧
      split g2 exFiltersParam = some (states2, exDef) ∧
      List.Forall₂ (fun s2 s1 => s2.Perm s1) states2 exStates :=
  ⟨by decide, exG_split,
    roundTrip exG exFiltersParam exStates exDef (by decide) exG_split⟩

theorem identity_preservation_witness :
    exG.wf ∧ merge exDef exStates = some exG ∧
    ∃ nd2, exG.nodes[exG.root]? = some nd2 ∧
      (∀ name, (name, Attr.child exG.root) ∈ exNode.attrs →
        (name, Attr.child exG.root) ∈ nd2.attrs) ∧
      (∀ n1 n2 hch, (n1, Attr.child hch) ∈ exNode.attrs →
        (n2, Attr.child hch) ∈ exNode.attrs →
        ∃ h2, (n1, Attr.child h2) ∈ nd2.attrs ∧ (n2, Attr.child h2) ∈ nd2.attrs) :=
  ⟨by decide, by decide,
    identity_preservation exG exFiltersParam exStates exDef exG exNode (by decide)
      exG_split (by decide) (by decide)⟩

theorem split_partition_witness :
    exG.wf ∧
    (List.Pairwise (fun s1 s2 => ∀ p, p ∈ s1.map Prod.fst → p ∉ s2.map Prod.fst)
        exStates ∧
      (∀ p, (∃ s ∈ exStates, p ∈ s.map Prod.fst) ↔
        p ∈ (defLeaves exDef []).map Prod.fst)) :=
  ⟨by decide, split_partition exG exFiltersParam exStates exDef (by decide) exG_split⟩

theorem split_arity_witness :
    split exG exFiltersParam = some (exStates, exDef) ∧
    exStates.length = if exFiltersParam.isEmpty then 1 else exFiltersParam.length + 1 :=
  ⟨exG_split, split_arity exG exFiltersParam exStates exDef exG_split⟩

theorem graphdef_backref_invariant_witness :
    exG.wf ∧ splitRaw exG = some (exDef, exFlat) ∧
    (wfFrom 0 exDef = some (defCount exDef) ∧
      (exFlat.map FLeaf.path).Nodup ∧
      (∀ nd name, exG.nodes[exG.root]? = some nd →
        (name, Attr.child exG.root) ∈ nd.attrs →
        csRef exDef.children name = some 0)) :=
  ⟨by decide, exG_splitRaw,
    graphdef_backref_invariant exG exDef exFlat (by decide) exG_splitRaw⟩

theorem pop_frame_witness :
    exG.wf ∧ splitRaw exG = some (exDef, exFlat) ∧
    ∃ g2, pop exG exFiltersInter = some
        ((exFlat.filter fun e => matchesAny exFiltersInter e.tag).map fun e =>
          (e.path, e.val), g2) ∧
      g2.root = exG.root ∧ g2.nodes.length = exG.nodes.length ∧
      splitRaw g2 = some (exDef, exFlat.map (emptyIfMatching exFiltersInter)) :=
  ⟨by decide, exG_splitRaw,
    pop_frame exG exFiltersInter exDef exFlat (by decide) exG_splitRaw⟩

theorem update_atomic_witness :
    update exG exUpdStates = some exUpdated ∧
    slotValue exUpdated.nodes 0 exNameW = some (.val 7) ∧
    slotValue exUpdated.nodes 0 exNameB = slotValue exG.nodes 0 exNameB := by
  have h := (update_atomic exG exUpdStates).2 exUpdated (by decide)
  refine ⟨by decide, ?_, ?_⟩
  · exact h.2.2.2 (by decide) ([exNameW], LeafVal.val 7) (by decide) 0 exNameW (by decide)
  · exact h.2.2.1 0 exNameB (by decide)

theorem operations_terminate_witness :
    exG.wf ∧ ((splitRaw exG).isSome ∧ (split exG exFiltersParam).isSome ∧
      (pop exG exFiltersParam).isSome) :=
  ⟨by decide, operations_terminate exG exFiltersParam (by decide)⟩

theorem late_leaf_witness :
    exG.wf ∧
    (splitRaw ⟨exG.nodes.set exG.root
        ⟨exNode.type, exNode.attrs ++ [(exNameY, .leaf exTagInter (.val 9))]⟩, exG.root⟩ =
      some (.mk exDef.type 0 exDef.statics (exDef.leafSlots ++ [(exNameY, exTagInter)])
          exDef.children,
        exFlat ++ [⟨[exNameY], exTagInter, .val 9⟩]) ∧
    (∀ fs, matchesAny fs exTagInter = true →
      ∃ st4 g4,
        pop ⟨exG.nodes.set exG.root
            ⟨exNode.type, exNode.attrs ++ [(exNameY, .leaf exTagInter (.val 9))]⟩,
          exG.root⟩ fs = some (st4, g4) ∧ ([exNameY], .val 9) ∈ st4)) :=
  ⟨by decide,
    late_leaf exG exNode exNameY exTagInter (.val 9) exDef exFlat (by decide) (by decide)
      (by decide) exG_splitRaw⟩

end Flax
